import Mathlib

/-!
# Recurrence-rule engine of `model/repetitionRule.go`

A shallow embedding of the Go source and of the parts of the Go standard
library it calls (`time`, `strconv`, `strings`), followed by theorems about
the embedded functions.

Modelling conventions.

* A `time.Time` is an instant: a count of nanoseconds since
  0001-01-01 00:00:00 UTC, held in an unbounded `Int`.  Go keeps a 64-bit
  second counter (about 292 billion years on either side); that bound is not
  modelled.  Every date handled by the engine is in UTC (`time.Parse` with a
  layout without zone yields UTC), and `Before`/`After` compare instants, so
  the location of `now` plays no role.
* Calendar conversions follow the cycle-splitting algorithms of Go's
  `time` package (`daysSinceEpoch`, `absDate`, `Date`, `norm`), with day 0
  placed at 0001-01-01, a Monday.
* Go strings are Lean `String`s; one-byte separators are `Char`s.
* A Go function returning `(string, error)` returns `String × Option Error`.
* `for` loops that have no syntactic bound take a fuel argument, the number of
  loop tests allowed, and return `none` when the fuel is used up before the
  loop exits.  "Returns" in a theorem means: returns for every fuel from a
  stated bound on.
* "Before" and "after" are `Time.Before` and `Time.After`, comparisons of
  instants, as in the source; `now` may carry a time of day.
-/

namespace TaskScheduler

/-! ## Go `time` package -/

/-- An instant, in nanoseconds since 0001-01-01 00:00:00 UTC. -/
structure Time where
  ns : Int
  deriving DecidableEq, Repr

/-- Nanoseconds in a day. -/
def nsPerDay : Int := 86400000000000

/-- Go `isLeap`: `year%4 == 0 && (year%100 != 0 || year%400 == 0)`. -/
def isLeap (year : Int) : Bool :=
  year % 4 == 0 && (year % 100 != 0 || year % 400 == 0)

/-- Go `daysBefore[m]`: days in a non-leap year before month `m + 1`. -/
def daysBefore : Nat → Int
  | 0 => 0
  | 1 => 31
  | 2 => 59
  | 3 => 90
  | 4 => 120
  | 5 => 151
  | 6 => 181
  | 7 => 212
  | 8 => 243
  | 9 => 273
  | 10 => 304
  | 11 => 334
  | _ => 365

/-- Go `norm(hi, lo, base)`: bring `lo` into `[0, base)`, carrying into `hi`.
The divisions act on non-negative operands, as in Go. -/
def norm (hi lo base : Int) : Int × Int :=
  let (hi1, lo1) :=
    if lo < 0 then
      let n := (-lo - 1) / base + 1
      (hi - n, lo + n * base)
    else (hi, lo)
  if lo1 ≥ base then
    let n := lo1 / base
    (hi1 + n, lo1 - n * base)
  else (hi1, lo1)

/-- Go `daysSinceEpoch(year)`: days from 0001-01-01 to January 1 of `year`,
by 400-, 100- and 4-year cycles. -/
def daysSinceEpoch (year : Int) : Int :=
  let y := year - 1
  let n := y / 400
  let y1 := y - 400 * n
  let d := 146097 * n
  let n1 := y1 / 100
  let y2 := y1 - 100 * n1
  let d1 := d + 36524 * n1
  let n2 := y2 / 4
  let y3 := y2 - 4 * n2
  let d2 := d1 + 1461 * n2
  d2 + 365 * y3

/-- The day part of Go `time.Date(year, month, day, ...)`: the day number of a
possibly unnormalised civil date (month and day may be out of range). -/
def dateToDays (year month day : Int) : Int :=
  let (year1, m) := norm year (month - 1) 12
  let d := daysSinceEpoch year1 + daysBefore m.toNat
  let d1 := if isLeap year1 && decide (m + 1 ≥ 3) then d + 1 else d
  d1 + (day - 1)

/-- Go `time.Date(year, month, day, h, m, s, ns, UTC)`, the clock fields given
as one offset `tod` in nanoseconds. -/
def mkDate (year month day tod : Int) : Time :=
  ⟨dateToDays year month day * nsPerDay + tod⟩

/-- The year and the zero-based day of the year of a day number (first half of
Go `absDate`). -/
def absYday (d : Int) : Int × Int :=
  let n := d / 146097
  let y := 400 * n
  let d1 := d - 146097 * n
  let n1 := d1 / 36524
  let n1a := n1 - n1 / 4
  let y1 := y + 100 * n1a
  let d2 := d1 - 36524 * n1a
  let n2 := d2 / 1461
  let y2 := y1 + 4 * n2
  let d3 := d2 - 1461 * n2
  let n3 := d3 / 365
  let n3a := n3 - n3 / 4
  let y3 := y2 + n3a
  let d4 := d3 - 365 * n3a
  (y3 + 1, d4)

/-- Month and day of the month from the year's leapness and the zero-based day
of the year (second half of Go `absDate`). -/
def monthDay (leap : Bool) (yday : Int) : Int × Int :=
  if leap && decide (yday = 31 + 29 - 1) then (2, 29)
  else
    let day := if leap && decide (yday > 31 + 29 - 1) then yday - 1 else yday
    let month := day / 31
    let endd := daysBefore (month + 1).toNat
    if day ≥ endd then (month + 2, day - endd + 1)
    else (month + 1, day - daysBefore month.toNat + 1)

/-- Go `absDate`: year, month, day of a day number. -/
def absDate (d : Int) : Int × Int × Int :=
  let (year, yday) := absYday d
  let (month, day) := monthDay (isLeap year) yday
  (year, month, day)

namespace Time

/-- Day number of an instant (UTC). -/
def days (t : Time) : Int := t.ns / nsPerDay

/-- Nanoseconds since midnight (UTC). -/
def clock (t : Time) : Int := t.ns % nsPerDay

/-- Go `t.Date()`. -/
def Date (t : Time) : Int × Int × Int := absDate t.days

/-- Go `t.Year()`. -/
def Year (t : Time) : Int := t.Date.1

/-- Go `t.Month()`. -/
def Month (t : Time) : Int := t.Date.2.1

/-- Go `t.Day()`. -/
def Day (t : Time) : Int := t.Date.2.2

/-- Go `t.Weekday()`: 0 is Sunday, 1 Monday, ..., 6 Saturday; day 0 is a
Monday. -/
def Weekday (t : Time) : Int := (t.days + 1) % 7

/-- Go `t.Before(u)`. -/
def Before (t u : Time) : Bool := decide (t.ns < u.ns)

/-- Go `t.After(u)`. -/
def After (t u : Time) : Bool := decide (t.ns > u.ns)

/-- Go `t.AddDate(years, months, days)`: the civil fields of `t` shifted and
renormalised by `time.Date`, the clock kept. -/
def AddDate (t : Time) (years months days : Int) : Time :=
  let (year, month, day) := t.Date
  mkDate (year + years) (month + months) (day + days) t.clock

end Time

/-- Modelled from the spec: the repository's `errors` package, which declares
`ErrRepeatNotSpecified` and `ErrNotValidRepeat`, is not among the sources.
`ErrRepeatNotSpecified` is the spec's `RepeatNotSpecified` and
`ErrNotValidRepeat` its `InvalidRule`; they are distinct error values.  The
other constructors are the errors of the Go library that the engine passes on
unchanged: `ParseError` is the `*time.ParseError` of `time.Parse`, the only
error the source returns for a malformed base date and so the spec's
`InvalidDateFormat`; `NumErrSyntax` and `NumErrRange` are the
`*strconv.NumError` of `strconv.Atoi` wrapping `ErrSyntax` and `ErrRange`. -/
inductive Error where
  | ErrRepeatNotSpecified
  | ErrNotValidRepeat
  | ParseError
  | NumErrSyntax
  | NumErrRange
  deriving DecidableEq, Repr

/-- Go `isDigit`: an ASCII decimal digit. -/
def isDigit (c : Char) : Bool := decide ('0' ≤ c) && decide (c ≤ '9')

/-- Value of an ASCII decimal digit. -/
def digitVal (c : Char) : Nat := c.toNat - 48

/-- Go `appendInt(b, x, width)` of package `time`: sign, then the decimal
digits of `|x|` left-padded with zeros to `width`. -/
def appendInt (x : Int) (width : Nat) : List Char :=
  let ds := Nat.toDigits 10 x.natAbs
  (if x < 0 then ['-'] else []) ++ List.replicate (width - ds.length) '0' ++ ds

/-- Go `t.Format(TimeLayout)` for the layout `"20060102"`: four-digit year,
two-digit month, two-digit day. -/
def Time.Format (t : Time) : String :=
  let (year, month, day) := t.Date
  String.mk (appendInt year 4 ++ appendInt month 2 ++ appendInt day 2)

/-- Go `daysIn(m, year)` of package `time`. -/
def daysIn (m year : Int) : Int :=
  if m = 2 && isLeap year then 29
  else daysBefore m.toNat - daysBefore (m - 1).toNat

/-- Go `time.Parse(TimeLayout, value)` for the layout `"20060102"`: exactly
eight ASCII digits, month in 1..12, day within the month; the result is
midnight UTC of that date. -/
def timeParse (value : String) : Except Error Time :=
  match value.data with
  | [y1, y2, y3, y4, m1, m2, d1, d2] =>
    if [y1, y2, y3, y4, m1, m2, d1, d2].all isDigit then
      let year : Int := (digitVal y1 * 1000 + digitVal y2 * 100 + digitVal y3 * 10 + digitVal y4 : Nat)
      let month : Int := (digitVal m1 * 10 + digitVal m2 : Nat)
      let day : Int := (digitVal d1 * 10 + digitVal d2 : Nat)
      if month ≤ 0 ∨ 12 < month then .error .ParseError
      else if day < 1 ∨ day > daysIn month year then .error .ParseError
      else .ok (mkDate year month day 0)
    else .error .ParseError
  | _ => .error .ParseError

/-! ## Go `strings` and `strconv` -/

/-- Go `strings.Split(s, sep)` on character lists, for a one-byte `sep`. -/
def splitChars (sep : Char) : List Char → List (List Char)
  | [] => [[]]
  | c :: cs =>
    if c = sep then [] :: splitChars sep cs
    else
      match splitChars sep cs with
      | [] => [[c]]
      | x :: xs => (c :: x) :: xs

/-- Go `strings.Split(s, sep)` for a one-byte separator. -/
def stringsSplit (s : String) (sep : Char) : List String :=
  (splitChars sep s.data).map String.mk

/-- The digit loop of Go `strconv.ParseUint(s, 10, 64)`: `n` is the value
read so far; a non-digit is a syntax error, an overflow of 64 bits a range
error, whichever comes first. -/
def parseUintLoop : List Char → Nat → Except Error Nat
  | [], n => .ok n
  | c :: cs, n =>
    if isDigit c then
      if n ≥ 1844674407370955162 then .error .NumErrRange
      else
        let n1 := n * 10 + digitVal c
        if n1 ≥ 18446744073709551616 then .error .NumErrRange
        else parseUintLoop cs n1
    else .error .NumErrSyntax

/-- Go `strconv.Atoi(s)` on a 64-bit platform: an optional sign followed by
one or more ASCII digits, the value within `int64`. -/
def strconvAtoi (s : String) : Except Error Int :=
  match s.data with
  | [] => .error .NumErrSyntax
  | c :: cs =>
    let neg := decide (c = '-')
    let body := if c = '+' ∨ c = '-' then cs else c :: cs
    if body.isEmpty then .error .NumErrSyntax
    else
      match parseUintLoop body 0 with
      | .error e => .error e
      | .ok un =>
        if !neg && decide (un ≥ 9223372036854775808) then .error .NumErrRange
        else if neg && decide (un > 9223372036854775808) then .error .NumErrRange
        else .ok (if neg then -(un : Int) else (un : Int))

/-! ## `model/repetitionRule.go` -/

/-- Source `TimeLayout`, the layout `Time.Format` and `timeParse` are
specialised to. -/
def TimeLayout : String := "20060102"

/-- Source `period`. -/
def period : List String := ["d", "w", "m", "y"]

/-- Source `Repeat`. -/
structure Repeat where
  Period : String
  FirstSlice : List Int
  SecondSlice : List Int
  deriving DecidableEq, Repr

/-- The zero value `Repeat{}`. -/
def Repeat.zero : Repeat := ⟨"", [], []⟩

/-- Source `sliceStringToInt`. -/
def sliceStringToInt : List String → List Int × Option Error
  | [] => ([], none)
  | str :: rest =>
    match strconvAtoi str with
    | .error err => ([], some err)
    | .ok num =>
      match sliceStringToInt rest with
      | (_, some err) => ([], some err)
      | (intSlice, none) => (num :: intSlice, none)

/-- Source `ParseRepeat`. -/
def ParseRepeat (rep : String) : Repeat × Option Error :=
  let repeatSlice := stringsSplit rep ' '
  let repeatPeriod := repeatSlice.headD ""
  let validRepeatRule :=
    (List.range period.length).foldl
      (fun v i => if repeatPeriod = period.getD i "" then true else v) false
  if !validRepeatRule then (Repeat.zero, some .ErrNotValidRepeat)
  else if repeatSlice.length < 2 then (⟨repeatPeriod, [], []⟩, none)
  else
    let firstStrSlice := stringsSplit (repeatSlice.getD 1 "") ','
    match sliceStringToInt firstStrSlice with
    | (_, some err) => (Repeat.zero, some err)
    | (firstIntSlice, none) =>
      if repeatSlice.length < 3 then (⟨repeatPeriod, firstIntSlice, []⟩, none)
      else
        let secondStrSlice := stringsSplit (repeatSlice.getD 2 "") ','
        match sliceStringToInt secondStrSlice with
        | (_, some err) => (Repeat.zero, some err)
        | (secondIntSlice, none) => (⟨repeatPeriod, firstIntSlice, secondIntSlice⟩, none)

/-- Source `daysInMonth`: the day of `time.Date(year, month+1, 0, ...)`. -/
def daysInMonth (t : Time) : Int :=
  (mkDate t.Year (t.Month + 1) 0 0).Day

/-- Source `isValidDay`; the map `dayMap` is a total function, absent keys
reading `false`. -/
def isValidDay (nextDate : Time) (dayMap : Int → Bool) : Bool :=
  let dInMonth := daysInMonth nextDate
  let day := nextDate.Day
  dayMap day || (decide (day = dInMonth) && dayMap (-1)) ||
    (decide (day = dInMonth - 1) && dayMap (-2))

/-- Assignment `m[k] = v` on a map read as a total function. -/
def mapSet (m : Int → Bool) (k : Int) (v : Bool) : Int → Bool :=
  fun i => if i = k then v else m i

/-- The loop of source `dParse`: add `interval` days while before `now`. -/
def dParseLoop (now : Time) (interval : Int) : Nat → Time → Option Time
  | 0, _ => none
  | fuel + 1, nextDate =>
    if nextDate.Before now then dParseLoop now interval fuel (nextDate.AddDate 0 0 interval)
    else some nextDate

/-- Source `dParse`. -/
def dParse (fuel : Nat) (now date : Time) (rep : Repeat) : Option (String × Option Error) :=
  if rep.FirstSlice.length ≠ 1 then some ("", some .ErrNotValidRepeat)
  else
    let interval := rep.FirstSlice.headD 0
    if interval > 400 ∨ interval < 1 then some ("", some .ErrNotValidRepeat)
    else
      (dParseLoop now interval fuel (date.AddDate 0 0 interval)).map
        fun nextDate => (nextDate.Format, none)

/-- The search loop of source `wParse`. -/
def wParseLoop (now : Time) (weekDays : Int → Bool) : Nat → Time → Option Time
  | 0, _ => none
  | fuel + 1, nextDate =>
    if weekDays nextDate.Weekday then
      if nextDate.After now then some nextDate
      else wParseLoop now weekDays fuel (nextDate.AddDate 0 0 1)
    else wParseLoop now weekDays fuel (nextDate.AddDate 0 0 1)

/-- The weekday map built by source `wParse`: all `false`, then `true` at each
listed day, 7 stored under key 0. -/
def weekDaysOf (interval : List Int) : Int → Bool :=
  interval.foldl (fun m day => if day = 7 then mapSet m 0 true else mapSet m day true)
    (fun _ => false)

/-- Source `wParse`. -/
def wParse (fuel : Nat) (now date : Time) (rep : Repeat) : Option (String × Option Error) :=
  if rep.FirstSlice.length < 1 ∨ rep.FirstSlice.length > 7 then
    some ("", some .ErrNotValidRepeat)
  else
    let interval := rep.FirstSlice
    if interval.any (fun elem => decide (elem < 1 ∨ elem > 7)) then
      some ("", some .ErrNotValidRepeat)
    else
      let weekDays := weekDaysOf interval
      let nextDate := date.AddDate 0 0 1
      (wParseLoop now weekDays fuel nextDate).map fun d => (d.Format, none)

/-- The search loop of source `mParse` without additional parameters. -/
def mParseLoop (now : Time) (dayMap : Int → Bool) : Nat → Time → Option Time
  | 0, _ => none
  | fuel + 1, nextDate =>
    if isValidDay nextDate dayMap then
      if nextDate.After now then some nextDate
      else mParseLoop now dayMap fuel (nextDate.AddDate 0 0 1)
    else mParseLoop now dayMap fuel (nextDate.AddDate 0 0 1)

/-- The labelled search loop of source `mParse` with additional parameters. -/
def mParseLoopMonths (now : Time) (dayMap : Int → Bool) (months : List Int) :
    Nat → Time → Option Time
  | 0, _ => none
  | fuel + 1, nextDate =>
    let flag :=
      if isValidDay nextDate dayMap then (if nextDate.After now then true else false)
      else false
    if months.any (fun month => decide (nextDate.Month = month) && flag) then some nextDate
    else mParseLoopMonths now dayMap months fuel (nextDate.AddDate 0 0 1)

/-- The day map built by source `mParse`: all `false`, then `true` at each
listed day. -/
def dayMapOf (days : List Int) : Int → Bool :=
  days.foldl (fun m day => mapSet m day true) (fun _ => false)

/-- Source `mParse`. -/
def mParse (fuel : Nat) (now date : Time) (rep : Repeat) : Option (String × Option Error) :=
  if rep.FirstSlice.length = 0 then some ("", some .ErrNotValidRepeat)
  else
    let additionalParameters := decide (rep.SecondSlice.length ≠ 0)
    let days := rep.FirstSlice
    if days.any (fun day => decide (day < -2 ∨ day > 31 ∨ day = 0)) then
      some ("", some .ErrNotValidRepeat)
    else
      let months := if additionalParameters then rep.SecondSlice else []
      if additionalParameters && months.any (fun m => decide (m < 1 ∨ m > 12)) then
        some ("", some .ErrNotValidRepeat)
      else
        let dayMap := dayMapOf days
        let nextDate := date.AddDate 0 0 1
        if !additionalParameters then
          (mParseLoop now dayMap fuel nextDate).map fun d => (d.Format, none)
        else
          (mParseLoopMonths now dayMap months fuel nextDate).map fun d => (d.Format, none)

/-- The loop of source `yParse`: add one year while before `now`. -/
def yParseLoop (now : Time) : Nat → Time → Option Time
  | 0, _ => none
  | fuel + 1, nextDate =>
    if nextDate.Before now then yParseLoop now fuel (nextDate.AddDate 1 0 0)
    else some nextDate

/-- Source `yParse`. -/
def yParse (fuel : Nat) (now date : Time) (rep : Repeat) : Option (String × Option Error) :=
  if rep.FirstSlice.length ≠ 0 then some ("", some .ErrNotValidRepeat)
  else
    (yParseLoop now fuel (date.AddDate 1 0 0)).map fun nextDate => (nextDate.Format, none)

/-- Source `NextDate`. -/
def NextDate (fuel : Nat) (now : Time) (date : String) (rep : String) :
    Option (String × Option Error) :=
  if rep = "" then some ("", some .ErrRepeatNotSpecified)
  else
    match timeParse date with
    | .error err => some ("", some err)
    | .ok parseDate =>
      match ParseRepeat rep with
      | (_, some err) => some ("", some err)
      | (parseRepeatRule, none) =>
        if parseRepeatRule.Period = period.getD 0 "" then dParse fuel now parseDate parseRepeatRule
        else if parseRepeatRule.Period = period.getD 1 "" then
          wParse fuel now parseDate parseRepeatRule
        else if parseRepeatRule.Period = period.getD 2 "" then
          mParse fuel now parseDate parseRepeatRule
        else if parseRepeatRule.Period = period.getD 3 "" then
          yParse fuel now parseDate parseRepeatRule
        else some ("", none)

/-! ## Definitions used to state and prove the theorems -/

/-- Length of month `m` (1..12) given the year's leapness, from `daysBefore`. -/
def monthLen (leap : Bool) (m : Int) : Int :=
  if m = 2 ∧ leap = true then 29 else daysBefore m.toNat - daysBefore (m - 1).toNat

/-- Zero-based day of the year of day `d` of month `m`. -/
def ydayOf (leap : Bool) (m d : Int) : Int :=
  daysBefore (m - 1).toNat + (if leap = true ∧ 3 ≤ m then 1 else 0) + (d - 1)

/-- The instant `k` days after `t` (same clock). -/
def Time.addDays (t : Time) (k : Int) : Time := ⟨t.ns + k * nsPerDay⟩

/-- A loop that returns the first of `t, step t, step (step t), ...` on which
`stop` holds, within `fuel` tests. -/
def iterUntil (stop : Time → Bool) (step : Time → Time) : Nat → Time → Option Time
  | 0, _ => none
  | fuel + 1, t => if stop t then some t else iterUntil stop step fuel (step t)

/-- Gregorian leap year, in the spec's words: divisible by 4 and not by 100, or
divisible by 400. -/
def gregorianLeap (year : Int) : Prop :=
  (4 ∣ year ∧ ¬ 100 ∣ year) ∨ 400 ∣ year

instance (year : Int) : Decidable (gregorianLeap year) :=
  inferInstanceAs (Decidable ((4 ∣ year ∧ ¬ 100 ∣ year) ∨ 400 ∣ year))

/-- Gregorian length of a month: 31 or 30 days, February 28, and 29 in leap
years. -/
def gregorianMonthLength (year month : Int) : Int :=
  if month = 2 then (if gregorianLeap year then 29 else 28)
  else if month = 4 ∨ month = 6 ∨ month = 9 ∨ month = 11 then 30
  else 31

/-- The weekday of `t` is listed in a week rule: values 1..6 are Monday to
Saturday as numbered by `Weekday`, and 7 stands for Sunday (`Weekday` 0). -/
def weekdayListed (interval : List Int) (t : Time) : Prop :=
  t.Weekday ∈ interval ∨ (t.Weekday = 0 ∧ (7 : Int) ∈ interval)

instance (interval : List Int) (t : Time) : Decidable (weekdayListed interval t) :=
  inferInstanceAs (Decidable (t.Weekday ∈ interval ∨ (t.Weekday = 0 ∧ (7 : Int) ∈ interval)))

/-- The day of `t` matches a day specifier list: its day number is listed, or
`-1` is listed and it is the last day of its month, or `-2` is listed and it
is the second-to-last day of its month. -/
def dayListed (days : List Int) (t : Time) : Prop :=
  t.Day ∈ days ∨ ((-1 : Int) ∈ days ∧ t.Day = gregorianMonthLength t.Year t.Month) ∨
    ((-2 : Int) ∈ days ∧ t.Day = gregorianMonthLength t.Year t.Month - 1)

instance (days : List Int) (t : Time) : Decidable (dayListed days t) :=
  inferInstanceAs (Decidable (t.Day ∈ days ∨
    ((-1 : Int) ∈ days ∧ t.Day = gregorianMonthLength t.Year t.Month) ∨
    ((-2 : Int) ∈ days ∧ t.Day = gregorianMonthLength t.Year t.Month - 1)))

/-- The first space-separated token of a rule string: the characters before
its first space (the whole string when it has none). -/
def firstToken (rs : String) : String :=
  String.mk (rs.data.takeWhile fun c => decide (c ≠ ' '))

/-- A daily rule is valid when its first list is a single interval in
`[1, 400]`. -/
def dailyValid (rep : Repeat) : Prop :=
  ∃ n : Int, rep.FirstSlice = [n] ∧ 1 ≤ n ∧ n ≤ 400

/-- A weekly rule is valid when its first list has 1 to 7 values, each in
`[1, 7]`. -/
def weeklyValid (rep : Repeat) : Prop :=
  1 ≤ rep.FirstSlice.length ∧ rep.FirstSlice.length ≤ 7 ∧
    ∀ v ∈ rep.FirstSlice, 1 ≤ v ∧ v ≤ 7

/-- A monthly rule is valid when its first list is non-empty with values in
`[-2, 31]` other than 0 and its second list has values in `[1, 12]` only. -/
def monthlyValid (rep : Repeat) : Prop :=
  rep.FirstSlice ≠ [] ∧ (∀ v ∈ rep.FirstSlice, -2 ≤ v ∧ v ≤ 31 ∧ v ≠ 0) ∧
    ∀ m ∈ rep.SecondSlice, 1 ≤ m ∧ m ≤ 12

/-- The rule passes the validation of the strategy its period selects. -/
def ruleValid (r : Repeat) : Prop :=
  (r.Period = "d" ∧ dailyValid r) ∨ (r.Period = "w" ∧ weeklyValid r) ∨
    (r.Period = "m" ∧ monthlyValid r) ∨ (r.Period = "y" ∧ r.FirstSlice = [])

/-- The first candidate a strategy tests: `base + interval days` for a daily
rule, `base + 1 year` for a yearly rule, `base + 1 day` otherwise. -/
def firstCandidate (r : Repeat) (base : Time) : Time :=
  if r.Period = "d" then base.addDays (r.FirstSlice.headD 0)
  else if r.Period = "y" then base.AddDate 1 0 0
  else base.addDays 1

/-- The candidate a strategy tests after `t`. -/
def nextCandidate (r : Repeat) (t : Time) : Time :=
  if r.Period = "d" then t.addDays (r.FirstSlice.headD 0)
  else if r.Period = "y" then t.AddDate 1 0 0
  else t.addDays 1

/-- The acceptance test of a strategy: not before `now` for daily and yearly
rules; a listed weekday strictly after `now` for weekly rules; a listed day,
in a listed month when there is a month list, strictly after `now` for monthly
rules. -/
def accepts (r : Repeat) (now t : Time) : Bool :=
  if r.Period = "d" ∨ r.Period = "y" then !t.Before now
  else if r.Period = "w" then weekDaysOf r.FirstSlice t.Weekday && t.After now
  else (decide (r.SecondSlice = []) || decide (t.Month ∈ r.SecondSlice)) &&
    (isValidDay t (dayMapOf r.FirstSlice) && t.After now)

/-- Go `strconv.Itoa`: the decimal rendering of an integer, with a `-` sign for
a negative one. -/
def itoa (x : Int) : String :=
  String.mk ((if x < 0 then ['-'] else []) ++ Nat.toDigits 10 x.natAbs)

/-- A list of integers rendered in decimal and joined by commas. -/
def joinInts (xs : List Int) : String :=
  String.mk (List.intercalate [','] (xs.map fun x => (itoa x).data))

/-- The range of a Go `int` on a 64-bit platform. -/
def inInt64 (x : Int) : Prop :=
  -9223372036854775808 ≤ x ∧ x ≤ 9223372036854775807

/-- An integer literal, its size aside: an optional sign followed by one or
more ASCII decimal digits. -/
def isIntLiteral (s : String) : Bool :=
  match s.data with
  | [] => false
  | c :: cs =>
    let body := if c = '+' ∨ c = '-' then cs else c :: cs
    !body.isEmpty && body.all isDigit

/-- A base-date text in the fixed format: exactly eight ASCII digits `YYYYMMDD`
with the month in 1..12 and the day within the Gregorian month. -/
def validDateText (ds : String) : Prop :=
  ∃ y1 y2 y3 y4 m1 m2 d1 d2 : Char, ds.data = [y1, y2, y3, y4, m1, m2, d1, d2] ∧
    [y1, y2, y3, y4, m1, m2, d1, d2].all isDigit = true ∧
    1 ≤ digitVal m1 * 10 + digitVal m2 ∧ digitVal m1 * 10 + digitVal m2 ≤ 12 ∧
    1 ≤ digitVal d1 * 10 + digitVal d2 ∧
    ((digitVal d1 * 10 + digitVal d2 : Nat) : Int) ≤
      gregorianMonthLength
        ((digitVal y1 * 1000 + digitVal y2 * 100 + digitVal y3 * 10 + digitVal y4 : Nat) : Int)
        ((digitVal m1 * 10 + digitVal m2 : Nat) : Int)

/-! # Theorems -/

/-! ## Calendar arithmetic -/

theorem norm_twelve (hi lo : Int) : norm hi lo 12 = (hi + lo / 12, lo % 12) := by
  unfold norm
  by_cases h : lo < 0
  · simp only [h, if_true]
    split
    · omega
    · ext <;> simp <;> omega
  · simp only [h, if_false]
    split
    · ext <;> simp <;> omega
    · ext <;> simp <;> omega

theorem dateToDays_add (y m d n : Int) : dateToDays y m (d + n) = dateToDays y m d + n := by
  simp only [dateToDays]
  split <;> omega

set_option maxHeartbeats 1000000 in
theorem monthDay_spec (leap : Bool) (yd : Int) (h0 : 0 ≤ yd)
    (h1 : yd < if leap then 366 else 365) :
    1 ≤ (monthDay leap yd).1 ∧ (monthDay leap yd).1 ≤ 12 ∧ 1 ≤ (monthDay leap yd).2 ∧
      (monthDay leap yd).2 ≤ monthLen leap (monthDay leap yd).1 ∧
      ydayOf leap (monthDay leap yd).1 (monthDay leap yd).2 = yd := by
  cases leap
  · simp only [monthDay, Bool.false_and, Bool.false_eq_true, if_false] at h1 ⊢
    have hq : 0 ≤ yd / 31 ∧ yd / 31 ≤ 11 := by omega
    have hq2 : 31 * (yd / 31) ≤ yd ∧ yd < 31 * (yd / 31) + 31 := by omega
    generalize yd / 31 = q at hq hq2 ⊢
    obtain ⟨hqa, hqb⟩ := hq
    interval_cases q <;> simp [daysBefore, monthLen, ydayOf] <;> split <;> simp [daysBefore] <;> omega
  · simp only [monthDay, Bool.true_and, if_true] at h1 ⊢
    by_cases h59 : yd = 31 + 29 - 1
    · subst h59
      simp [monthLen, ydayOf, daysBefore]
    · simp only [decide_eq_true_eq, h59, if_false]
      have hq : 0 ≤ (if yd > 31 + 29 - 1 then yd - 1 else yd) / 31 ∧
          (if yd > 31 + 29 - 1 then yd - 1 else yd) / 31 ≤ 11 := by
        split <;> omega
      have hq2 : 31 * ((if yd > 31 + 29 - 1 then yd - 1 else yd) / 31) ≤
            (if yd > 31 + 29 - 1 then yd - 1 else yd) ∧
          (if yd > 31 + 29 - 1 then yd - 1 else yd) <
            31 * ((if yd > 31 + 29 - 1 then yd - 1 else yd) / 31) + 31 := by
        split <;> omega
      have hd : (if yd > 31 + 29 - 1 then yd - 1 else yd) = yd ∧ yd < 59 ∨
          (if yd > 31 + 29 - 1 then yd - 1 else yd) = yd - 1 ∧ yd > 59 := by
        split <;> omega
      generalize (if yd > 31 + 29 - 1 then yd - 1 else yd) = day at hq hq2 hd ⊢
      generalize day / 31 = q at hq hq2 ⊢
      obtain ⟨hqa, hqb⟩ := hq
      interval_cases q <;> simp [daysBefore, monthLen, ydayOf] <;> split <;> simp [daysBefore] <;> omega

theorem daysSinceEpoch_decomp (n a b c : Int) (ha : 0 ≤ a) (ha3 : a ≤ 3) (hb : 0 ≤ b)
    (hb3 : b ≤ 24) (hc : 0 ≤ c) (hc3 : c ≤ 3) :
    daysSinceEpoch (400 * n + 100 * a + 4 * b + c + 1) =
      146097 * n + 36524 * a + 1461 * b + 365 * c := by
  simp only [daysSinceEpoch]
  have e1 : (400 * n + 100 * a + 4 * b + c + 1 - 1) / 400 = n := by omega
  rw [e1]
  have e2 : (400 * n + 100 * a + 4 * b + c + 1 - 1 - 400 * n) / 100 = a := by omega
  rw [e2]
  have e3 : (400 * n + 100 * a + 4 * b + c + 1 - 1 - 400 * n - 100 * a) / 4 = b := by omega
  rw [e3]
  omega

theorem isLeap_decomp (n a b c : Int) (ha : 0 ≤ a) (ha3 : a ≤ 3) (hb : 0 ≤ b) (hb3 : b ≤ 24)
    (hc : 0 ≤ c) (hc3 : c ≤ 3) :
    isLeap (400 * n + 100 * a + 4 * b + c + 1) = true ↔ (c = 3 ∧ (b < 24 ∨ a = 3)) := by
  simp only [isLeap, Bool.and_eq_true, Bool.or_eq_true, beq_iff_eq, bne_iff_ne, ne_eq]
  omega

theorem year_decomp (y : Int) :
    ∃ n a b c : Int, 0 ≤ a ∧ a ≤ 3 ∧ 0 ≤ b ∧ b ≤ 24 ∧ 0 ≤ c ∧ c ≤ 3 ∧
      y = 400 * n + 100 * a + 4 * b + c + 1 :=
  ⟨(y - 1) / 400, (y - 1) % 400 / 100, (y - 1) % 100 / 4, (y - 1) % 4,
    by omega, by omega, by omega, by omega, by omega, by omega, by omega⟩

theorem absYday_decomp (d : Int) :
    ∃ n a b c r : Int, 0 ≤ a ∧ a ≤ 3 ∧ 0 ≤ b ∧ b ≤ 24 ∧ 0 ≤ c ∧ c ≤ 3 ∧ 0 ≤ r ∧
      (r < 365 ∨ (r = 365 ∧ c = 3 ∧ (b < 24 ∨ a = 3))) ∧
      d = 146097 * n + 36524 * a + 1461 * b + 365 * c + r ∧
      absYday d = (400 * n + 100 * a + 4 * b + c + 1, r) := by
  refine ⟨d / 146097, (d - 146097 * (d / 146097)) / 36524 - (d - 146097 * (d / 146097)) / 36524 / 4,
    _, _, _, ?_, ?_, ?_, ?_, ?_, ?_, ?_, ?_, ?_, rfl⟩
  all_goals omega

theorem absYday_of_decomp (n a b c r : Int) (ha : 0 ≤ a) (ha3 : a ≤ 3) (hb : 0 ≤ b)
    (hb3 : b ≤ 24) (hc : 0 ≤ c) (hc3 : c ≤ 3) (hr : 0 ≤ r)
    (hr2 : r < 365 ∨ (r = 365 ∧ c = 3 ∧ (b < 24 ∨ a = 3))) :
    absYday (146097 * n + 36524 * a + 1461 * b + 365 * c + r) =
      (400 * n + 100 * a + 4 * b + c + 1, r) := by
  simp only [absYday]
  have e1 : (146097 * n + 36524 * a + 1461 * b + 365 * c + r) / 146097 = n := by omega
  rw [e1]
  have e2 : (146097 * n + 36524 * a + 1461 * b + 365 * c + r - 146097 * n) / 36524 -
      (146097 * n + 36524 * a + 1461 * b + 365 * c + r - 146097 * n) / 36524 / 4 = a := by
    rcases (by omega : a = 0 ∨ a = 1 ∨ a = 2 ∨ a = 3) with rfl | rfl | rfl | rfl <;> omega
  rw [e2]
  have e3 : (146097 * n + 36524 * a + 1461 * b + 365 * c + r - 146097 * n - 36524 * a) / 1461
      = b := by omega
  rw [e3]
  have e4 : (146097 * n + 36524 * a + 1461 * b + 365 * c + r - 146097 * n - 36524 * a
        - 1461 * b) / 365 -
      (146097 * n + 36524 * a + 1461 * b + 365 * c + r - 146097 * n - 36524 * a
        - 1461 * b) / 365 / 4 = c := by
    rcases (by omega : c = 0 ∨ c = 1 ∨ c = 2 ∨ c = 3) with rfl | rfl | rfl | rfl <;> omega
  rw [e4]
  ext <;> simp <;> omega

/-- The day of the year of a day number lies within its year. -/
theorem absYday_spec (d : Int) :
    0 ≤ (absYday d).2 ∧ (absYday d).2 < (if isLeap (absYday d).1 then 366 else 365) ∧
    daysSinceEpoch (absYday d).1 + (absYday d).2 = d := by
  obtain ⟨n, a, b, c, r, ha, ha3, hb, hb3, hc, hc3, hr, hr2, hd, he⟩ := absYday_decomp d
  rw [he]
  simp only
  rw [daysSinceEpoch_decomp n a b c ha ha3 hb hb3 hc hc3]
  refine ⟨hr, ?_, by omega⟩
  have := isLeap_decomp n a b c ha ha3 hb hb3 hc hc3
  split
  · omega
  · rename_i h
    rw [this] at h
    omega

theorem absYday_daysSinceEpoch (y yd : Int) (h0 : 0 ≤ yd)
    (h1 : yd < if isLeap y then 366 else 365) : absYday (daysSinceEpoch y + yd) = (y, yd) := by
  obtain ⟨n, a, b, c, ha, ha3, hb, hb3, hc, hc3, rfl⟩ := year_decomp y
  rw [daysSinceEpoch_decomp n a b c ha ha3 hb hb3 hc hc3]
  have := isLeap_decomp n a b c ha ha3 hb hb3 hc hc3
  apply absYday_of_decomp n a b c yd ha ha3 hb hb3 hc hc3 h0
  split at h1
  · rename_i h
    rw [this] at h
    omega
  · omega

theorem dateToDays_valid (y m d : Int) (hm : 1 ≤ m) (hm2 : m ≤ 12) :
    dateToDays y m d = daysSinceEpoch y + ydayOf (isLeap y) m d := by
  simp only [dateToDays, norm_twelve, ydayOf]
  have e1 : (m - 1) / 12 = 0 := by omega
  have e2 : (m - 1) % 12 = m - 1 := by omega
  rw [e1, e2]
  simp only [add_zero, Bool.and_eq_true, decide_eq_true_eq]
  by_cases hl : isLeap y = true <;> by_cases h3 : 3 ≤ m <;> simp [hl, h3] <;> omega

theorem ydayOf_range (leap : Bool) (m d : Int) (hm : 1 ≤ m) (hm2 : m ≤ 12) (hd : 1 ≤ d)
    (hd2 : d ≤ monthLen leap m) :
    0 ≤ ydayOf leap m d ∧ ydayOf leap m d < if leap then 366 else 365 := by
  cases leap <;> interval_cases m <;> simp [monthLen, daysBefore] at hd2 <;>
    simp [ydayOf, daysBefore] <;> omega

set_option maxHeartbeats 4000000 in
theorem ydayOf_inj (leap : Bool) (m d m2 d2 : Int) (hm : 1 ≤ m) (hm2 : m ≤ 12) (hd : 1 ≤ d)
    (hd2 : d ≤ monthLen leap m) (km : 1 ≤ m2) (km2 : m2 ≤ 12) (kd : 1 ≤ d2)
    (kd2 : d2 ≤ monthLen leap m2) (h : ydayOf leap m d = ydayOf leap m2 d2) :
    m = m2 ∧ d = d2 := by
  cases leap <;> interval_cases m <;> simp [monthLen, daysBefore] at hd2 <;>
    simp [ydayOf, daysBefore] at h <;> interval_cases m2 <;>
    simp [monthLen, daysBefore] at kd2 <;> simp [daysBefore] at h <;> omega

theorem monthDay_ydayOf (leap : Bool) (m d : Int) (hm : 1 ≤ m) (hm2 : m ≤ 12) (hd : 1 ≤ d)
    (hd2 : d ≤ monthLen leap m) : monthDay leap (ydayOf leap m d) = (m, d) := by
  obtain ⟨r0, r1⟩ := ydayOf_range leap m d hm hm2 hd hd2
  obtain ⟨a1, a2, a3, a4, a5⟩ := monthDay_spec leap (ydayOf leap m d) r0 r1
  obtain ⟨e1, e2⟩ := ydayOf_inj leap _ _ m d a1 a2 a3 a4 hm hm2 hd hd2 a5
  exact Prod.ext e1 e2

/-- Every day number has a valid civil date, and `dateToDays` inverts `absDate`. -/
theorem absDate_spec (x : Int) :
    1 ≤ (absDate x).2.1 ∧ (absDate x).2.1 ≤ 12 ∧ 1 ≤ (absDate x).2.2 ∧
      (absDate x).2.2 ≤ monthLen (isLeap (absDate x).1) (absDate x).2.1 ∧
      dateToDays (absDate x).1 (absDate x).2.1 (absDate x).2.2 = x := by
  obtain ⟨r0, r1, r2⟩ := absYday_spec x
  obtain ⟨a1, a2, a3, a4, a5⟩ := monthDay_spec (isLeap (absYday x).1) (absYday x).2 r0 r1
  have e : absDate x = ((absYday x).1, (monthDay (isLeap (absYday x).1) (absYday x).2).1,
      (monthDay (isLeap (absYday x).1) (absYday x).2).2) := rfl
  rw [e]
  refine ⟨a1, a2, a3, a4, ?_⟩
  rw [dateToDays_valid _ _ _ a1 a2, a5, r2]

/-- The civil date of a valid date's day number is that date. -/
theorem absDate_dateToDays (y m d : Int) (hm : 1 ≤ m) (hm2 : m ≤ 12) (hd : 1 ≤ d)
    (hd2 : d ≤ monthLen (isLeap y) m) : absDate (dateToDays y m d) = (y, m, d) := by
  obtain ⟨r0, r1⟩ := ydayOf_range (isLeap y) m d hm hm2 hd hd2
  rw [dateToDays_valid y m d hm hm2]
  simp only [absDate, absYday_daysSinceEpoch y _ r0 r1, monthDay_ydayOf _ m d hm hm2 hd hd2]

/-! ## Instants and loops -/

theorem nsPerDay_pos : 0 < nsPerDay := by decide

@[simp] theorem Time.addDays_zero (t : Time) : t.addDays 0 = t := by
  simp [Time.addDays]

theorem Time.addDays_addDays (t : Time) (a b : Int) :
    (t.addDays a).addDays b = t.addDays (a + b) := by
  simp only [Time.addDays, Time.mk.injEq]
  ring

theorem Time.days_addDays (t : Time) (k : Int) : (t.addDays k).days = t.days + k := by
  simp only [Time.addDays, Time.days]
  rw [Int.add_mul_ediv_right _ _ (ne_of_gt nsPerDay_pos)]

theorem Time.clock_addDays (t : Time) (k : Int) : (t.addDays k).clock = t.clock := by
  simp only [Time.addDays, Time.clock]
  exact Int.add_mul_emod_self

theorem Time.ns_eq (t : Time) : t.ns = t.days * nsPerDay + t.clock := by
  simp only [Time.days, Time.clock]
  rw [mul_comm]
  exact (Int.ediv_add_emod _ _).symm

/-- Adding days through `AddDate` shifts the instant by whole days. -/
theorem Time.AddDate_days (t : Time) (n : Int) : t.AddDate 0 0 n = t.addDays n := by
  obtain ⟨-, -, -, -, h⟩ := absDate_spec t.days
  simp only [Time.AddDate, Time.Date, mkDate, add_zero, dateToDays_add, h, Time.addDays,
    Time.mk.injEq]
  rw [t.ns_eq]
  ring

theorem Time.Weekday_addDays (t : Time) (k : Int) :
    (t.addDays k).Weekday = (t.Weekday + k) % 7 := by
  simp only [Time.Weekday, Time.days_addDays]
  omega

theorem Time.Weekday_range (t : Time) : 0 ≤ t.Weekday ∧ t.Weekday < 7 := by
  simp only [Time.Weekday]
  omega

theorem iterUntil_found (stop : Time → Bool) (step : Time → Time) (k : Nat) :
    ∀ (t : Time) (fuel : Nat), k < fuel → stop (step^[k] t) = true →
      (∀ j, j < k → stop (step^[j] t) = false) →
      iterUntil stop step fuel t = some (step^[k] t) := by
  induction k with
  | zero =>
    intro t fuel hf hs _
    obtain ⟨f, rfl⟩ : ∃ f, fuel = f + 1 := ⟨fuel - 1, by omega⟩
    simp only [Function.iterate_zero, id_eq] at hs
    simp [iterUntil, hs]
  | succ k ih =>
    intro t fuel hf hs hlt
    obtain ⟨f, rfl⟩ : ∃ f, fuel = f + 1 := ⟨fuel - 1, by omega⟩
    have h0 : stop t = false := hlt 0 (Nat.succ_pos k)
    simp only [iterUntil, h0, Bool.false_eq_true, if_false]
    rw [Function.iterate_succ_apply] at hs ⊢
    apply ih (step t) f (by omega) hs
    intro j hj
    have := hlt (j + 1) (by omega)
    rwa [Function.iterate_succ_apply] at this

theorem iterUntil_some (stop : Time → Bool) (step : Time → Time) :
    ∀ (fuel : Nat) (t r : Time), iterUntil stop step fuel t = some r →
      ∃ k, k < fuel ∧ r = step^[k] t ∧ stop r = true ∧ ∀ j, j < k → stop (step^[j] t) = false := by
  intro fuel
  induction fuel with
  | zero =>
    intro t r h
    simp [iterUntil] at h
  | succ f ih =>
    intro t r h
    simp only [iterUntil] at h
    by_cases hs : stop t = true
    · simp only [hs, if_true, Option.some.injEq] at h
      subst h
      exact ⟨0, Nat.succ_pos f, rfl, hs, fun j hj => absurd hj (Nat.not_lt_zero j)⟩
    · simp only [hs, if_false] at h
      obtain ⟨k, hk, hr, hsr, hlt⟩ := ih (step t) r h
      refine ⟨k + 1, by omega, ?_, hsr, ?_⟩
      · rw [Function.iterate_succ_apply]
        exact hr
      · intro j hj
        cases j with
        | zero => simpa using hs
        | succ j =>
          rw [Function.iterate_succ_apply]
          exact hlt j (by omega)

theorem iterUntil_none (stop : Time → Bool) (step : Time → Time) :
    ∀ (fuel : Nat) (t : Time), (∀ j, j < fuel → stop (step^[j] t) = false) →
      iterUntil stop step fuel t = none := by
  intro fuel
  induction fuel with
  | zero =>
    intro t _
    rfl
  | succ f ih =>
    intro t h
    have h0 : stop t = false := h 0 (Nat.succ_pos f)
    simp only [iterUntil, h0, Bool.false_eq_true, if_false]
    apply ih
    intro j hj
    have := h (j + 1) (by omega)
    rwa [Function.iterate_succ_apply] at this

theorem AddDate_days_fun (n : Int) :
    (fun u : Time => u.AddDate 0 0 n) = fun u : Time => u.addDays n :=
  funext fun u => Time.AddDate_days u n

theorem iterate_addDays (n : Int) (k : Nat) (t : Time) :
    (fun u : Time => u.addDays n)^[k] t = t.addDays (k * n) := by
  induction k generalizing t with
  | zero => simp
  | succ k ih =>
    rw [Function.iterate_succ_apply, ih, Time.addDays_addDays]
    congr 1
    push_cast
    ring

theorem dParseLoop_eq (now : Time) (interval : Int) (fuel : Nat) (t : Time) :
    dParseLoop now interval fuel t =
      iterUntil (fun u => !u.Before now) (fun u => u.AddDate 0 0 interval) fuel t := by
  induction fuel generalizing t with
  | zero => rfl
  | succ f ih =>
    simp only [dParseLoop, iterUntil, ih]
    cases h : t.Before now <;> simp

theorem yParseLoop_eq (now : Time) (fuel : Nat) (t : Time) :
    yParseLoop now fuel t =
      iterUntil (fun u => !u.Before now) (fun u => u.AddDate 1 0 0) fuel t := by
  induction fuel generalizing t with
  | zero => rfl
  | succ f ih =>
    simp only [yParseLoop, iterUntil, ih]
    cases h : t.Before now <;> simp

theorem wParseLoop_eq (now : Time) (weekDays : Int → Bool) (fuel : Nat) (t : Time) :
    wParseLoop now weekDays fuel t =
      iterUntil (fun u => weekDays u.Weekday && u.After now) (fun u => u.AddDate 0 0 1) fuel t := by
  induction fuel generalizing t with
  | zero => rfl
  | succ f ih =>
    simp only [wParseLoop, iterUntil, ih]
    cases h : weekDays t.Weekday <;> cases h2 : t.After now <;> simp

theorem mParseLoop_eq (now : Time) (dayMap : Int → Bool) (fuel : Nat) (t : Time) :
    mParseLoop now dayMap fuel t =
      iterUntil (fun u => isValidDay u dayMap && u.After now) (fun u => u.AddDate 0 0 1) fuel t := by
  induction fuel generalizing t with
  | zero => rfl
  | succ f ih =>
    simp only [mParseLoop, iterUntil, ih]
    cases h : isValidDay t dayMap <;> cases h2 : t.After now <;> simp

theorem any_month_flag (months : List Int) (x : Int) (flag : Bool) :
    (months.any fun month => decide (x = month) && flag) = (decide (x ∈ months) && flag) := by
  induction months with
  | nil => simp
  | cons a l ih =>
    rw [List.any_cons, ih]
    by_cases h : x = a <;> cases flag <;> simp [h]

theorem mParseLoopMonths_eq (now : Time) (dayMap : Int → Bool) (months : List Int) (fuel : Nat)
    (t : Time) :
    mParseLoopMonths now dayMap months fuel t =
      iterUntil (fun u => decide (u.Month ∈ months) && (isValidDay u dayMap && u.After now))
        (fun u => u.AddDate 0 0 1) fuel t := by
  induction fuel generalizing t with
  | zero => rfl
  | succ f ih =>
    simp only [mParseLoopMonths, iterUntil, ih, any_month_flag]
    cases h : isValidDay t dayMap <;> cases h2 : t.After now <;> simp

/-! ## Daily strategy -/

theorem ParseRepeat_empty : ParseRepeat "" = (Repeat.zero, some .ErrNotValidRepeat) := by decide

theorem NextDate_dispatch (fuel : Nat) (now date : Time) (ds rs : String) (r : Repeat)
    (hd : timeParse ds = .ok date) (hr : ParseRepeat rs = (r, none)) :
    NextDate fuel now ds rs =
      if r.Period = "d" then dParse fuel now date r
      else if r.Period = "w" then wParse fuel now date r
      else if r.Period = "m" then mParse fuel now date r
      else if r.Period = "y" then yParse fuel now date r
      else some ("", none) := by
  have hne : rs ≠ "" := by
    rintro rfl
    rw [ParseRepeat_empty] at hr
    cases hr
  simp only [NextDate, hne, if_false, hd, hr]
  rfl

theorem addDays_before_mono (date now : Time) (a b : Int) (hab : a ≤ b)
    (h : (date.addDays b).Before now = true) : (date.addDays a).Before now = true := by
  simp only [Time.Before, Time.addDays, decide_eq_true_eq] at h ⊢
  have := Int.mul_le_mul_of_nonneg_right hab (le_of_lt nsPerDay_pos)
  omega

/-- The step count of the daily strategy: existence and characterisation. -/
theorem daily_steps (now date : Time) (n : Int) (h1 : 1 ≤ n) :
    ∃ k : Nat, 1 ≤ k ∧ (date.addDays (k * n)).Before now = false ∧
      (∀ j : Nat, 1 ≤ j → j < k → (date.addDays (j * n)).Before now = true) := by
  have hex : ∃ k : Nat, (date.addDays ((k + 1 : Nat) * n)).Before now = false := by
    refine ⟨(now.ns - date.ns).toNat, ?_⟩
    simp only [Time.Before, Time.addDays, decide_eq_false_iff_not, not_lt]
    have hK : now.ns - date.ns ≤ ((now.ns - date.ns).toNat : Int) := Int.self_le_toNat _
    have hpos : (0 : Int) ≤ (((now.ns - date.ns).toNat + 1 : Nat) : Int) := Int.ofNat_nonneg _
    have h2 : (1 : Int) ≤ n * nsPerDay := by
      have := nsPerDay_pos
      nlinarith
    have h3 : (((now.ns - date.ns).toNat + 1 : Nat) : Int) * 1 ≤
        (((now.ns - date.ns).toNat + 1 : Nat) : Int) * (n * nsPerDay) :=
      Int.mul_le_mul_of_nonneg_left h2 hpos
    push_cast at h3 ⊢
    nlinarith
  classical
  refine ⟨Nat.find hex + 1, by omega, Nat.find_spec hex, ?_⟩
  intro j hj1 hjk
  have hj : j - 1 < Nat.find hex := by omega
  have := Nat.find_min hex hj
  have e : ((j - 1 + 1 : Nat) : Int) = (j : Int) := by
    have : j - 1 + 1 = j := by omega
    rw [this]
  rw [e] at this
  simpa using this

theorem dParse_run (now date : Time) (n : Int) (p : String) (sec : List Int) (h1 : 1 ≤ n)
    (h400 : n ≤ 400) (k : Nat) (hk : 1 ≤ k) (hnb : (date.addDays (k * n)).Before now = false)
    (hmin : ∀ j : Nat, 1 ≤ j → j < k → (date.addDays (j * n)).Before now = true)
    (fuel : Nat) (hf : k ≤ fuel) :
    dParse fuel now date ⟨p, [n], sec⟩ = some ((date.addDays (k * n)).Format, none) := by
  have hv : ¬ (n > 400 ∨ n < 1) := by omega
  simp only [dParse, List.length_singleton, ne_eq, not_true_eq_false, if_false, List.headD_cons,
    hv, dParseLoop_eq, Time.AddDate_days, AddDate_days_fun]
  have key := iterUntil_found (fun u => !u.Before now) (fun u => u.addDays n) (k - 1)
    (date.addDays n) fuel (by omega)
  have e : ∀ j : Nat, (fun u : Time => u.addDays n)^[j] (date.addDays n)
      = date.addDays ((j + 1 : Nat) * n) := by
    intro j
    rw [iterate_addDays, Time.addDays_addDays]
    congr 1
    push_cast
    ring
  have ek : k - 1 + 1 = k := by omega
  rw [e, ek] at key
  rw [key]
  · rfl
  · simp [hnb]
  · intro j hj
    rw [e]
    have := hmin (j + 1) (by omega) (by omega)
    push_cast at this
    simp [this]

theorem ParseRepeat_daily (n : Int) (h1 : 1 ≤ n) (h400 : n ≤ 400) :
    ParseRepeat ("d " ++ toString n) = (⟨"d", [n], []⟩, none) := by
  interval_cases n <;> rfl

/-- C1 (daily strategy).  For every base instant `date`, every `now` and every
interval `n` with `1 ≤ n ≤ 400` there is a step count `k ≥ 1`, the least
positive one for which `date + k*n days` is not before `now`, such that
`dParse` on the rule `d n` returns the formatted date `date + k*n days` with no
error as soon as the loop is given `k` iterations; `k = 1` when `date + n days`
is not before `now`; a candidate equal to `now` is the result; `NextDate`
returns the same on any date string that parses to `date` and rule string that
parses to `d n`, and `"d n"` itself parses so. -/
theorem C1_dParse_least_multiple (now date : Time) (n : Int) (p : String) (sec : List Int)
    (h1 : 1 ≤ n) (h400 : n ≤ 400) :
    ∃ k : Nat, 1 ≤ k ∧ (date.addDays (k * n)).Before now = false ∧
      (∀ j : Nat, 1 ≤ j → j < k → (date.addDays (j * n)).Before now = true) ∧
      ((date.addDays n).Before now = false → k = 1) ∧
      (∀ j : Nat, 1 ≤ j → date.addDays (j * n) = now → k = j) ∧
      (∀ fuel, k ≤ fuel →
        dParse fuel now date ⟨p, [n], sec⟩ = some ((date.addDays (k * n)).Format, none)) ∧
      (∀ (fuel : Nat) (ds rs : String), k ≤ fuel → timeParse ds = .ok date →
        ParseRepeat rs = (⟨"d", [n], sec⟩, none) →
        NextDate fuel now ds rs = some ((date.addDays (k * n)).Format, none)) ∧
      ParseRepeat ("d " ++ toString n) = (⟨"d", [n], []⟩, none) := by
  obtain ⟨k, hk, hnb, hmin⟩ := daily_steps now date n h1
  have hrun := dParse_run now date n
  refine ⟨k, hk, hnb, hmin, ?_, ?_, ?_, ?_, ?_⟩
  · intro h
    by_contra hne
    have := hmin 1 le_rfl (by omega)
    simp only [Nat.cast_one, one_mul] at this
    rw [h] at this
    cases this
  · intro j hj hjn
    by_contra hne
    rcases Nat.lt_or_gt_of_ne hne with hlt | hgt
    · -- the candidate `k` is strictly before candidate `j = now`
      have hpos : (0 : Int) < n * nsPerDay := by
        have := nsPerDay_pos
        nlinarith
      have hkj : (k : Int) + 1 ≤ j := by exact_mod_cast hlt
      have := Int.mul_le_mul_of_nonneg_right hkj (le_of_lt hpos)
      simp only [Time.Before, Time.addDays, decide_eq_false_iff_not, not_lt] at hnb
      rw [← hjn] at hnb
      simp only [Time.addDays] at hnb
      nlinarith
    · have := hmin j hj hgt
      rw [hjn] at this
      simp [Time.Before] at this
  · intro fuel hf
    exact hrun p sec h1 h400 k hk hnb hmin fuel hf
  · intro fuel ds rs hf hds hrs
    rw [NextDate_dispatch fuel now date ds rs _ hds hrs]
    simp only [if_true]
    exact hrun "d" sec h1 h400 k hk hnb hmin fuel hf
  · exact ParseRepeat_daily n h1 h400

/-! ## Day-by-day search -/

theorem iterate_addDays_one (k : Nat) (t : Time) :
    (fun u : Time => u.addDays 1)^[k] (t.addDays 1) = t.addDays ((k + 1 : Nat) : Int) := by
  rw [iterate_addDays, Time.addDays_addDays]
  congr 1
  push_cast
  ring

/-- A day-by-day search from `date + 1 day` finds the first accepted day. -/
theorem search_found (acc : Time → Bool) (date : Time)
    (hex : ∃ j : Nat, 1 ≤ j ∧ acc (date.addDays j) = true) :
    ∃ k : Nat, 1 ≤ k ∧ acc (date.addDays k) = true ∧
      (∀ j : Nat, 1 ≤ j → j < k → acc (date.addDays j) = false) ∧
      ∀ fuel, k ≤ fuel →
        iterUntil acc (fun u => u.addDays 1) fuel (date.addDays 1) = some (date.addDays k) := by
  classical
  have hex2 : ∃ j : Nat, acc (date.addDays ((j + 1 : Nat) : Int)) = true := by
    obtain ⟨j, hj, hacc⟩ := hex
    refine ⟨j - 1, ?_⟩
    have : j - 1 + 1 = j := by omega
    rwa [this]
  have hmin : ∀ j : Nat, 1 ≤ j → j < Nat.find hex2 + 1 → acc (date.addDays j) = false := by
    intro j hj1 hjk
    have hj : j - 1 < Nat.find hex2 := by omega
    have h := Nat.find_min hex2 hj
    have e : j - 1 + 1 = j := by omega
    rw [e] at h
    simpa using h
  refine ⟨Nat.find hex2 + 1, by omega, Nat.find_spec hex2, hmin, ?_⟩
  intro fuel hf
  have key := iterUntil_found acc (fun u => u.addDays 1) (Nat.find hex2) (date.addDays 1) fuel
    (by omega)
  rw [iterate_addDays_one] at key
  apply key (Nat.find_spec hex2)
  intro j hj
  rw [iterate_addDays_one]
  exact hmin (j + 1) (by omega) (by omega)

/-- Whatever a day-by-day search returns is the first accepted day. -/
theorem search_sound (acc : Time → Bool) (date r : Time) (fuel : Nat)
    (h : iterUntil acc (fun u => u.addDays 1) fuel (date.addDays 1) = some r) :
    ∃ k : Nat, 1 ≤ k ∧ k ≤ fuel ∧ r = date.addDays k ∧ acc (date.addDays k) = true ∧
      ∀ j : Nat, 1 ≤ j → j < k → acc (date.addDays j) = false := by
  obtain ⟨k, hk, hr, hacc, hlt⟩ := iterUntil_some acc _ fuel _ r h
  rw [iterate_addDays_one] at hr
  refine ⟨k + 1, by omega, by omega, hr, by rw [← hr]; exact hacc, ?_⟩
  intro j hj1 hjk
  have := hlt (j - 1) (by omega)
  rw [iterate_addDays_one] at this
  have e : j - 1 + 1 = j := by omega
  rwa [e] at this

/-- A day-by-day search with no accepted day never returns. -/
theorem search_never (acc : Time → Bool) (date : Time)
    (hno : ∀ j : Nat, 1 ≤ j → acc (date.addDays j) = false) (fuel : Nat) :
    iterUntil acc (fun u => u.addDays 1) fuel (date.addDays 1) = none := by
  apply iterUntil_none
  intro j _
  rw [iterate_addDays_one]
  exact hno (j + 1) (by omega)

theorem mapSet_foldl_true (f : Int → Int) (l : List Int) (m : Int → Bool) (w : Int) :
    (l.foldl (fun m day => mapSet m (f day) true) m) w = true ↔
      m w = true ∨ ∃ v ∈ l, f v = w := by
  induction l generalizing m with
  | nil => simp
  | cons a l ih =>
    rw [List.foldl_cons, ih]
    simp only [mapSet, List.mem_cons, exists_eq_or_imp]
    by_cases h : w = f a
    · simp [h]
    · have h2 : ¬ f a = w := fun e => h e.symm
      simp [h, h2]

theorem weekDaysOf_true (interval : List Int) (w : Int) :
    weekDaysOf interval w = true ↔ ∃ v ∈ interval, (if v = 7 then 0 else v) = w := by
  have e : weekDaysOf interval =
      interval.foldl (fun m day => mapSet m (if day = 7 then 0 else day) true) (fun _ => false) := by
    unfold weekDaysOf
    congr 1
    funext m day
    split <;> rfl
  rw [e, mapSet_foldl_true]
  simp

theorem dayMapOf_true (days : List Int) (w : Int) : dayMapOf days w = true ↔ w ∈ days := by
  unfold dayMapOf
  rw [mapSet_foldl_true (fun d => d)]
  simp

theorem weekDaysOf_listed (interval : List Int) (t : Time) :
    weekDaysOf interval t.Weekday = true ↔ weekdayListed interval t := by
  rw [weekDaysOf_true, weekdayListed]
  obtain ⟨h0, h7⟩ := t.Weekday_range
  constructor
  · rintro ⟨v, hv, hw⟩
    by_cases h : v = 7
    · subst h
      simp only [if_true] at hw
      exact Or.inr ⟨hw.symm, hv⟩
    · simp only [h, if_false] at hw
      subst hw
      exact Or.inl hv
  · rintro (h | ⟨h, h7m⟩)
    · refine ⟨t.Weekday, h, ?_⟩
      have : ¬ t.Weekday = 7 := by omega
      simp [this]
    · exact ⟨7, h7m, by simp [h]⟩

/-- Past any day offset there is a later one on which an instant after `now`
falls on a given weekday residue. -/
theorem weekday_later (date now : Time) (w : Int) (hw0 : 0 ≤ w) (hw7 : w < 7) :
    ∃ j : Nat, 1 ≤ j ∧ (date.addDays j).After now = true ∧ (date.addDays j).Weekday = w := by
  let s : Int := (now.ns - date.ns).toNat + 1
  let j : Int := s + (w - date.Weekday - s) % 7
  have hs1 : 1 ≤ s := by simp only [s]; omega
  have hs2 : now.ns - date.ns < s := by
    have := Int.self_le_toNat (now.ns - date.ns)
    simp only [s]
    omega
  have hj : s ≤ j := by simp only [j]; omega
  refine ⟨j.toNat, by omega, ?_, ?_⟩
  · have e : ((j.toNat : Nat) : Int) = j := Int.toNat_of_nonneg (by omega)
    rw [e]
    simp only [Time.After, Time.addDays, gt_iff_lt, decide_eq_true_eq]
    have h1 : j * 1 ≤ j * nsPerDay :=
      Int.mul_le_mul_of_nonneg_left (by have := nsPerDay_pos; omega) (by omega)
    omega
  · have e : ((j.toNat : Nat) : Int) = j := Int.toNat_of_nonneg (by omega)
    rw [e, Time.Weekday_addDays]
    obtain ⟨h0, h7⟩ := date.Weekday_range
    simp only [j]
    omega

/-! ## Weekly strategy -/

theorem wParse_valid (fuel : Nat) (now date : Time) (p : String) (interval sec : List Int)
    (hlen1 : 1 ≤ interval.length) (hlen7 : interval.length ≤ 7)
    (hval : ∀ v ∈ interval, 1 ≤ v ∧ v ≤ 7) :
    wParse fuel now date ⟨p, interval, sec⟩ =
      (iterUntil (fun u => weekDaysOf interval u.Weekday && u.After now)
        (fun u => u.addDays 1) fuel (date.addDays 1)).map fun d => (d.Format, none) := by
  have h1 : ¬ (interval.length < 1 ∨ interval.length > 7) := by omega
  have h2 : (interval.any fun elem => decide (elem < 1 ∨ elem > 7)) = false := by
    rw [List.any_eq_false]
    intro v hv
    have := hval v hv
    simp only [decide_eq_true_eq]
    omega
  simp only [wParse, h1, if_false, h2, Bool.false_eq_true, wParseLoop_eq, Time.AddDate_days,
    AddDate_days_fun]

/-- C2 (weekly strategy).  For every base instant `date`, every `now` and every
week rule with 1 to 7 values, each in 1..7, there is a day offset `k ≥ 1` such
that `date + k days` is strictly after `now` and its weekday is listed (7
standing for Sunday), no offset `j` with `1 ≤ j < k` has both properties, and
`wParse` returns the formatted date `date + k days` with no error as soon as
the loop is given `k` iterations; `NextDate` returns the same on any date
string that parses to `date` and rule string that parses to this week rule. -/
theorem C2_wParse_earliest_weekday (now date : Time) (p : String) (interval sec : List Int)
    (hlen1 : 1 ≤ interval.length) (hlen7 : interval.length ≤ 7)
    (hval : ∀ v ∈ interval, 1 ≤ v ∧ v ≤ 7) :
    ∃ k : Nat, 1 ≤ k ∧ (date.addDays k).After now = true ∧
      weekdayListed interval (date.addDays k) ∧
      (∀ j : Nat, 1 ≤ j → j < k →
        ¬ ((date.addDays j).After now = true ∧ weekdayListed interval (date.addDays j))) ∧
      (∀ fuel, k ≤ fuel →
        wParse fuel now date ⟨p, interval, sec⟩ = some ((date.addDays k).Format, none)) ∧
      (∀ (fuel : Nat) (ds rs : String), k ≤ fuel → timeParse ds = .ok date →
        ParseRepeat rs = (⟨"w", interval, sec⟩, none) →
        NextDate fuel now ds rs = some ((date.addDays k).Format, none)) := by
  -- some listed weekday occurs after `now`
  obtain ⟨v, hv⟩ : ∃ v, v ∈ interval := List.exists_mem_of_length_pos (by omega)
  obtain ⟨hv1, hv7⟩ := hval v hv
  obtain ⟨j0, hj0, hafter0, hwd0⟩ := weekday_later date now (v % 7) (by omega) (by omega)
  have hex : ∃ j : Nat, 1 ≤ j ∧
      (fun u : Time => weekDaysOf interval u.Weekday && u.After now) (date.addDays j) = true := by
    refine ⟨j0, hj0, ?_⟩
    simp only [Bool.and_eq_true, hafter0, and_true]
    rw [weekDaysOf_true]
    refine ⟨v, hv, ?_⟩
    rw [hwd0]
    split <;> omega
  obtain ⟨k, hk, hacc, hmin, hrun⟩ :=
    search_found (fun u : Time => weekDaysOf interval u.Weekday && u.After now) date hex
  simp only [Bool.and_eq_true, weekDaysOf_listed] at hacc
  have hrun2 : ∀ (q : String) (fuel : Nat), k ≤ fuel →
      wParse fuel now date ⟨q, interval, sec⟩ = some ((date.addDays k).Format, none) := by
    intro q fuel hf
    rw [wParse_valid fuel now date q interval sec hlen1 hlen7 hval, hrun fuel hf]
    rfl
  refine ⟨k, hk, hacc.2, hacc.1, ?_, hrun2 p, ?_⟩
  · intro j hj1 hjk hboth
    have := hmin j hj1 hjk
    simp only [Bool.and_eq_false_iff] at this
    rcases this with h | h
    · have h2 := (weekDaysOf_listed interval (date.addDays j)).mpr hboth.2
      rw [h] at h2
      cases h2
    · rw [hboth.1] at h
      cases h
  · intro fuel ds rs hf hds hrs
    rw [NextDate_dispatch fuel now date ds rs _ hds hrs]
    simp only [show ¬ ("w" = "d") by decide, if_false, if_true]
    exact hrun2 "w" fuel hf

/-! ## Month lengths -/

theorem daysSinceEpoch_succ (y : Int) :
    daysSinceEpoch (y + 1) = daysSinceEpoch y + 365 + (if isLeap y = true then 1 else 0) := by
  obtain ⟨n, a, b, c, ha, ha3, hb, hb3, hc, hc3, rfl⟩ := year_decomp y
  have hl := isLeap_decomp n a b c ha ha3 hb hb3 hc hc3
  rw [daysSinceEpoch_decomp n a b c ha ha3 hb hb3 hc hc3]
  by_cases h1 : c < 3
  · have e : 400 * n + 100 * a + 4 * b + c + 1 + 1 = 400 * n + 100 * a + 4 * b + (c + 1) + 1 := by
      ring
    have hnl : ¬ isLeap (400 * n + 100 * a + 4 * b + c + 1) = true := by rw [hl]; omega
    rw [e, daysSinceEpoch_decomp n a b (c + 1) ha ha3 hb hb3 (by omega) (by omega), if_neg hnl]
    omega
  · have hc3e : c = 3 := by omega
    subst hc3e
    by_cases h2 : b < 24
    · have e : 400 * n + 100 * a + 4 * b + 3 + 1 + 1 = 400 * n + 100 * a + 4 * (b + 1) + 0 + 1 := by
        ring
      have hlp : isLeap (400 * n + 100 * a + 4 * b + 3 + 1) = true := by rw [hl]; omega
      rw [e, daysSinceEpoch_decomp n a (b + 1) 0 ha ha3 (by omega) (by omega) (by omega)
        (by omega), if_pos hlp]
      omega
    · have hb24 : b = 24 := by omega
      subst hb24
      by_cases h3 : a < 3
      · have e : 400 * n + 100 * a + 4 * 24 + 3 + 1 + 1 = 400 * n + 100 * (a + 1) + 4 * 0 + 0 + 1 := by
          ring
        have hnl : ¬ isLeap (400 * n + 100 * a + 4 * 24 + 3 + 1) = true := by rw [hl]; omega
        rw [e, daysSinceEpoch_decomp n (a + 1) 0 0 (by omega) (by omega) (by omega) (by omega)
          (by omega) (by omega), if_neg hnl]
        omega
      · have ha3e : a = 3 := by omega
        subst ha3e
        have e : 400 * n + 100 * 3 + 4 * 24 + 3 + 1 + 1 = 400 * (n + 1) + 100 * 0 + 4 * 0 + 0 + 1 := by
          ring
        have hlp : isLeap (400 * n + 100 * 3 + 4 * 24 + 3 + 1) = true := by rw [hl]; omega
        rw [e, daysSinceEpoch_decomp (n + 1) 0 0 0 (by omega) (by omega) (by omega) (by omega)
          (by omega) (by omega), if_pos hlp]
        omega

/-- Day 0 of the following month is the last day of the month. -/
theorem dateToDays_next_month_zero (y m : Int) (hm : 1 ≤ m) (hm2 : m ≤ 12) :
    dateToDays y (m + 1) 0 = dateToDays y m (monthLen (isLeap y) m) := by
  rw [dateToDays_valid y m _ hm hm2]
  by_cases h12 : m = 12
  · subst h12
    simp only [dateToDays, norm_twelve]
    have := daysSinceEpoch_succ y
    cases hl : isLeap y <;> simp [hl, ydayOf, monthLen, daysBefore] at this ⊢ <;> omega
  · rw [dateToDays_valid y (m + 1) _ (by omega) (by omega)]
    cases hl : isLeap y <;> interval_cases m <;> simp [ydayOf, monthLen, daysBefore] at h12 ⊢

theorem isLeap_iff (y : Int) : isLeap y = true ↔ gregorianLeap y := by
  simp only [isLeap, Bool.and_eq_true, Bool.or_eq_true, beq_iff_eq, bne_iff_ne, ne_eq,
    gregorianLeap]
  omega

theorem monthLen_eq (y m : Int) (hm : 1 ≤ m) (hm2 : m ≤ 12) :
    monthLen (isLeap y) m = gregorianMonthLength y m := by
  have := isLeap_iff y
  unfold gregorianMonthLength
  by_cases hg : gregorianLeap y
  · have hl : isLeap y = true := this.mpr hg
    interval_cases m <;> simp [monthLen, daysBefore, hl, hg]
  · have hl : isLeap y = false := by
      cases h : isLeap y
      · rfl
      · exact absurd (this.mp h) hg
    interval_cases m <;> simp [monthLen, daysBefore, hl, hg]

theorem Time.date_valid (t : Time) :
    1 ≤ t.Month ∧ t.Month ≤ 12 ∧ 1 ≤ t.Day ∧ t.Day ≤ gregorianMonthLength t.Year t.Month ∧
      dateToDays t.Year t.Month t.Day = t.days := by
  have h : 1 ≤ t.Month ∧ t.Month ≤ 12 ∧ 1 ≤ t.Day ∧ t.Day ≤ monthLen (isLeap t.Year) t.Month ∧
      dateToDays t.Year t.Month t.Day = t.days := absDate_spec t.days
  obtain ⟨a1, a2, a3, a4, a5⟩ := h
  refine ⟨a1, a2, a3, ?_, a5⟩
  rw [← monthLen_eq _ _ a1 a2]
  exact a4

theorem mkDate_zero_days (y m d : Int) : (mkDate y m d 0).days = dateToDays y m d := by
  simp only [mkDate, Time.days, add_zero]
  exact Int.mul_ediv_cancel _ (ne_of_gt nsPerDay_pos)

theorem daysInMonth_eq (t : Time) : daysInMonth t = gregorianMonthLength t.Year t.Month := by
  obtain ⟨a1, a2, a3, a4, a5⟩ := t.date_valid
  have hlen := monthLen_eq t.Year t.Month a1 a2
  have e : daysInMonth t = (absDate (dateToDays t.Year (t.Month + 1) 0)).2.2 := by
    simp only [daysInMonth, Time.Day, Time.Date, mkDate_zero_days]
  rw [e, dateToDays_next_month_zero _ _ a1 a2]
  have hpos : 1 ≤ monthLen (isLeap t.Year) t.Month := by
    rw [hlen]
    unfold gregorianMonthLength
    split
    · split <;> omega
    · split <;> omega
  rw [absDate_dateToDays _ _ _ a1 a2 hpos le_rfl]
  exact hlen

theorem isValidDay_iff (t : Time) (dayMap : Int → Bool) :
    isValidDay t dayMap = true ↔
      dayMap t.Day = true ∨
      (dayMap (-1) = true ∧ t.Day = gregorianMonthLength t.Year t.Month) ∨
      (dayMap (-2) = true ∧ t.Day = gregorianMonthLength t.Year t.Month - 1) := by
  simp only [isValidDay, daysInMonth_eq, Bool.or_eq_true, Bool.and_eq_true, decide_eq_true_eq]
  tauto

theorem isValidDay_listed (t : Time) (days : List Int) :
    isValidDay t (dayMapOf days) = true ↔ dayListed days t := by
  rw [isValidDay_iff, dayListed]
  simp only [dayMapOf_true]

/-! ## Monthly strategy -/

theorem daysSinceEpoch_lower (y : Int) (hy : 1 ≤ y) : y - 1 ≤ daysSinceEpoch y := by
  obtain ⟨n, a, b, c, ha, ha3, hb, hb3, hc, hc3, rfl⟩ := year_decomp y
  rw [daysSinceEpoch_decomp n a b c ha ha3 hb hb3 hc hc3]
  omega

theorem Time.ns_bounds (t : Time) : t.days * nsPerDay ≤ t.ns ∧ t.ns < (t.days + 1) * nsPerDay := by
  have h := t.ns_eq
  have h0 : 0 ≤ t.clock := Int.emod_nonneg _ (ne_of_gt nsPerDay_pos)
  have h1 : t.clock < nsPerDay := Int.emod_lt_of_pos _ nsPerDay_pos
  constructor
  · omega
  · rw [add_mul, one_mul]
    omega

/-- Past any `now` there is a later day offset whose date is day `v` of a
January. -/
theorem january_later (date now : Time) (v : Int) (hv1 : 1 ≤ v) (hv31 : v ≤ 31) :
    ∃ j : Nat, 1 ≤ j ∧ (date.addDays j).After now = true ∧ (date.addDays j).Day = v ∧
      (date.addDays j).Month = 1 := by
  -- a year whose first day lies beyond both `date` and `now`
  let x : Int := max date.days now.days
  let y : Int := x.toNat + 2
  have hx : x ≤ x.toNat := Int.self_le_toNat x
  have hy : x + 1 ≤ daysSinceEpoch y := by
    have := daysSinceEpoch_lower y (by simp only [y]; omega)
    simp only [y] at this ⊢
    omega
  have hT : dateToDays y 1 v = daysSinceEpoch y + (v - 1) := by
    rw [dateToDays_valid y 1 v le_rfl (by decide)]
    simp [ydayOf, daysBefore]
  have hdx : date.days ≤ x := le_max_left _ _
  have hnx : now.days ≤ x := le_max_right _ _
  let j : Int := dateToDays y 1 v - date.days
  have hj1 : 1 ≤ j := by simp only [j]; omega
  have ej : ((j.toNat : Nat) : Int) = j := Int.toNat_of_nonneg (by omega)
  have hdays : (date.addDays j).days = dateToDays y 1 v := by
    rw [Time.days_addDays]
    simp only [j]
    omega
  have hlen : v ≤ monthLen (isLeap y) 1 := by
    simp [monthLen, daysBefore]
    exact hv31
  have hdate : (date.addDays j).Date = (y, 1, v) := by
    simp only [Time.Date, hdays]
    exact absDate_dateToDays y 1 v le_rfl (by decide) hv1 hlen
  refine ⟨j.toNat, by omega, ?_, ?_, ?_⟩
  · rw [ej]
    simp only [Time.After, gt_iff_lt, decide_eq_true_eq]
    have h1 := (date.addDays j).ns_bounds.1
    have h2 := now.ns_bounds.2
    rw [hdays] at h1
    have h3 : (now.days + 1) * nsPerDay ≤ dateToDays y 1 v * nsPerDay :=
      Int.mul_le_mul_of_nonneg_right (by omega) (le_of_lt nsPerDay_pos)
    omega
  · rw [ej]
    simp only [Time.Day, hdate]
  · rw [ej]
    simp only [Time.Month, hdate]

/-- A non-empty list of day specifiers in `[-2, 31]` without 0 is matched by
some date after `now`. -/
theorem dayListed_later (date now : Time) (days : List Int) (hne : days ≠ [])
    (hval : ∀ v ∈ days, -2 ≤ v ∧ v ≤ 31 ∧ v ≠ 0) :
    ∃ j : Nat, 1 ≤ j ∧ (date.addDays j).After now = true ∧ dayListed days (date.addDays j) := by
  obtain ⟨v, hv⟩ := List.exists_mem_of_ne_nil days hne
  obtain ⟨hv1, hv2, hv3⟩ := hval v hv
  have hg : ∀ y : Int, gregorianMonthLength y 1 = 31 := by
    intro y
    simp [gregorianMonthLength]
  by_cases hpos : 1 ≤ v
  · obtain ⟨j, hj, hafter, hday, -⟩ := january_later date now v hpos hv2
    exact ⟨j, hj, hafter, Or.inl (by rw [hday]; exact hv)⟩
  · by_cases hm1 : v = -1
    · subst hm1
      obtain ⟨j, hj, hafter, hday, hmonth⟩ := january_later date now 31 (by decide) le_rfl
      exact ⟨j, hj, hafter, Or.inr (Or.inl ⟨hv, by rw [hday, hmonth, hg]⟩)⟩
    · have hm2 : v = -2 := by omega
      subst hm2
      obtain ⟨j, hj, hafter, hday, hmonth⟩ := january_later date now 30 (by decide) (by decide)
      exact ⟨j, hj, hafter, Or.inr (Or.inr ⟨hv, by rw [hday, hmonth, hg]; rfl⟩)⟩

theorem mParse_valid (fuel : Nat) (now date : Time) (p : String) (days months : List Int)
    (hne : days ≠ []) (hval : ∀ v ∈ days, -2 ≤ v ∧ v ≤ 31 ∧ v ≠ 0)
    (hmon : ∀ m ∈ months, 1 ≤ m ∧ m ≤ 12) :
    mParse fuel now date ⟨p, days, months⟩ =
      (iterUntil (fun u => (decide (months = []) || decide (u.Month ∈ months)) &&
          (isValidDay u (dayMapOf days) && u.After now))
        (fun u => u.addDays 1) fuel (date.addDays 1)).map fun d => (d.Format, none) := by
  have h1 : ¬ days.length = 0 := by
    intro h
    exact hne (List.length_eq_zero.mp h)
  have h2 : (days.any fun day => decide (day < -2 ∨ day > 31 ∨ day = 0)) = false := by
    rw [List.any_eq_false]
    intro v hv
    have := hval v hv
    simp only [decide_eq_true_eq]
    omega
  have h3 : (months.any fun m => decide (m < 1 ∨ m > 12)) = false := by
    rw [List.any_eq_false]
    intro v hv
    have := hmon v hv
    simp only [decide_eq_true_eq]
    omega
  simp only [mParse, h1, if_false, h2, Bool.false_eq_true]
  by_cases hm : months = []
  · subst hm
    simp [mParseLoop_eq, Time.AddDate_days, AddDate_days_fun]
  · have hl : ¬ months.length = 0 := fun h => hm (List.length_eq_zero.mp h)
    simp only [hl, h3, hm, mParseLoopMonths_eq, Time.AddDate_days, AddDate_days_fun, ne_eq,
      not_false_eq_true, decide_True, decide_False, Bool.true_and, Bool.false_eq_true, if_false,
      Bool.not_true, Bool.false_or, if_true]

/-- C3 (monthly strategy, no month filter).  For every base instant `date`,
every `now` and every month rule with a non-empty list of day specifiers in
`[-2, 31]` without 0 and an empty month list, there is a day offset `k ≥ 1`
such that `date + k days` is strictly after `now` and matches the day
specifiers (its day number, or the last day of its month when `-1` is listed,
or the second-to-last when `-2` is listed), no offset `j` with `1 ≤ j < k` has
both properties, and `mParse` returns the formatted date `date + k days` with
no error as soon as the loop is given `k` iterations; so does `NextDate` on
strings that parse to `date` and to this rule. -/
theorem C3_mParse_earliest_listed_day (now date : Time) (p : String) (days : List Int)
    (hne : days ≠ []) (hval : ∀ v ∈ days, -2 ≤ v ∧ v ≤ 31 ∧ v ≠ 0) :
    ∃ k : Nat, 1 ≤ k ∧ (date.addDays k).After now = true ∧ dayListed days (date.addDays k) ∧
      (∀ j : Nat, 1 ≤ j → j < k →
        ¬ ((date.addDays j).After now = true ∧ dayListed days (date.addDays j))) ∧
      (∀ fuel, k ≤ fuel →
        mParse fuel now date ⟨p, days, []⟩ = some ((date.addDays k).Format, none)) ∧
      (∀ (fuel : Nat) (ds rs : String), k ≤ fuel → timeParse ds = .ok date →
        ParseRepeat rs = (⟨"m", days, []⟩, none) →
        NextDate fuel now ds rs = some ((date.addDays k).Format, none)) := by
  obtain ⟨j0, hj0, hafter0, hlisted0⟩ := dayListed_later date now days hne hval
  have hex : ∃ j : Nat, 1 ≤ j ∧
      (fun u : Time => (decide (([] : List Int) = []) || decide (u.Month ∈ ([] : List Int))) &&
        (isValidDay u (dayMapOf days) && u.After now)) (date.addDays j) = true := by
    refine ⟨j0, hj0, ?_⟩
    simp only [decide_True, Bool.true_or, Bool.true_and, Bool.and_eq_true, hafter0, and_true]
    exact (isValidDay_listed _ days).mpr hlisted0
  obtain ⟨k, hk, hacc, hmin, hrun⟩ := search_found
    (fun u : Time => (decide (([] : List Int) = []) || decide (u.Month ∈ ([] : List Int))) &&
        (isValidDay u (dayMapOf days) && u.After now)) date hex
  simp only [decide_True, Bool.true_or, Bool.true_and, Bool.and_eq_true, isValidDay_listed]
    at hacc
  have hrun2 : ∀ (q : String) (fuel : Nat), k ≤ fuel →
      mParse fuel now date ⟨q, days, []⟩ = some ((date.addDays k).Format, none) := by
    intro q fuel hf
    rw [mParse_valid fuel now date q days [] hne hval (by simp), hrun fuel hf]
    rfl
  refine ⟨k, hk, hacc.2, hacc.1, ?_, hrun2 p, ?_⟩
  · intro j hj1 hjk hboth
    have := hmin j hj1 hjk
    simp only [decide_True, Bool.true_or, Bool.true_and, Bool.and_eq_false_iff] at this
    rcases this with h | h
    · have h2 := (isValidDay_listed (date.addDays j) days).mpr hboth.2
      rw [h] at h2
      cases h2
    · rw [hboth.1] at h
      cases h
  · intro fuel ds rs hf hds hrs
    rw [NextDate_dispatch fuel now date ds rs _ hds hrs]
    simp only [show ¬ ("m" = "d") by decide, show ¬ ("m" = "w") by decide, if_false, if_true]
    exact hrun2 "m" fuel hf

/-- C4 (monthly strategy with a month filter).  For a valid month rule with a
non-empty month list: whatever `mParse` returns has no error and is the
formatted date `date + k days` for an offset `k ≥ 1` such that this date is
strictly after `now`, matches the day specifiers and lies in a listed month,
while no offset `j` with `1 ≤ j < k` has these three properties; and `mParse`
does return once given enough iterations whenever some date after `date` has
the three properties. -/
theorem C4_mParse_filtered_earliest (now date : Time) (p : String) (days months : List Int)
    (hne : days ≠ []) (hval : ∀ v ∈ days, -2 ≤ v ∧ v ≤ 31 ∧ v ≠ 0)
    (hmne : months ≠ []) (hmon : ∀ m ∈ months, 1 ≤ m ∧ m ≤ 12) :
    (∀ (fuel : Nat) (s : String) (e : Option Error),
        mParse fuel now date ⟨p, days, months⟩ = some (s, e) →
        e = none ∧ ∃ k : Nat, 1 ≤ k ∧ s = (date.addDays k).Format ∧
          (date.addDays k).After now = true ∧ dayListed days (date.addDays k) ∧
          (date.addDays k).Month ∈ months ∧
          ∀ j : Nat, 1 ≤ j → j < k →
            ¬ ((date.addDays j).After now = true ∧ dayListed days (date.addDays j) ∧
              (date.addDays j).Month ∈ months)) ∧
      ((∃ j : Nat, 1 ≤ j ∧ (date.addDays j).After now = true ∧
          dayListed days (date.addDays j) ∧ (date.addDays j).Month ∈ months) →
        ∃ k : Nat, ∀ fuel, k ≤ fuel →
          mParse fuel now date ⟨p, days, months⟩ = some ((date.addDays k).Format, none)) := by
  have hacc : ∀ u : Time,
      ((decide (months = []) || decide (u.Month ∈ months)) &&
        (isValidDay u (dayMapOf days) && u.After now)) = true ↔
      (u.After now = true ∧ dayListed days u ∧ u.Month ∈ months) := by
    intro u
    simp only [hmne, decide_False, Bool.false_or, Bool.and_eq_true, decide_eq_true_eq,
      isValidDay_listed]
    tauto
  constructor
  · intro fuel s e h
    rw [mParse_valid fuel now date p days months hne hval hmon] at h
    cases hres : iterUntil (fun u => (decide (months = []) || decide (u.Month ∈ months)) &&
        (isValidDay u (dayMapOf days) && u.After now)) (fun u => u.addDays 1) fuel
        (date.addDays 1) with
    | none =>
      rw [hres] at h
      cases h
    | some r =>
      rw [hres] at h
      simp only [Option.map_some', Option.some.injEq, Prod.mk.injEq] at h
      obtain ⟨k, hk, -, hr, hk2, hmin⟩ := search_sound _ date r fuel hres
      refine ⟨h.2.symm, k, hk, by rw [← h.1, hr], ?_⟩
      obtain ⟨a1, a2, a3⟩ := (hacc _).mp hk2
      refine ⟨a1, a2, a3, ?_⟩
      intro j hj1 hjk hall
      have h1 := hmin j hj1 hjk
      have h2 := (hacc _).mpr hall
      rw [h1] at h2
      cases h2
  · rintro ⟨j, hj, hall⟩
    obtain ⟨k, -, -, -, hrun⟩ := search_found
      (fun u : Time => (decide (months = []) || decide (u.Month ∈ months)) &&
        (isValidDay u (dayMapOf days) && u.After now)) date ⟨j, hj, (hacc _).mpr hall⟩
    refine ⟨k, fun fuel hf => ?_⟩
    rw [mParse_valid fuel now date p days months hne hval hmon, hrun fuel hf]
    rfl

/-! ## Month-anchor resolver -/

theorem gregorianMonthLength_bounds (y m : Int) :
    28 ≤ gregorianMonthLength y m ∧ gregorianMonthLength y m ≤ 31 := by
  unfold gregorianMonthLength
  split
  · split <;> omega
  · split <;> omega

theorem gregorianMonthLength_feb (y : Int) : gregorianMonthLength y 2 ≤ 29 := by
  unfold gregorianMonthLength
  simp only [if_true]
  split <;> omega

theorem Time.date_addDays_one_days (t : Time) :
    (t.addDays 1).days = dateToDays t.Year t.Month (t.Day + 1) := by
  rw [Time.days_addDays, dateToDays_add, t.date_valid.2.2.2.2]

/-- The day after a date is the first of a month exactly when the date is the
last day of its month. -/
theorem last_day_iff_next_first (t : Time) :
    t.Day = gregorianMonthLength t.Year t.Month ↔ (t.addDays 1).Day = 1 := by
  obtain ⟨a1, a2, a3, a4, a5⟩ := t.date_valid
  have hlen := monthLen_eq t.Year t.Month a1 a2
  have hd : (t.addDays 1).Day = (absDate (dateToDays t.Year t.Month (t.Day + 1))).2.2 := by
    simp only [Time.Day, Time.Date, Time.date_addDays_one_days]
  rw [hd]
  constructor
  · intro h
    have e : dateToDays t.Year t.Month (t.Day + 1) = dateToDays t.Year (t.Month + 1) 1 := by
      have h0 := dateToDays_next_month_zero t.Year t.Month a1 a2
      rw [hlen, ← h] at h0
      have h1 := dateToDays_add t.Year (t.Month + 1) 0 1
      have h2 := dateToDays_add t.Year t.Month t.Day 1
      simp only [zero_add] at h1
      omega
    rw [e]
    by_cases h12 : t.Month = 12
    · have e2 : dateToDays t.Year (t.Month + 1) 1 = dateToDays (t.Year + 1) 1 1 := by
        rw [h12]
        simp only [dateToDays, norm_twelve]
        norm_num
      rw [e2, absDate_dateToDays _ 1 1 le_rfl (by decide) le_rfl
        (by simp [monthLen, daysBefore])]
    · have hl : (1 : Int) ≤ monthLen (isLeap t.Year) (t.Month + 1) := by
        rw [monthLen_eq _ _ (by omega) (by omega)]
        have := (gregorianMonthLength_bounds t.Year (t.Month + 1)).1
        omega
      rw [absDate_dateToDays _ _ 1 (by omega) (by omega) le_rfl hl]
  · intro h
    by_contra hne
    have hlt : t.Day + 1 ≤ monthLen (isLeap t.Year) t.Month := by
      rw [hlen]
      omega
    rw [absDate_dateToDays _ _ _ a1 a2 (by omega) hlt] at h
    simp only at h
    omega

theorem mParse_invalid (fuel : Nat) (now date : Time) (p : String) (days months : List Int)
    (h : ¬ (days ≠ [] ∧ (∀ v ∈ days, -2 ≤ v ∧ v ≤ 31 ∧ v ≠ 0) ∧
      (∀ m ∈ months, 1 ≤ m ∧ m ≤ 12))) :
    mParse fuel now date ⟨p, days, months⟩ = some ("", some .ErrNotValidRepeat) := by
  unfold mParse
  simp only
  by_cases h1 : days.length = 0
  · simp [h1]
  · have hne : days ≠ [] := fun e => h1 (by rw [e]; rfl)
    by_cases h2 : (days.any fun day => decide (day < -2 ∨ day > 31 ∨ day = 0)) = true
    · simp only [h1, if_false, h2, if_true]
    · have hval : ∀ v ∈ days, -2 ≤ v ∧ v ≤ 31 ∧ v ≠ 0 := by
        intro v hv
        have := mt (fun hb => List.any_eq_true.mpr ⟨v, hv, hb⟩) h2
        simp only [decide_eq_true_eq] at this
        omega
      have hbad : ¬ ∀ m ∈ months, 1 ≤ m ∧ m ≤ 12 := fun hm => h ⟨hne, hval, hm⟩
      push_neg at hbad
      obtain ⟨m, hm, hmb⟩ := hbad
      have hmne : months.length ≠ 0 := by
        intro e
        rw [List.length_eq_zero.mp e] at hm
        cases hm
      have h3 : (months.any fun m => decide (m < 1 ∨ m > 12)) = true := by
        rw [List.any_eq_true]
        refine ⟨m, hm, ?_⟩
        simp only [decide_eq_true_eq]
        by_cases h0 : 1 ≤ m
        · exact Or.inr (by have := hmb h0; omega)
        · exact Or.inl (by omega)
      simp only [h1, if_false, h2, hmne, ne_eq, not_false_eq_true, decide_True, if_true, h3,
        Bool.and_self, ite_self]

theorem mParse_some_listed (fuel : Nat) (now date : Time) (p : String) (days months : List Int)
    (s : String) (h : mParse fuel now date ⟨p, days, months⟩ = some (s, none)) :
    ∃ d : Time, s = d.Format ∧ isValidDay d (dayMapOf days) = true := by
  by_cases hv : days ≠ [] ∧ (∀ v ∈ days, -2 ≤ v ∧ v ≤ 31 ∧ v ≠ 0) ∧
      (∀ m ∈ months, 1 ≤ m ∧ m ≤ 12)
  · rw [mParse_valid fuel now date p days months hv.1 hv.2.1 hv.2.2] at h
    cases hres : iterUntil (fun u => (decide (months = []) || decide (u.Month ∈ months)) &&
        (isValidDay u (dayMapOf days) && u.After now)) (fun u => u.addDays 1) fuel
        (date.addDays 1) with
    | none =>
      rw [hres] at h
      cases h
    | some r =>
      rw [hres] at h
      simp only [Option.map_some', Option.some.injEq, Prod.mk.injEq, and_true] at h
      obtain ⟨k, -, -, hstop, -⟩ := iterUntil_some _ _ _ _ _ hres
      simp only [Bool.and_eq_true] at hstop
      exact ⟨r, h.symm, hstop.2.1⟩
  · rw [mParse_invalid fuel now date p days months hv] at h
    cases h

/-- C6 (month-anchor resolver).  `daysInMonth` is the Gregorian month length;
`isValidDay` holds exactly when the day number is in the map, or `-1` is in it
and the date is the last day of its month, or `-2` is in it and the date is
the second-to-last day; the last day of a month is the day whose successor is
the first of a month; and every date returned for the day list `[-1]` is the
last day of its month. -/
theorem C6_isValidDay_month_anchor :
    (∀ t : Time, daysInMonth t = gregorianMonthLength t.Year t.Month) ∧
    (∀ (t : Time) (dayMap : Int → Bool), isValidDay t dayMap = true ↔
      (dayMap t.Day = true ∨
        (dayMap (-1) = true ∧ t.Day = gregorianMonthLength t.Year t.Month) ∨
        (dayMap (-2) = true ∧ t.Day = gregorianMonthLength t.Year t.Month - 1))) ∧
    (∀ (t : Time) (days : List Int), isValidDay t (dayMapOf days) = true ↔ dayListed days t) ∧
    (∀ t : Time, t.Day = gregorianMonthLength t.Year t.Month ↔ (t.addDays 1).Day = 1) ∧
    (∀ (fuel : Nat) (now date : Time) (p : String) (months : List Int) (s : String),
      mParse fuel now date ⟨p, [-1], months⟩ = some (s, none) →
      ∃ d : Time, s = d.Format ∧ d.Day = gregorianMonthLength d.Year d.Month ∧
        (d.addDays 1).Day = 1) := by
  refine ⟨daysInMonth_eq, isValidDay_iff, isValidDay_listed, last_day_iff_next_first, ?_⟩
  intro fuel now date p months s h
  obtain ⟨d, hs, hv⟩ := mParse_some_listed fuel now date p [-1] months s h
  rw [isValidDay_listed, dayListed] at hv
  have hd1 := d.date_valid.2.2.1
  have hlast : d.Day = gregorianMonthLength d.Year d.Month := by
    rcases hv with h1 | ⟨-, h2⟩ | ⟨h3, -⟩
    · simp only [List.mem_singleton] at h1
      omega
    · exact h2
    · simp at h3
  exact ⟨d, hs, hlast, (last_day_iff_next_first d).mp hlast⟩

/-- No date is the 31st of a February. -/
theorem no_february_31 (now u : Time) :
    ((decide (([2] : List Int) = []) || decide (u.Month ∈ ([2] : List Int))) &&
      (isValidDay u (dayMapOf [31]) && u.After now)) = false := by
  rw [Bool.eq_false_iff]
  intro h
  simp only [Bool.and_eq_true, Bool.or_eq_true, decide_eq_true_eq, List.mem_singleton,
    isValidDay_listed, dayListed] at h
  obtain ⟨hm, hv, -⟩ := h
  have hm2 : u.Month = 2 := by
    rcases hm with h | h
    · cases h
    · exact h
  have hd := u.date_valid.2.2.2.1
  rw [hm2] at hd
  have hfeb := gregorianMonthLength_feb u.Year
  have hb := gregorianMonthLength_bounds u.Year u.Month
  rcases hv with h1 | ⟨h2, -⟩ | ⟨h3, -⟩
  · omega
  · simp at h2
  · simp at h3

/-- C7 (failing input).  On the rule `m 31 2`, which passes validation, the
search of `mParse` never returns, whatever the base date, `now` and the number
of iterations allowed; in particular `NextDate` never returns on base date
`20240131`, rule `"m 31 2"` and `now` 2024-02-01. -/
theorem C7_mParse_february_31_never_returns :
    (∀ (fuel : Nat) (now date : Time), mParse fuel now date ⟨"m", [31], [2]⟩ = none) ∧
    (∀ fuel : Nat, NextDate fuel (mkDate 2024 2 1 0) "20240131" "m 31 2" = none) := by
  have h1 : ∀ (fuel : Nat) (now date : Time), mParse fuel now date ⟨"m", [31], [2]⟩ = none := by
    intro fuel now date
    rw [mParse_valid fuel now date "m" [31] [2] (by simp) (by simp) (by simp)]
    rw [search_never _ date (fun j _ => no_february_31 now _) fuel]
    rfl
  refine ⟨h1, fun fuel => ?_⟩
  have hd : timeParse "20240131" = .ok (mkDate 2024 1 31 0) := by rfl
  have hr : ParseRepeat "m 31 2" = (⟨"m", [31], [2]⟩, none) := by decide
  rw [NextDate_dispatch fuel _ _ _ _ _ hd hr]
  simp only [show ¬ ("m" = "d") by decide, show ¬ ("m" = "w") by decide, if_false, if_true]
  exact h1 fuel _ _

/-! ## Yearly strategy -/

/-- Adding a year through `AddDate` moves an instant forward by at least 365
days. -/
theorem AddDate_year_ns (t : Time) : t.ns + 365 * nsPerDay ≤ (t.AddDate 1 0 0).ns := by
  obtain ⟨a1, a2, a3, a4, a5⟩ := t.date_valid
  have e : (t.AddDate 1 0 0).ns = dateToDays (t.Year + 1) t.Month t.Day * nsPerDay + t.clock := by
    simp only [Time.AddDate, mkDate, add_zero, Time.Year, Time.Month, Time.Day]
  have h1 := dateToDays_valid (t.Year + 1) t.Month t.Day a1 a2
  have h2 := dateToDays_valid t.Year t.Month t.Day a1 a2
  have h3 := daysSinceEpoch_succ t.Year
  have hdiff : dateToDays t.Year t.Month t.Day + 365 ≤ dateToDays (t.Year + 1) t.Month t.Day := by
    rw [h1, h2, h3]
    simp only [ydayOf]
    generalize daysBefore (t.Month - 1).toNat = b
    cases isLeap t.Year <;> cases isLeap (t.Year + 1) <;> by_cases hm : 3 ≤ t.Month <;>
      simp [hm] <;> omega
  rw [e, t.ns_eq, ← a5]
  have := Int.mul_le_mul_of_nonneg_right hdiff (le_of_lt nsPerDay_pos)
  rw [add_mul] at this
  omega

theorem iterate_progress (step : Time → Time) (hstep : ∀ t : Time, t.ns + 1 ≤ (step t).ns)
    (start : Time) (k : Nat) : start.ns + k ≤ (step^[k] start).ns := by
  induction k generalizing start with
  | zero => simp
  | succ k ih =>
    rw [Function.iterate_succ_apply]
    have h1 := ih (step start)
    have h2 := hstep start
    push_cast
    omega

/-- A loop that steps forward while before `now` stops at the first candidate
that is not before `now`. -/
theorem until_not_before (now : Time) (step : Time → Time)
    (hstep : ∀ t : Time, t.ns + 1 ≤ (step t).ns) (start : Time) :
    ∃ k : Nat, (step^[k] start).Before now = false ∧
      (∀ j : Nat, j < k → (step^[j] start).Before now = true) ∧
      ∀ fuel, k < fuel →
        iterUntil (fun u => !u.Before now) step fuel start = some (step^[k] start) := by
  classical
  have hex : ∃ k : Nat, (step^[k] start).Before now = false := by
    refine ⟨(now.ns - start.ns).toNat, ?_⟩
    have h1 := iterate_progress step hstep start (now.ns - start.ns).toNat
    have h2 := Int.self_le_toNat (now.ns - start.ns)
    simp only [Time.Before, decide_eq_false_iff_not, not_lt]
    omega
  have hmin : ∀ j : Nat, j < Nat.find hex → (step^[j] start).Before now = true := by
    intro j hj
    have := Nat.find_min hex hj
    simpa using this
  refine ⟨Nat.find hex, Nat.find_spec hex, hmin, ?_⟩
  intro fuel hf
  apply iterUntil_found _ _ _ _ _ hf
  · simp [Nat.find_spec hex]
  · intro j hj
    simp [hmin j hj]

/-- C5 (yearly strategy).  For every base instant `date`, every `now` and a
year rule with empty parameter lists, `yParse` returns, with no error, the
formatted first element not before `now` of the sequence obtained from `date`
by adding one year repeatedly (`AddDate(1, 0, 0)`), starting with
`date + 1 year`: there is a `k ≥ 1` such that the `k`-th element is not before
`now`, every earlier element is before `now`, and the result is the `k`-th
element once the loop is given `k` iterations; `k = 1` when `date + 1 year` is
not before `now`, and an element equal to `now` is the result.  `NextDate`
returns the same on strings that parse to `date` and to the rule. -/
theorem C5_yParse_first_anniversary (now date : Time) (p : String) :
    ∃ k : Nat, 1 ≤ k ∧ ((fun u : Time => u.AddDate 1 0 0)^[k] date).Before now = false ∧
      (∀ j : Nat, 1 ≤ j → j < k → ((fun u : Time => u.AddDate 1 0 0)^[j] date).Before now = true) ∧
      ((date.AddDate 1 0 0).Before now = false → k = 1) ∧
      (∀ j : Nat, 1 ≤ j → (fun u : Time => u.AddDate 1 0 0)^[j] date = now → k = j) ∧
      (∀ fuel, k ≤ fuel → yParse fuel now date ⟨p, [], []⟩ =
        some (((fun u : Time => u.AddDate 1 0 0)^[k] date).Format, none)) ∧
      (∀ (fuel : Nat) (ds rs : String), k ≤ fuel → timeParse ds = .ok date →
        ParseRepeat rs = (⟨"y", [], []⟩, none) →
        NextDate fuel now ds rs =
          some (((fun u : Time => u.AddDate 1 0 0)^[k] date).Format, none)) := by
  have hstep : ∀ t : Time, t.ns + 1 ≤ (t.AddDate 1 0 0).ns := by
    intro t
    have h := AddDate_year_ns t
    have hp : (1 : Int) ≤ 365 * nsPerDay := by decide
    omega
  obtain ⟨k, hnb, hmin, hrun⟩ :=
    until_not_before now (fun u : Time => u.AddDate 1 0 0) hstep (date.AddDate 1 0 0)
  have hit : ∀ j : Nat, (fun u : Time => u.AddDate 1 0 0)^[j] (date.AddDate 1 0 0) =
      (fun u : Time => u.AddDate 1 0 0)^[j + 1] date := by
    intro j
    rw [Function.iterate_succ_apply]
  rw [hit] at hnb
  have hmin2 : ∀ j : Nat, 1 ≤ j → j < k + 1 →
      ((fun u : Time => u.AddDate 1 0 0)^[j] date).Before now = true := by
    intro j hj1 hjk
    have := hmin (j - 1) (by omega)
    rw [hit] at this
    have e : j - 1 + 1 = j := by omega
    rwa [e] at this
  have hrun2 : ∀ (q : String) (fuel : Nat), k + 1 ≤ fuel → yParse fuel now date ⟨q, [], []⟩ =
      some (((fun u : Time => u.AddDate 1 0 0)^[k + 1] date).Format, none) := by
    intro q fuel hf
    simp only [yParse, List.length_nil, ne_eq, not_true_eq_false, if_false, yParseLoop_eq]
    rw [hrun fuel (by omega), hit]
    rfl
  have hmono : ∀ a b : Nat, a < b →
      ((fun u : Time => u.AddDate 1 0 0)^[a] date).ns <
        ((fun u : Time => u.AddDate 1 0 0)^[b] date).ns := by
    intro a b hab
    obtain ⟨c, rfl⟩ : ∃ c, b = a + (c + 1) := ⟨b - a - 1, by omega⟩
    rw [add_comm a, Function.iterate_add_apply]
    have := iterate_progress _ hstep ((fun u : Time => u.AddDate 1 0 0)^[a] date) (c + 1)
    push_cast at this
    omega
  refine ⟨k + 1, by omega, hnb, hmin2, ?_, ?_, hrun2 p, ?_⟩
  · intro h
    by_contra hne
    have := hmin2 1 le_rfl (by omega)
    simp only [Function.iterate_one] at this
    rw [h] at this
    cases this
  · intro j hj hjn
    by_contra hne
    rcases Nat.lt_or_gt_of_ne hne with hlt | hgt
    · have h1 := hmono (k + 1) j hlt
      rw [hjn] at h1
      simp only [Time.Before, decide_eq_false_iff_not, not_lt] at hnb
      omega
    · have := hmin2 j hj hgt
      rw [hjn] at this
      simp [Time.Before] at this
  · intro fuel ds rs hf hds hrs
    rw [NextDate_dispatch fuel now date ds rs _ hds hrs]
    simp only [show ¬ ("y" = "d") by decide, show ¬ ("y" = "w") by decide,
      show ¬ ("y" = "m") by decide, if_false, if_true]
    exact hrun2 "y" fuel hf

/-! ## Dispatcher, parser and daily validation -/

/-- C8 (empty rule).  For every `now`, every base-date string and any number of
loop iterations allowed, `NextDate` on the empty rule string returns the empty
result string and the error `ErrRepeatNotSpecified`; the date string is not
looked at. -/
theorem C8_NextDate_empty_rule (fuel : Nat) (now : Time) (date : String) :
    NextDate fuel now date "" = some ("", some .ErrRepeatNotSpecified) := by
  simp [NextDate]

theorem splitChars_ne_nil (sep : Char) (l : List Char) : splitChars sep l ≠ [] := by
  cases l with
  | nil => simp [splitChars]
  | cons c cs =>
    simp only [splitChars]
    split
    · simp
    · split <;> simp

theorem splitChars_head (sep : Char) (l : List Char) :
    (splitChars sep l).headD [] = l.takeWhile fun c => decide (c ≠ sep) := by
  induction l with
  | nil => simp [splitChars]
  | cons c cs ih =>
    simp only [splitChars]
    by_cases h : c = sep
    · simp [h]
    · simp only [h, if_false]
      cases hs : splitChars sep cs with
      | nil => exact absurd hs (splitChars_ne_nil sep cs)
      | cons x xs =>
        rw [hs] at ih
        simp only [List.headD_cons] at ih
        simp [List.takeWhile_cons, h, ih]

theorem stringsSplit_head (rs : String) : (stringsSplit rs ' ').headD "" = firstToken rs := by
  simp only [stringsSplit, firstToken]
  rw [← splitChars_head]
  cases hs : splitChars ' ' rs.data with
  | nil => exact absurd hs (splitChars_ne_nil _ _)
  | cons x xs => simp

/-- C9 (unrecognised period).  Every rule string whose first space-separated
token is not one of `d`, `w`, `m`, `y` makes `ParseRepeat` return the zero
`Repeat` and the error `ErrNotValidRepeat`, whatever follows the token. -/
theorem C9_ParseRepeat_unknown_period (rs : String) (h : firstToken rs ∉ period) :
    ParseRepeat rs = (Repeat.zero, some .ErrNotValidRepeat) := by
  have hv : (List.range period.length).foldl
      (fun v i => if firstToken rs = period.getD i "" then true else v) false = false := by
    simp only [period, List.mem_cons, List.mem_singleton, List.not_mem_nil, or_false,
      not_or] at h
    obtain ⟨h1, h2, h3, h4⟩ := h
    have e : List.range period.length = [0, 1, 2, 3] := by decide
    rw [e]
    simp [period, h1, h2, h3, h4]
  simp only [ParseRepeat, stringsSplit_head, hv, Bool.not_false, if_true]

theorem dParse_invalid (fuel : Nat) (now date : Time) (rep : Repeat) (h : ¬ dailyValid rep) :
    dParse fuel now date rep = some ("", some .ErrNotValidRepeat) := by
  unfold dParse
  simp only
  by_cases h1 : rep.FirstSlice.length ≠ 1
  · rw [if_pos h1]
  · obtain ⟨n, hn⟩ := List.length_eq_one.mp (not_not.mp h1)
    have hb : n > 400 ∨ n < 1 := by
      by_contra hc
      exact h ⟨n, hn, by omega, by omega⟩
    simp only [hn, List.length_singleton, ne_eq, not_true_eq_false, if_false, List.headD_cons, hb,
      if_true]

/-- C10 (daily validation).  For every base instant and `now`: `dParse` returns
the empty string and `ErrNotValidRepeat`, whatever the iterations allowed,
exactly when the first list is not a single interval in `[1, 400]`; a single
interval in `[1, 400]` makes it return a date with no error once given enough
iterations; and any error `dParse` returns is `ErrNotValidRepeat` with the
empty string, on such an invalid rule. -/
theorem C10_dParse_validation (now date : Time) (rep : Repeat) :
    ((∀ fuel, dParse fuel now date rep = some ("", some .ErrNotValidRepeat)) ↔
      ¬ dailyValid rep) ∧
    ((∃ (fuel : Nat) (s : String), dParse fuel now date rep = some (s, none)) ↔
      dailyValid rep) ∧
    (∀ (fuel : Nat) (s : String) (e : Error), dParse fuel now date rep = some (s, some e) →
      e = .ErrNotValidRepeat ∧ s = "" ∧ ¬ dailyValid rep) := by
  have hvalid : dailyValid rep → ∃ k : Nat, ∃ s : String, ∀ fuel, k ≤ fuel →
      dParse fuel now date rep = some (s, none) := by
    rintro ⟨n, hn, h1, h400⟩
    obtain ⟨k, hk, hnb, hmin⟩ := daily_steps now date n h1
    refine ⟨k, (date.addDays (k * n)).Format, fun fuel hf => ?_⟩
    have := dParse_run now date n rep.Period rep.SecondSlice h1 h400 k hk hnb hmin fuel hf
    rw [← hn] at this
    exact this
  have hnoerr : dailyValid rep → ∀ (fuel : Nat) (s : String) (e : Error),
      dParse fuel now date rep ≠ some (s, some e) := by
    rintro ⟨n, hn, h1, h400⟩ fuel s e h
    have hv : ¬ (n > 400 ∨ n < 1) := by omega
    simp only [dParse, hn, List.length_singleton, ne_eq, not_true_eq_false, if_false,
      List.headD_cons, hv] at h
    cases hl : dParseLoop now n fuel (date.AddDate 0 0 n) with
    | none =>
      rw [hl] at h
      cases h
    | some r =>
      rw [hl] at h
      simp at h
  refine ⟨⟨?_, fun h fuel => dParse_invalid fuel now date rep h⟩, ⟨?_, ?_⟩, ?_⟩
  · intro h hv
    exact hnoerr hv 0 _ _ (h 0)
  · rintro ⟨fuel, s, h⟩
    by_contra hv
    rw [dParse_invalid fuel now date rep hv] at h
    cases h
  · intro hv
    obtain ⟨k, s, hrun⟩ := hvalid hv
    exact ⟨k, s, hrun k le_rfl⟩
  · intro fuel s e h
    by_cases hv : dailyValid rep
    · exact absurd h (hnoerr hv fuel s e)
    · rw [dParse_invalid fuel now date rep hv] at h
      simp only [Option.some.injEq, Prod.mk.injEq] at h
      exact ⟨h.2.symm, h.1.symm, hv⟩

/-! ## Instances at concrete inputs -/

/-- C1 at base 2024-02-13, rule `d 7`, `now` 2024-02-13: the result is
20240220. -/
theorem C1_witness_d7 :
    (1 : Int) ≤ 7 ∧ (7 : Int) ≤ 400 ∧
      NextDate 1 (mkDate 2024 2 13 0) "20240213" "d 7" = some ("20240220", none) := by
  refine ⟨by decide, by decide, ?_⟩
  obtain ⟨k, -, -, -, hone, -, -, hnext, -⟩ :=
    C1_dParse_least_multiple (mkDate 2024 2 13 0) (mkDate 2024 2 13 0) 7 "d" []
      (by decide) (by decide)
  have hk : k = 1 := hone (by decide)
  subst hk
  rw [hnext 1 "20240213" "d 7" le_rfl rfl (by decide)]
  decide

/-- C2 at base 2024-01-01 (a Monday), rule `w 1,3`, `now` 2024-01-03: the
result is 20240108. -/
theorem C2_witness_w13 :
    (1 ≤ ([1, 3] : List Int).length ∧ ([1, 3] : List Int).length ≤ 7 ∧
      ∀ v ∈ ([1, 3] : List Int), 1 ≤ v ∧ v ≤ 7) ∧
      NextDate 7 (mkDate 2024 1 3 0) "20240101" "w 1,3" = some ("20240108", none) := by
  have hyp : ∀ v ∈ ([1, 3] : List Int), 1 ≤ v ∧ v ≤ 7 := by decide
  refine ⟨⟨by decide, by decide, hyp⟩, ?_⟩
  obtain ⟨k, hk, hafter, hlisted, hmin, -, hnext⟩ :=
    C2_wParse_earliest_weekday (mkDate 2024 1 3 0) (mkDate 2024 1 1 0) "w" [1, 3] []
      (by decide) (by decide) hyp
  have hle : k ≤ 7 := by
    by_contra hgt
    exact hmin 7 (by decide) (by omega) ⟨by decide, by decide⟩
  have hk7 : k = 7 := by
    interval_cases k
    · exact absurd hafter (by decide)
    · exact absurd hafter (by decide)
    · exact absurd hlisted (by decide)
    · exact absurd hlisted (by decide)
    · exact absurd hlisted (by decide)
    · exact absurd hlisted (by decide)
    · rfl
  subst hk7
  rw [hnext 7 "20240101" "w 1,3" le_rfl rfl (by decide)]
  decide

/-- C3 at base 2024-02-27, rule `m -2`, `now` 2024-02-01: the result is
20240228, the second-to-last day of a leap February. -/
theorem C3_witness_second_to_last :
    (([-2] : List Int) ≠ [] ∧ ∀ v ∈ ([-2] : List Int), -2 ≤ v ∧ v ≤ 31 ∧ v ≠ 0) ∧
      NextDate 1 (mkDate 2024 2 1 0) "20240227" "m -2" = some ("20240228", none) := by
  have hyp : ∀ v ∈ ([-2] : List Int), -2 ≤ v ∧ v ≤ 31 ∧ v ≠ 0 := by decide
  refine ⟨⟨by decide, hyp⟩, ?_⟩
  obtain ⟨k, hk, -, -, hmin, -, hnext⟩ :=
    C3_mParse_earliest_listed_day (mkDate 2024 2 1 0) (mkDate 2024 2 27 0) "m" [-2]
      (by decide) hyp
  have hk1 : k = 1 := by
    by_contra hne
    exact hmin 1 le_rfl (by omega) ⟨by decide, by decide⟩
  subst hk1
  rw [hnext 1 "20240227" "m -2" le_rfl rfl (by decide)]
  decide

/-- C4 at base 2024-01-31, rule `m 29 2`, `now` 2024-02-01: the returned
20240229 is a 29th in February at a positive day offset from the base. -/
theorem C4_witness_feb29 :
    (([29] : List Int) ≠ [] ∧ (∀ v ∈ ([29] : List Int), -2 ≤ v ∧ v ≤ 31 ∧ v ≠ 0) ∧
      ([2] : List Int) ≠ [] ∧ ∀ m ∈ ([2] : List Int), 1 ≤ m ∧ m ≤ 12) ∧
      mParse 29 (mkDate 2024 2 1 0) (mkDate 2024 1 31 0) ⟨"m", [29], [2]⟩ =
        some ("20240229", none) ∧
      ∃ k : Nat, 1 ≤ k ∧ "20240229" = ((mkDate 2024 1 31 0).addDays k).Format ∧
        dayListed [29] ((mkDate 2024 1 31 0).addDays k) ∧
        ((mkDate 2024 1 31 0).addDays k).Month ∈ ([2] : List Int) := by
  have hyp1 : ∀ v ∈ ([29] : List Int), -2 ≤ v ∧ v ≤ 31 ∧ v ≠ 0 := by decide
  have hyp2 : ∀ m ∈ ([2] : List Int), 1 ≤ m ∧ m ≤ 12 := by decide
  have hrun : mParse 29 (mkDate 2024 2 1 0) (mkDate 2024 1 31 0) ⟨"m", [29], [2]⟩ =
      some ("20240229", none) := by decide
  refine ⟨⟨by decide, hyp1, by decide, hyp2⟩, hrun, ?_⟩
  obtain ⟨-, k, hk, hs, -, hl, hm, -⟩ :=
    (C4_mParse_filtered_earliest (mkDate 2024 2 1 0) (mkDate 2024 1 31 0) "m" [29] [2]
      (by decide) hyp1 (by decide) hyp2).1 29 "20240229" none hrun
  exact ⟨k, hk, hs, hl, hm⟩

/-- C5 at base 2024-02-13, rule `y`, `now` 2024-01-01: the result is
20250213. -/
theorem C5_witness_y :
    NextDate 1 (mkDate 2024 1 1 0) "20240213" "y" = some ("20250213", none) := by
  obtain ⟨k, -, -, -, hone, -, -, hnext⟩ :=
    C5_yParse_first_anniversary (mkDate 2024 1 1 0) (mkDate 2024 2 13 0) "y"
  have hk : k = 1 := hone (by decide)
  subst hk
  rw [hnext 1 "20240213" "y" le_rfl rfl (by decide)]
  decide

/-- C6 at base 2024-01-31, rule `m -1`, `now` 2024-02-01: the result 20240229
is the last day of its month. -/
theorem C6_witness_leap_february :
    mParse 29 (mkDate 2024 2 1 0) (mkDate 2024 1 31 0) ⟨"m", [-1], []⟩ =
        some ("20240229", none) ∧
      ∃ d : Time, "20240229" = d.Format ∧ d.Day = gregorianMonthLength d.Year d.Month ∧
        (d.addDays 1).Day = 1 := by
  have hrun : mParse 29 (mkDate 2024 2 1 0) (mkDate 2024 1 31 0) ⟨"m", [-1], []⟩ =
      some ("20240229", none) := by decide
  exact ⟨hrun, C6_isValidDay_month_anchor.2.2.2.2 29 _ _ "m" [] "20240229" hrun⟩

/-- C9 at the rule strings `k 1`, ` d 1`, `D 1` and `dd 1`. -/
theorem C9_witness_unknown_periods :
    (firstToken "k 1" ∉ period ∧
      ParseRepeat "k 1" = (Repeat.zero, some .ErrNotValidRepeat)) ∧
    ParseRepeat " d 1" = (Repeat.zero, some .ErrNotValidRepeat) ∧
    ParseRepeat "D 1" = (Repeat.zero, some .ErrNotValidRepeat) ∧
    ParseRepeat "dd 1" = (Repeat.zero, some .ErrNotValidRepeat) :=
  ⟨⟨by decide, C9_ParseRepeat_unknown_period "k 1" (by decide)⟩,
    C9_ParseRepeat_unknown_period " d 1" (by decide),
    C9_ParseRepeat_unknown_period "D 1" (by decide),
    C9_ParseRepeat_unknown_period "dd 1" (by decide)⟩

theorem dailyValid_singleton (p : String) (n : Int) (sec : List Int) :
    dailyValid ⟨p, [n], sec⟩ ↔ 1 ≤ n ∧ n ≤ 400 := by
  constructor
  · rintro ⟨m, hm, h1, h400⟩
    simp only [List.cons.injEq, and_true] at hm
    subst hm
    exact ⟨h1, h400⟩
  · rintro ⟨h1, h400⟩
    exact ⟨n, rfl, h1, h400⟩

/-- C10 at the intervals 0, 401 and -3, at an empty and a two-element list,
which fail, and at the boundary intervals 1 and 400, which succeed. -/
theorem C10_witness_boundaries :
    (∀ fuel, dParse fuel (mkDate 2024 2 13 0) (mkDate 2024 2 13 0) ⟨"d", [0], []⟩ =
      some ("", some .ErrNotValidRepeat)) ∧
    (∀ fuel, dParse fuel (mkDate 2024 2 13 0) (mkDate 2024 2 13 0) ⟨"d", [401], []⟩ =
      some ("", some .ErrNotValidRepeat)) ∧
    (∀ fuel, dParse fuel (mkDate 2024 2 13 0) (mkDate 2024 2 13 0) ⟨"d", [-3], []⟩ =
      some ("", some .ErrNotValidRepeat)) ∧
    (∀ fuel, dParse fuel (mkDate 2024 2 13 0) (mkDate 2024 2 13 0) ⟨"d", [], []⟩ =
      some ("", some .ErrNotValidRepeat)) ∧
    (∀ fuel, dParse fuel (mkDate 2024 2 13 0) (mkDate 2024 2 13 0) ⟨"d", [1, 2], []⟩ =
      some ("", some .ErrNotValidRepeat)) ∧
    (∃ (fuel : Nat) (s : String),
      dParse fuel (mkDate 2024 2 13 0) (mkDate 2024 2 13 0) ⟨"d", [1], []⟩ = some (s, none)) ∧
    (∃ (fuel : Nat) (s : String),
      dParse fuel (mkDate 2024 2 13 0) (mkDate 2024 2 13 0) ⟨"d", [400], []⟩ = some (s, none)) := by
  refine ⟨(C10_dParse_validation _ _ _).1.mpr ?_, (C10_dParse_validation _ _ _).1.mpr ?_,
    (C10_dParse_validation _ _ _).1.mpr ?_, (C10_dParse_validation _ _ _).1.mpr ?_,
    (C10_dParse_validation _ _ _).1.mpr ?_, (C10_dParse_validation _ _ _).2.1.mpr ?_,
    (C10_dParse_validation _ _ _).2.1.mpr ?_⟩
  · rw [dailyValid_singleton]
    decide
  · rw [dailyValid_singleton]
    decide
  · rw [dailyValid_singleton]
    decide
  · rintro ⟨n, hn, -⟩
    cases hn
  · rintro ⟨n, hn, -⟩
    cases hn
  · rw [dailyValid_singleton]
    decide
  · rw [dailyValid_singleton]
    decide

/-! ## Validation of the weekly, monthly and yearly strategies -/

theorem wParse_invalid (fuel : Nat) (now date : Time) (rep : Repeat) (h : ¬ weeklyValid rep) :
    wParse fuel now date rep = some ("", some .ErrNotValidRepeat) := by
  unfold wParse
  simp only
  by_cases h1 : rep.FirstSlice.length < 1 ∨ rep.FirstSlice.length > 7
  · rw [if_pos h1]
  · rw [if_neg h1]
    have h2 : (rep.FirstSlice.any fun elem => decide (elem < 1 ∨ elem > 7)) = true := by
      by_contra hc
      apply h
      refine ⟨by omega, by omega, fun v hv => ?_⟩
      have := mt (fun hb => List.any_eq_true.mpr ⟨v, hv, hb⟩) hc
      simp only [decide_eq_true_eq] at this
      omega
    rw [if_pos h2]

theorem weekly_accept_exists (now date : Time) (interval : List Int) (hne : interval ≠ [])
    (hval : ∀ v ∈ interval, 1 ≤ v ∧ v ≤ 7) :
    ∃ j : Nat, 1 ≤ j ∧
      (fun u : Time => weekDaysOf interval u.Weekday && u.After now) (date.addDays j) = true := by
  obtain ⟨v, hv⟩ := List.exists_mem_of_ne_nil interval hne
  obtain ⟨hv1, hv7⟩ := hval v hv
  obtain ⟨j0, hj0, hafter0, hwd0⟩ := weekday_later date now (v % 7) (by omega) (by omega)
  refine ⟨j0, hj0, ?_⟩
  simp only [Bool.and_eq_true, hafter0, and_true]
  rw [weekDaysOf_true]
  refine ⟨v, hv, ?_⟩
  rw [hwd0]
  split <;> omega

theorem wParse_returns (now date : Time) (rep : Repeat) (h : weeklyValid rep) :
    ∃ (k : Nat) (s : String), ∀ fuel, k ≤ fuel → wParse fuel now date rep = some (s, none) := by
  obtain ⟨h1, h7, hval⟩ := h
  have hne : rep.FirstSlice ≠ [] := by
    intro e
    rw [e] at h1
    simp at h1
  obtain ⟨k, -, -, -, hrun⟩ := search_found
    (fun u : Time => weekDaysOf rep.FirstSlice u.Weekday && u.After now) date
    (weekly_accept_exists now date rep.FirstSlice hne hval)
  refine ⟨k, (date.addDays k).Format, fun fuel hf => ?_⟩
  have := wParse_valid fuel now date rep.Period rep.FirstSlice rep.SecondSlice h1 h7 hval
  rw [this, hrun fuel hf]
  rfl

theorem wParse_no_error (now date : Time) (rep : Repeat) (h : weeklyValid rep) (fuel : Nat)
    (s : String) (e : Error) : wParse fuel now date rep ≠ some (s, some e) := by
  obtain ⟨h1, h7, hval⟩ := h
  have := wParse_valid fuel now date rep.Period rep.FirstSlice rep.SecondSlice h1 h7 hval
  intro hc
  rw [this] at hc
  cases hres : iterUntil (fun u => weekDaysOf rep.FirstSlice u.Weekday && u.After now)
      (fun u => u.addDays 1) fuel (date.addDays 1) with
  | none =>
    rw [hres] at hc
    cases hc
  | some r =>
    rw [hres] at hc
    simp at hc

/-- C11 (weekly validation).  For every base instant and `now`: `wParse`
returns the empty string and `ErrNotValidRepeat`, whatever the iterations
allowed, exactly when the first list is empty, has more than 7 elements
(duplicates counted) or holds a value outside `[1, 7]`; every other week rule
makes it return a date with no error once given enough iterations; and any
error `wParse` returns is `ErrNotValidRepeat` with the empty string, on such an
invalid rule. -/
theorem C11_wParse_validation (now date : Time) (rep : Repeat) :
    ((∀ fuel, wParse fuel now date rep = some ("", some .ErrNotValidRepeat)) ↔
      ¬ weeklyValid rep) ∧
    ((∃ (fuel : Nat) (s : String), wParse fuel now date rep = some (s, none)) ↔
      weeklyValid rep) ∧
    (∀ (fuel : Nat) (s : String) (e : Error), wParse fuel now date rep = some (s, some e) →
      e = .ErrNotValidRepeat ∧ s = "" ∧ ¬ weeklyValid rep) ∧
    (¬ weeklyValid rep ↔ (rep.FirstSlice = [] ∨ 7 < rep.FirstSlice.length ∨
      ∃ v ∈ rep.FirstSlice, v < 1 ∨ 7 < v)) := by
  refine ⟨⟨?_, fun h fuel => wParse_invalid fuel now date rep h⟩, ⟨?_, ?_⟩, ?_, ?_⟩
  · intro h hv
    exact wParse_no_error now date rep hv 0 _ _ (h 0)
  · rintro ⟨fuel, s, h⟩
    by_contra hv
    rw [wParse_invalid fuel now date rep hv] at h
    cases h
  · intro hv
    obtain ⟨k, s, hrun⟩ := wParse_returns now date rep hv
    exact ⟨k, s, hrun k le_rfl⟩
  · intro fuel s e h
    by_cases hv : weeklyValid rep
    · exact absurd h (wParse_no_error now date rep hv fuel s e)
    · rw [wParse_invalid fuel now date rep hv] at h
      simp only [Option.some.injEq, Prod.mk.injEq] at h
      exact ⟨h.2.symm, h.1.symm, hv⟩
  · unfold weeklyValid
    constructor
    · intro h
      by_contra hc
      push_neg at hc
      obtain ⟨c1, c2, c3⟩ := hc
      apply h
      refine ⟨?_, c2, fun v hv => ?_⟩
      · cases hl : rep.FirstSlice with
        | nil => exact absurd hl c1
        | cons a l => simp
      · have := c3 v hv
        omega
    · rintro (h | h | ⟨v, hv, hb⟩) ⟨h1, h7, hval⟩
      · rw [h] at h1
        simp at h1
      · omega
      · have := hval v hv
        omega

theorem mParse_no_error (now date : Time) (rep : Repeat) (h : monthlyValid rep) (fuel : Nat)
    (s : String) (e : Error) : mParse fuel now date rep ≠ some (s, some e) := by
  obtain ⟨hne, hval, hmon⟩ := h
  have := mParse_valid fuel now date rep.Period rep.FirstSlice rep.SecondSlice hne hval hmon
  intro hc
  rw [this] at hc
  cases hres : iterUntil (fun u => (decide (rep.SecondSlice = []) ||
      decide (u.Month ∈ rep.SecondSlice)) &&
      (isValidDay u (dayMapOf rep.FirstSlice) && u.After now))
      (fun u => u.addDays 1) fuel (date.addDays 1) with
  | none =>
    rw [hres] at hc
    cases hc
  | some r =>
    rw [hres] at hc
    simp at hc

/-- C12 (monthly validation).  For every base instant and `now`: `mParse`
returns the empty string and `ErrNotValidRepeat`, whatever the iterations
allowed, exactly when the first list is empty, or holds a value below -2,
above 31 or equal to 0, or the second list is non-empty and holds a value
outside `[1, 12]`; and any error `mParse` returns is `ErrNotValidRepeat` with
the empty string, on such an invalid rule, so no rule free of these defects
gets an error. -/
theorem C12_mParse_validation (now date : Time) (rep : Repeat) :
    ((∀ fuel, mParse fuel now date rep = some ("", some .ErrNotValidRepeat)) ↔
      ¬ monthlyValid rep) ∧
    (∀ (fuel : Nat) (s : String) (e : Error), mParse fuel now date rep = some (s, some e) →
      e = .ErrNotValidRepeat ∧ s = "" ∧ ¬ monthlyValid rep) ∧
    (¬ monthlyValid rep ↔ (rep.FirstSlice = [] ∨
      (∃ v ∈ rep.FirstSlice, v < -2 ∨ 31 < v ∨ v = 0) ∨
      (rep.SecondSlice ≠ [] ∧ ∃ m ∈ rep.SecondSlice, m < 1 ∨ 12 < m))) := by
  have hinv : ∀ fuel, ¬ monthlyValid rep →
      mParse fuel now date rep = some ("", some .ErrNotValidRepeat) := fun fuel h =>
    mParse_invalid fuel now date rep.Period rep.FirstSlice rep.SecondSlice h
  refine ⟨⟨?_, fun h fuel => hinv fuel h⟩, ?_, ?_⟩
  · intro h hv
    exact mParse_no_error now date rep hv 0 _ _ (h 0)
  · intro fuel s e h
    by_cases hv : monthlyValid rep
    · exact absurd h (mParse_no_error now date rep hv fuel s e)
    · rw [hinv fuel hv] at h
      simp only [Option.some.injEq, Prod.mk.injEq] at h
      exact ⟨h.2.symm, h.1.symm, hv⟩
  · unfold monthlyValid
    constructor
    · intro h
      by_contra hc
      push_neg at hc
      obtain ⟨c1, c2, c3⟩ := hc
      apply h
      refine ⟨c1, fun v hv => ?_, fun m hm => ?_⟩
      · have := c2 v hv
        omega
      · have hne : rep.SecondSlice ≠ [] := by
          intro e
          rw [e] at hm
          cases hm
        have := c3 hne m hm
        omega
    · rintro (h | ⟨v, hv, hb⟩ | ⟨-, m, hm, hb⟩) ⟨hne, hval, hmon⟩
      · exact hne h
      · have := hval v hv
        omega
      · have := hmon m hm
        omega

/-! ## Shape of the parser's results -/

theorem period_flag (tok : String) :
    (List.range period.length).foldl
      (fun v i => if tok = period.getD i "" then true else v) false = decide (tok ∈ period) := by
  have e : List.range period.length = [0, 1, 2, 3] := by decide
  rw [e]
  by_cases h1 : tok = "d"
  · subst h1
    decide
  · by_cases h2 : tok = "w"
    · subst h2
      decide
    · by_cases h3 : tok = "m"
      · subst h3
        decide
      · by_cases h4 : tok = "y"
        · subst h4
          decide
        · simp [period, h1, h2, h3, h4]

theorem sliceStringToInt_error (l : List String) (xs : List Int) (e : Error)
    (h : sliceStringToInt l = (xs, some e)) :
    xs = [] ∧ ∃ s ∈ l, strconvAtoi s = .error e := by
  induction l generalizing xs e with
  | nil => simp [sliceStringToInt] at h
  | cons a l ih =>
    simp only [sliceStringToInt] at h
    cases ha : strconvAtoi a with
    | error err =>
      rw [ha] at h
      simp only [Prod.mk.injEq, Option.some.injEq] at h
      exact ⟨h.1.symm, a, List.mem_cons_self _ _, by rw [ha, h.2]⟩
    | ok num =>
      rw [ha] at h
      cases hl : sliceStringToInt l with
      | mk ys oe =>
        rw [hl] at h
        cases oe with
        | none => simp at h
        | some err =>
          simp only [Prod.mk.injEq, Option.some.injEq] at h
          obtain ⟨-, s, hs, hse⟩ := ih ys err hl
          exact ⟨h.1.symm, s, List.mem_cons_of_mem _ hs, by rw [hse, h.2]⟩

theorem sliceStringToInt_ok (l : List String) (xs : List Int)
    (h : sliceStringToInt l = (xs, none)) :
    xs.length = l.length ∧ ∀ s ∈ l, ∃ n, strconvAtoi s = .ok n := by
  induction l generalizing xs with
  | nil =>
    simp only [sliceStringToInt, Prod.mk.injEq, and_true] at h
    subst h
    simp
  | cons a l ih =>
    simp only [sliceStringToInt] at h
    cases ha : strconvAtoi a with
    | error err =>
      rw [ha] at h
      simp at h
    | ok num =>
      rw [ha] at h
      cases hl : sliceStringToInt l with
      | mk ys oe =>
        rw [hl] at h
        cases oe with
        | some err => simp at h
        | none =>
          simp only [Prod.mk.injEq, and_true] at h
          obtain ⟨hlen, hall⟩ := ih ys hl
          subst h
          refine ⟨by simp [hlen], ?_⟩
          intro s hs
          rcases List.mem_cons.mp hs with rfl | hs
          · exact ⟨num, ha⟩
          · exact hall s hs

theorem sliceStringToInt_of_error (l : List String)
    (h : ∃ s ∈ l, ∃ e, strconvAtoi s = .error e) :
    ∃ e, sliceStringToInt l = ([], some e) := by
  cases hr : sliceStringToInt l with
  | mk xs oe =>
    cases oe with
    | some e =>
      obtain ⟨hx, -⟩ := sliceStringToInt_error l xs e hr
      exact ⟨e, by rw [hx]⟩
    | none =>
      obtain ⟨s, hs, e, he⟩ := h
      obtain ⟨n, hn⟩ := (sliceStringToInt_ok l xs hr).2 s hs
      rw [he] at hn
      cases hn

theorem stringsSplit_ne_nil (s : String) (sep : Char) : stringsSplit s sep ≠ [] := by
  simp only [stringsSplit, ne_eq, List.map_eq_nil_iff]
  exact splitChars_ne_nil sep s.data

/-- The three shapes of `ParseRepeat`: by the number of space-separated
tokens, after the period test. -/
theorem ParseRepeat_shape (rs : String) :
    ParseRepeat rs =
      if firstToken rs ∉ period then (Repeat.zero, some .ErrNotValidRepeat)
      else if (stringsSplit rs ' ').length < 2 then (⟨firstToken rs, [], []⟩, none)
      else
        match sliceStringToInt (stringsSplit ((stringsSplit rs ' ').getD 1 "") ',') with
        | (_, some err) => (Repeat.zero, some err)
        | (firstIntSlice, none) =>
          if (stringsSplit rs ' ').length < 3 then (⟨firstToken rs, firstIntSlice, []⟩, none)
          else
            match sliceStringToInt (stringsSplit ((stringsSplit rs ' ').getD 2 "") ',') with
            | (_, some err) => (Repeat.zero, some err)
            | (secondIntSlice, none) => (⟨firstToken rs, firstIntSlice, secondIntSlice⟩, none) := by
  simp only [ParseRepeat, stringsSplit_head, period_flag]
  by_cases h : firstToken rs ∈ period
  · simp only [h, decide_True, Bool.not_true, Bool.false_eq_true, if_false,
      not_true_eq_false]
  · simp [h]

theorem ParseRepeat_ok (rs : String) (r : Repeat) (h : ParseRepeat rs = (r, none)) :
    r.Period = firstToken rs ∧ r.Period ∈ period ∧
      (r.SecondSlice ≠ [] → r.FirstSlice ≠ []) := by
  rw [ParseRepeat_shape] at h
  by_cases hp : firstToken rs ∈ period
  · simp only [hp, not_true_eq_false, if_false] at h
    split at h
    · simp only [Prod.mk.injEq, and_true] at h
      subst h
      exact ⟨rfl, hp, fun hc => absurd rfl hc⟩
    · split at h
      · simp at h
      · rename_i firstIntSlice hfirst
        have hlen := (sliceStringToInt_ok _ _ hfirst).1
        have hne : firstIntSlice ≠ [] := by
          intro e
          rw [e] at hlen
          exact stringsSplit_ne_nil _ _ (List.length_eq_zero.mp hlen.symm)
        split at h
        · simp only [Prod.mk.injEq, and_true] at h
          subst h
          exact ⟨rfl, hp, fun _ => hne⟩
        · split at h
          · simp at h
          · simp only [Prod.mk.injEq, and_true] at h
            subst h
            exact ⟨rfl, hp, fun _ => hne⟩
  · simp [hp] at h

theorem period_cases (p : String) (h : p ∈ period) : p = "d" ∨ p = "w" ∨ p = "m" ∨ p = "y" := by
  simpa [period] using h

/-! ## Yearly validation -/

theorem yParse_invalid (fuel : Nat) (now date : Time) (rep : Repeat) (h : rep.FirstSlice ≠ []) :
    yParse fuel now date rep = some ("", some .ErrNotValidRepeat) := by
  have hl : rep.FirstSlice.length ≠ 0 := fun e => h (List.length_eq_zero.mp e)
  simp only [yParse, hl, ne_eq, not_false_eq_true, if_true]

theorem yParse_valid (fuel : Nat) (now date : Time) (rep : Repeat) (h : rep.FirstSlice = []) :
    yParse fuel now date rep =
      (iterUntil (fun u => !u.Before now) (fun u => u.AddDate 1 0 0) fuel
        (date.AddDate 1 0 0)).map fun d => (d.Format, none) := by
  simp only [yParse, h, List.length_nil, ne_eq, not_true_eq_false, if_false, yParseLoop_eq]

theorem AddDate_year_step (t : Time) : t.ns + 1 ≤ (t.AddDate 1 0 0).ns := by
  have h := AddDate_year_ns t
  have hp : (1 : Int) ≤ 365 * nsPerDay := by decide
  omega

/-- The yearly loop stops at the first anniversary that is not before `now`. -/
theorem yearly_run (now date : Time) :
    ∃ k : Nat, 1 ≤ k ∧ ((fun u : Time => u.AddDate 1 0 0)^[k] date).Before now = false ∧
      (∀ j : Nat, 1 ≤ j → j < k →
        ((fun u : Time => u.AddDate 1 0 0)^[j] date).Before now = true) ∧
      ∀ fuel, k ≤ fuel →
        iterUntil (fun u => !u.Before now) (fun u => u.AddDate 1 0 0) fuel (date.AddDate 1 0 0) =
          some ((fun u : Time => u.AddDate 1 0 0)^[k] date) := by
  obtain ⟨k, hnb, hmin, hrun⟩ :=
    until_not_before now (fun u : Time => u.AddDate 1 0 0) AddDate_year_step (date.AddDate 1 0 0)
  have hit : ∀ j : Nat, (fun u : Time => u.AddDate 1 0 0)^[j] (date.AddDate 1 0 0) =
      (fun u : Time => u.AddDate 1 0 0)^[j + 1] date := by
    intro j
    rw [Function.iterate_succ_apply]
  rw [hit] at hnb
  refine ⟨k + 1, by omega, hnb, ?_, ?_⟩
  · intro j hj1 hjk
    have := hmin (j - 1) (by omega)
    rw [hit] at this
    have e : j - 1 + 1 = j := by omega
    rwa [e] at this
  · intro fuel hf
    rw [hrun fuel (by omega), hit]

theorem yParse_no_error (now date : Time) (rep : Repeat) (h : rep.FirstSlice = []) (fuel : Nat)
    (s : String) (e : Error) : yParse fuel now date rep ≠ some (s, some e) := by
  intro hc
  rw [yParse_valid fuel now date rep h] at hc
  cases hres : iterUntil (fun u => !u.Before now) (fun u => u.AddDate 1 0 0) fuel
      (date.AddDate 1 0 0) with
  | none =>
    rw [hres] at hc
    cases hc
  | some r =>
    rw [hres] at hc
    simp at hc

/-- C13 (yearly validation, as the code has it).  `yParse` returns the empty
string and `ErrNotValidRepeat` exactly when the rule's first list is
non-empty, and returns a date with no error, once given enough iterations,
exactly when the first list is empty, whatever the second list holds.  A rule
returned by `ParseRepeat` with a non-empty second list has a non-empty first
list, so `NextDate` on a year rule with any non-empty parameter list returns
`ErrNotValidRepeat`. -/
theorem C13_yParse_checks_first_list (now date : Time) (rep : Repeat) :
    ((∀ fuel, yParse fuel now date rep = some ("", some .ErrNotValidRepeat)) ↔
      rep.FirstSlice ≠ []) ∧
    ((∃ (fuel : Nat) (s : String), yParse fuel now date rep = some (s, none)) ↔
      rep.FirstSlice = []) ∧
    (∀ (rs : String) (r : Repeat), ParseRepeat rs = (r, none) →
      r.SecondSlice ≠ [] → r.FirstSlice ≠ []) ∧
    (∀ (fuel : Nat) (ds rs : String) (r : Repeat), timeParse ds = .ok date →
      ParseRepeat rs = (r, none) → r.Period = "y" →
      (r.FirstSlice ≠ [] ∨ r.SecondSlice ≠ []) →
      NextDate fuel now ds rs = some ("", some .ErrNotValidRepeat)) := by
  refine ⟨⟨?_, fun h fuel => yParse_invalid fuel now date rep h⟩, ⟨?_, ?_⟩, ?_, ?_⟩
  · intro h hv
    exact yParse_no_error now date rep hv 0 _ _ (h 0)
  · rintro ⟨fuel, s, h⟩
    by_contra hv
    rw [yParse_invalid fuel now date rep hv] at h
    cases h
  · intro hv
    obtain ⟨k, -, -, -, hrun⟩ := yearly_run now date
    refine ⟨k, ((fun u : Time => u.AddDate 1 0 0)^[k] date).Format, ?_⟩
    rw [yParse_valid k now date rep hv, hrun k le_rfl]
    rfl
  · intro rs r h
    exact (ParseRepeat_ok rs r h).2.2
  · intro fuel ds rs r hds hrs hp hne
    have hfirst : r.FirstSlice ≠ [] := by
      rcases hne with h | h
      · exact h
      · exact (ParseRepeat_ok rs r hrs).2.2 h
    rw [NextDate_dispatch fuel now date ds rs r hds hrs, hp]
    simp only [show ¬ ("y" = "d") by decide, show ¬ ("y" = "w") by decide,
      show ¬ ("y" = "m") by decide, if_false, if_true]
    exact yParse_invalid fuel now date r hfirst

/-- C13, the claim as stated fails: on a year rule with an empty first list and
the second list `[1]`, `yParse` returns a date and no error. -/
theorem C13_counterexample_second_list_ignored :
    ([1] : List Int) ≠ [] ∧
      yParse 1 (mkDate 2024 1 1 0) (mkDate 2024 2 13 0) ⟨"y", [], [1]⟩ =
        some ("20250213", none) := by
  decide

/-- C13 at the rule strings `y 1` and `y 1 2`: `NextDate` returns
`ErrNotValidRepeat`; `yParse` fails on the first list `[1]`. -/
theorem C13_witness_year_parameters :
    NextDate 1 (mkDate 2024 1 1 0) "20240213" "y 1" = some ("", some .ErrNotValidRepeat) ∧
    NextDate 1 (mkDate 2024 1 1 0) "20240213" "y 1 2" = some ("", some .ErrNotValidRepeat) ∧
    (∀ fuel, yParse fuel (mkDate 2024 1 1 0) (mkDate 2024 2 13 0) ⟨"y", [1], []⟩ =
      some ("", some .ErrNotValidRepeat)) := by
  have h := C13_yParse_checks_first_list (mkDate 2024 1 1 0) (mkDate 2024 2 13 0) ⟨"y", [1], []⟩
  refine ⟨h.2.2.2 1 "20240213" "y 1" ⟨"y", [1], []⟩ rfl (by decide) rfl (Or.inl (by decide)),
    h.2.2.2 1 "20240213" "y 1 2" ⟨"y", [1], [2]⟩ rfl (by decide) rfl (Or.inr (by decide)),
    h.1.mpr (by decide)⟩

/-! ## Number errors of the parser -/

theorem parseUintLoop_error_kind (cs : List Char) (n : Nat) (e : Error)
    (h : parseUintLoop cs n = .error e) : e = .NumErrSyntax ∨ e = .NumErrRange := by
  induction cs generalizing n with
  | nil => simp [parseUintLoop] at h
  | cons c cs ih =>
    simp only [parseUintLoop] at h
    split at h
    · split at h
      · cases h
        exact Or.inr rfl
      · split at h
        · cases h
          exact Or.inr rfl
        · exact ih _ h
    · cases h
      exact Or.inl rfl

theorem parseUintLoop_non_digit (cs : List Char) (h : cs.all isDigit = false) (n : Nat) :
    ∃ e, parseUintLoop cs n = .error e := by
  induction cs generalizing n with
  | nil => simp at h
  | cons c cs ih =>
    simp only [parseUintLoop]
    by_cases hc : isDigit c = true
    · have hrest : cs.all isDigit = false := by
        simp only [List.all_cons, hc, Bool.true_and] at h
        exact h
      simp only [hc, if_true]
      split
      · exact ⟨_, rfl⟩
      · split
        · exact ⟨_, rfl⟩
        · exact ih hrest _
    · simp only [hc, if_false]
      exact ⟨_, rfl⟩

theorem strconvAtoi_error_kind (s : String) (e : Error) (h : strconvAtoi s = .error e) :
    e = .NumErrSyntax ∨ e = .NumErrRange := by
  unfold strconvAtoi at h
  cases hs : s.data with
  | nil =>
    rw [hs] at h
    cases h
    exact Or.inl rfl
  | cons c cs =>
    rw [hs] at h
    simp only at h
    by_cases hb : (if c = '+' ∨ c = '-' then cs else c :: cs).isEmpty = true
    · rw [if_pos hb] at h
      cases h
      exact Or.inl rfl
    · rw [if_neg hb] at h
      cases hp : parseUintLoop (if c = '+' ∨ c = '-' then cs else c :: cs) 0 with
      | error e2 =>
        rw [hp] at h
        cases h
        exact parseUintLoop_error_kind _ _ _ hp
      | ok un =>
        rw [hp] at h
        simp only at h
        by_cases h1 : (!decide (c = '-') && decide (un ≥ 9223372036854775808)) = true
        · rw [if_pos h1] at h
          cases h
          exact Or.inr rfl
        · rw [if_neg h1] at h
          by_cases h2 : (decide (c = '-') && decide (un > 9223372036854775808)) = true
          · rw [if_pos h2] at h
            cases h
            exact Or.inr rfl
          · rw [if_neg h2] at h
            cases h

theorem strconvAtoi_not_literal (s : String) (h : isIntLiteral s = false) :
    ∃ e, strconvAtoi s = .error e := by
  unfold isIntLiteral at h
  unfold strconvAtoi
  split
  · exact ⟨_, rfl⟩
  · rename_i c cs hs
    rw [hs] at h
    simp only at h ⊢
    by_cases hb : (if c = '+' ∨ c = '-' then cs else c :: cs).isEmpty = true
    · simp only [hb, if_true]
      exact ⟨_, rfl⟩
    · simp only [hb, Bool.false_eq_true, if_false]
      have hd : (if c = '+' ∨ c = '-' then cs else c :: cs).all isDigit = false := by
        simp only [Bool.not_eq_true] at hb
        rw [hb] at h
        simpa using h
      obtain ⟨e, he⟩ := parseUintLoop_non_digit _ hd 0
      rw [he]
      exact ⟨_, rfl⟩

/-- C14 (non-integer elements, as the code has it).  For every rule string with
a recognised period whose token 1 or token 2 holds a comma-separated element
that is not an integer literal, `ParseRepeat` returns the zero `Repeat` and the
error `strconv.Atoi` gave for an element it rejected: a `NumError` for
`ErrSyntax` or `ErrRange`, not `ErrNotValidRepeat`. -/
theorem C14_ParseRepeat_number_error (rs : String) (hp : firstToken rs ∈ period)
    (hbad :
      (2 ≤ (stringsSplit rs ' ').length ∧
        ∃ s ∈ stringsSplit ((stringsSplit rs ' ').getD 1 "") ',', isIntLiteral s = false) ∨
      (3 ≤ (stringsSplit rs ' ').length ∧
        ∃ s ∈ stringsSplit ((stringsSplit rs ' ').getD 2 "") ',', isIntLiteral s = false)) :
    ∃ e, ParseRepeat rs = (Repeat.zero, some e) ∧
      (e = .NumErrSyntax ∨ e = .NumErrRange) ∧ e ≠ .ErrNotValidRepeat ∧
      ∃ s : String, strconvAtoi s = .error e ∧
        (s ∈ stringsSplit ((stringsSplit rs ' ').getD 1 "") ',' ∨
          s ∈ stringsSplit ((stringsSplit rs ' ').getD 2 "") ',') := by
  have hkind : ∀ (e : Error) (s : String), strconvAtoi s = .error e →
      (e = .NumErrSyntax ∨ e = .NumErrRange) ∧ e ≠ .ErrNotValidRepeat := by
    intro e s hs
    have := strconvAtoi_error_kind s e hs
    refine ⟨this, ?_⟩
    rcases this with h | h <;> rw [h] <;> decide
  have hlen2 : ¬ (stringsSplit rs ' ').length < 2 := by
    rcases hbad with h | h <;> omega
  rw [ParseRepeat_shape]
  simp only [hp, not_true_eq_false, if_false, hlen2]
  cases h1 : sliceStringToInt (stringsSplit ((stringsSplit rs ' ').getD 1 "") ',') with
  | mk xs oe =>
    cases oe with
    | some e =>
      obtain ⟨-, s, hs, hse⟩ := sliceStringToInt_error _ _ _ h1
      exact ⟨e, rfl, (hkind e s hse).1, (hkind e s hse).2, s, hse, Or.inl hs⟩
    | none =>
      have hall := (sliceStringToInt_ok _ _ h1).2
      rcases hbad with ⟨-, s, hs, hlit⟩ | ⟨h3, s, hs, hlit⟩
      · obtain ⟨n, hn⟩ := hall s hs
        obtain ⟨e, he⟩ := strconvAtoi_not_literal s hlit
        rw [he] at hn
        cases hn
      · have hlen3 : ¬ (stringsSplit rs ' ').length < 3 := by omega
        simp only [hlen3, if_false]
        obtain ⟨e0, he0⟩ := strconvAtoi_not_literal s hlit
        obtain ⟨e, he⟩ := sliceStringToInt_of_error
          (stringsSplit ((stringsSplit rs ' ').getD 2 "") ',') ⟨s, hs, e0, he0⟩
        rw [he]
        obtain ⟨-, s2, hs2, hse2⟩ := sliceStringToInt_error _ _ _ he
        exact ⟨e, rfl, (hkind e s2 hse2).1, (hkind e s2 hse2).2, s2, hse2, Or.inr hs2⟩

/-- C14, the claim as stated fails: on `"d x"` the period is recognised and the
element `x` is not an integer, and the error returned is the syntax error of
`strconv.Atoi`, which is not `ErrNotValidRepeat`. -/
theorem C14_counterexample_syntax_error :
    firstToken "d x" ∈ period ∧ isIntLiteral "x" = false ∧
      ParseRepeat "d x" = (Repeat.zero, some .NumErrSyntax) ∧
      Error.NumErrSyntax ≠ Error.ErrNotValidRepeat := by
  decide

/-- C14 at `"m 1,a"`, and the results on `"w 1,,2"`, `"y "`, `"d  7"` and on an
element too large for an `int`. -/
theorem C14_witness_bad_elements :
    (firstToken "m 1,a" ∈ period ∧
      ∃ e, ParseRepeat "m 1,a" = (Repeat.zero, some e) ∧
        (e = .NumErrSyntax ∨ e = .NumErrRange) ∧ e ≠ .ErrNotValidRepeat ∧
        ∃ s : String, strconvAtoi s = .error e ∧
          (s ∈ stringsSplit ((stringsSplit "m 1,a" ' ').getD 1 "") ',' ∨
            s ∈ stringsSplit ((stringsSplit "m 1,a" ' ').getD 2 "") ',')) ∧
    ParseRepeat "w 1,,2" = (Repeat.zero, some .NumErrSyntax) ∧
    ParseRepeat "y " = (Repeat.zero, some .NumErrSyntax) ∧
    ParseRepeat "d  7" = (Repeat.zero, some .NumErrSyntax) ∧
    ParseRepeat "d 9223372036854775808" = (Repeat.zero, some .NumErrRange) :=
  ⟨⟨by decide, C14_ParseRepeat_number_error "m 1,a" (by decide)
      (Or.inl ⟨by decide, "a", by decide, by decide⟩)⟩,
    by decide, by decide, by decide, by decide⟩

/-! ## Decimal digits -/

theorem digitChar_spec (k : Nat) (h : k < 10) :
    isDigit (Nat.digitChar k) = true ∧ digitVal (Nat.digitChar k) = k := by
  interval_cases k <;> decide

theorem isDigit_ne (c : Char) (h : isDigit c = true) :
    c ≠ '+' ∧ c ≠ '-' ∧ c ≠ ',' ∧ c ≠ ' ' := by
  refine ⟨?_, ?_, ?_, ?_⟩ <;> rintro rfl <;> exact absurd h (by decide)

theorem parseUintLoop_digit (k a : Nat) (rest : List Char) (hk : k < 10)
    (hb : a * 10 + k < 18446744073709551616) :
    parseUintLoop (Nat.digitChar k :: rest) a = parseUintLoop rest (a * 10 + k) := by
  obtain ⟨hd1, hd2⟩ := digitChar_spec k hk
  have c1 : ¬ a ≥ 1844674407370955162 := by omega
  have c2 : ¬ a * 10 + k ≥ 18446744073709551616 := by omega
  simp only [parseUintLoop, hd1, if_true, hd2, c1, if_false, c2]

/-- The digits `Nat.toDigitsCore` puts in front of `ds`: a non-empty run of
ASCII digits that the digit loop of `strconv` reads back as `n`. -/
theorem toDigitsCore_spec (fuel : Nat) :
    ∀ (n : Nat) (ds : List Char), n < fuel →
      ∃ pre : List Char, Nat.toDigitsCore 10 fuel n ds = pre ++ ds ∧ pre ≠ [] ∧
        pre.all isDigit = true ∧
        ∀ (a : Nat) (rest : List Char), a * 10 ^ pre.length + n < 18446744073709551616 →
          parseUintLoop (pre ++ rest) a = parseUintLoop rest (a * 10 ^ pre.length + n) := by
  induction fuel with
  | zero =>
    intro n ds h
    omega
  | succ f ih =>
    intro n ds h
    have hd1 := (digitChar_spec (n % 10) (Nat.mod_lt _ (by decide))).1
    simp only [Nat.toDigitsCore]
    by_cases h0 : n / 10 = 0
    · simp only [h0, if_true]
      refine ⟨[Nat.digitChar (n % 10)], rfl, by simp, by simp [hd1], ?_⟩
      intro a rest hb
      simp only [List.length_singleton, pow_one] at hb ⊢
      have hn : a * 10 + n = a * 10 + n % 10 := by omega
      rw [List.singleton_append, hn]
      exact parseUintLoop_digit (n % 10) a rest (Nat.mod_lt _ (by decide)) (by omega)
    · simp only [h0, if_false]
      obtain ⟨pre, hpre, hne, hall, hparse⟩ := ih (n / 10) (Nat.digitChar (n % 10) :: ds)
        (by omega)
      refine ⟨pre ++ [Nat.digitChar (n % 10)], ?_, by simp, ?_, ?_⟩
      · rw [hpre]
        simp
      · simp [hall, hd1]
      · intro a rest hb
        simp only [List.length_append, List.length_singleton, pow_succ] at hb ⊢
        have hm : a * (10 ^ pre.length * 10) = a * 10 ^ pre.length * 10 := by ring
        rw [hm] at hb ⊢
        rw [List.append_assoc, hparse a _ (by omega), List.singleton_append]
        have hn : a * 10 ^ pre.length * 10 + n = (a * 10 ^ pre.length + n / 10) * 10 + n % 10 := by
          omega
        rw [hn]
        exact parseUintLoop_digit (n % 10) _ rest (Nat.mod_lt _ (by decide)) (by omega)

theorem toDigits_spec (n : Nat) (h : n < 18446744073709551616) :
    Nat.toDigits 10 n ≠ [] ∧ (Nat.toDigits 10 n).all isDigit = true ∧
      parseUintLoop (Nat.toDigits 10 n) 0 = .ok n := by
  obtain ⟨pre, hpre, hne, hall, hparse⟩ := toDigitsCore_spec (n + 1) n [] (by omega)
  have e : Nat.toDigits 10 n = pre := by
    simp only [Nat.toDigits, hpre, List.append_nil]
  rw [e]
  refine ⟨hne, hall, ?_⟩
  have := hparse 0 [] (by omega)
  simp only [List.append_nil, zero_mul, zero_add] at this
  rw [this]
  rfl

/-- `strconv.Atoi` reads back what `strconv.Itoa` writes, on the range of `int`. -/
theorem strconvAtoi_itoa (x : Int) (h : inInt64 x) : strconvAtoi (itoa x) = .ok x := by
  obtain ⟨h1, h2⟩ := h
  obtain ⟨hne, hall, hparse⟩ := toDigits_spec x.natAbs (by omega)
  obtain ⟨c, cs, hcs⟩ := List.exists_cons_of_ne_nil hne
  have hc : isDigit c = true := by
    rw [hcs] at hall
    simp only [List.all_cons, Bool.and_eq_true] at hall
    exact hall.1
  obtain ⟨hp, hm, -, -⟩ := isDigit_ne c hc
  by_cases hneg : x < 0
  · have hd : (itoa x).data = '-' :: c :: cs := by
      simp only [itoa, hneg, if_true, hcs, List.singleton_append]
    simp only [strconvAtoi, hd, decide_True, or_true, if_true, List.isEmpty_cons,
      Bool.false_eq_true, if_false]
    rw [← hcs, hparse]
    have c2 : ¬ x.natAbs > 9223372036854775808 := by omega
    simp only [Bool.not_true, Bool.false_and, Bool.false_eq_true, if_false, Bool.true_and,
      decide_eq_true_eq, c2, if_true]
    congr 1
    omega
  · have hd : (itoa x).data = c :: cs := by
      simp only [itoa, hneg, if_false, hcs, List.nil_append]
    simp only [strconvAtoi, hd, hp, hm, or_self, if_false, List.isEmpty_cons,
      Bool.false_eq_true, decide_False]
    rw [← hcs, hparse]
    have c1 : ¬ x.natAbs ≥ 9223372036854775808 := by omega
    simp only [Bool.not_false, Bool.true_and, decide_eq_true_eq, c1, if_false, Bool.false_and,
      Bool.false_eq_true]
    congr 1
    omega

theorem itoa_chars (x : Int) (h : inInt64 x) :
    ∀ c ∈ (itoa x).data, c ≠ ',' ∧ c ≠ ' ' := by
  obtain ⟨h1, h2⟩ := h
  obtain ⟨-, hall, -⟩ := toDigits_spec x.natAbs (by omega)
  intro c hc
  simp only [itoa, List.mem_append] at hc
  rcases hc with hc | hc
  · split at hc
    · simp only [List.mem_singleton] at hc
      subst hc
      decide
    · cases hc
  · have := List.all_eq_true.mp hall c hc
    obtain ⟨-, -, h3, h4⟩ := isDigit_ne c this
    exact ⟨h3, h4⟩

/-! ## Splitting joined lists -/

theorem splitChars_no_sep (sep : Char) (l : List Char) (h : ∀ c ∈ l, c ≠ sep) :
    splitChars sep l = [l] := by
  induction l with
  | nil => rfl
  | cons c cs ih =>
    have hc : c ≠ sep := h c (List.mem_cons_self _ _)
    have ih2 := ih (fun d hd => h d (List.mem_cons_of_mem _ hd))
    simp only [splitChars, hc, if_false, ih2]

theorem splitChars_cons_ne (sep c : Char) (cs : List Char) (hc : c ≠ sep) :
    splitChars sep (c :: cs) =
      match splitChars sep cs with
      | [] => [[c]]
      | x :: xs => (c :: x) :: xs := by
  simp only [splitChars, hc, if_false]

theorem splitChars_append (sep : Char) (a b : List Char) (h : ∀ c ∈ a, c ≠ sep) :
    splitChars sep (a ++ sep :: b) = a :: splitChars sep b := by
  induction a with
  | nil => simp [splitChars]
  | cons c cs ih =>
    have hc : c ≠ sep := h c (List.mem_cons_self _ _)
    have ih2 := ih (fun d hd => h d (List.mem_cons_of_mem _ hd))
    rw [List.cons_append, splitChars_cons_ne sep c _ hc, ih2]

theorem intercalate_cons_cons (sep : Char) (a b : List Char) (t : List (List Char)) :
    List.intercalate [sep] (a :: b :: t) = a ++ sep :: List.intercalate [sep] (b :: t) := by
  simp [List.intercalate, List.intersperse_cons_cons]

theorem intercalate_single (sep : Char) (a : List Char) : List.intercalate [sep] [a] = a := by
  simp [List.intercalate]

theorem splitChars_intercalate (sep : Char) (ls : List (List Char)) (hne : ls ≠ [])
    (h : ∀ l ∈ ls, ∀ c ∈ l, c ≠ sep) :
    splitChars sep (List.intercalate [sep] ls) = ls := by
  induction ls with
  | nil => exact absurd rfl hne
  | cons a t ih =>
    cases t with
    | nil =>
      rw [intercalate_single]
      exact splitChars_no_sep sep a (h a (List.mem_cons_self _ _))
    | cons b t =>
      rw [intercalate_cons_cons, splitChars_append sep a _ (h a (List.mem_cons_self _ _)),
        ih (by simp) (fun l hl => h l (List.mem_cons_of_mem _ hl))]

theorem sliceStringToInt_itoa (xs : List Int) (h : ∀ x ∈ xs, inInt64 x) :
    sliceStringToInt (xs.map itoa) = (xs, none) := by
  induction xs with
  | nil => rfl
  | cons a t ih =>
    have ha := strconvAtoi_itoa a (h a (List.mem_cons_self _ _))
    have ih2 := ih (fun x hx => h x (List.mem_cons_of_mem _ hx))
    simp only [List.map_cons, sliceStringToInt, ha, ih2]

theorem intercalate_chars (sep : Char) (P : Char → Prop) (hsep : P sep)
    (ls : List (List Char)) (h : ∀ l ∈ ls, ∀ c ∈ l, P c) :
    ∀ c ∈ List.intercalate [sep] ls, P c := by
  induction ls with
  | nil =>
    intro c hc
    simp [List.intercalate] at hc
  | cons a t ih =>
    cases t with
    | nil =>
      rw [intercalate_single]
      exact h a (List.mem_cons_self _ _)
    | cons b t =>
      rw [intercalate_cons_cons]
      intro c hc
      rcases List.mem_append.mp hc with hc | hc
      · exact h a (List.mem_cons_self _ _) c hc
      · rcases List.mem_cons.mp hc with rfl | hc
        · exact hsep
        · exact ih (fun l hl => h l (List.mem_cons_of_mem _ hl)) c hc

theorem joinInts_chars (xs : List Int) (h : ∀ x ∈ xs, inInt64 x) :
    ∀ c ∈ (joinInts xs).data, c ≠ ' ' := by
  simp only [joinInts]
  apply intercalate_chars ',' (fun c => c ≠ ' ') (by decide)
  intro l hl c hc
  obtain ⟨x, hx, rfl⟩ := List.mem_map.mp hl
  exact (itoa_chars x (h x hx) c hc).2

theorem stringsSplit_joinInts (xs : List Int) (hne : xs ≠ []) (h : ∀ x ∈ xs, inInt64 x) :
    stringsSplit (joinInts xs) ',' = xs.map itoa := by
  simp only [stringsSplit, joinInts]
  rw [splitChars_intercalate ',' _ (by simpa using hne)]
  · simp only [List.map_map]
    apply List.map_congr_left
    intro x _
    rfl
  · intro l hl c hc
    obtain ⟨x, hx, rfl⟩ := List.mem_map.mp hl
    exact (itoa_chars x (h x hx) c hc).1

theorem period_chars (p : String) (hp : p ∈ period) : ∀ c ∈ p.data, c ≠ ' ' := by
  rcases period_cases p hp with rfl | rfl | rfl | rfl <;> decide

/-- C15 (parser result shape).  For every period keyword `p` and all non-empty
lists `xs`, `ys` of integers within the range of `int`: `ParseRepeat` on `p`
returns period `p` with both lists empty; on `p`, a space and `xs` in decimal
joined by commas it returns first list `xs`, in order, and an empty second
list; with a further space and `ys` joined it returns first list `xs` and
second list `ys`; each with no error and with no check of range or count. -/
theorem C15_ParseRepeat_round_trip (p : String) (xs ys : List Int) (hp : p ∈ period)
    (hx : xs ≠ []) (hy : ys ≠ []) (hxr : ∀ x ∈ xs, inInt64 x) (hyr : ∀ y ∈ ys, inInt64 y) :
    ParseRepeat p = (⟨p, [], []⟩, none) ∧
    ParseRepeat (p ++ " " ++ joinInts xs) = (⟨p, xs, []⟩, none) ∧
    ParseRepeat (p ++ " " ++ joinInts xs ++ " " ++ joinInts ys) = (⟨p, xs, ys⟩, none) := by
  have hpc := period_chars p hp
  have hxc := joinInts_chars xs hxr
  have hyc := joinInts_chars ys hyr
  have s1 : stringsSplit p ' ' = [p] := by
    simp only [stringsSplit, splitChars_no_sep ' ' p.data hpc, List.map_cons, List.map_nil]
  have s2 : stringsSplit (p ++ " " ++ joinInts xs) ' ' = [p, joinInts xs] := by
    have e : (p ++ " " ++ joinInts xs).data = p.data ++ ' ' :: (joinInts xs).data := by
      simp [String.data_append]
    simp only [stringsSplit, e, splitChars_append ' ' p.data _ hpc,
      splitChars_no_sep ' ' _ hxc, List.map_cons, List.map_nil]
  have s3 : stringsSplit (p ++ " " ++ joinInts xs ++ " " ++ joinInts ys) ' ' =
      [p, joinInts xs, joinInts ys] := by
    have e : (p ++ " " ++ joinInts xs ++ " " ++ joinInts ys).data =
        p.data ++ ' ' :: ((joinInts xs).data ++ ' ' :: (joinInts ys).data) := by
      simp [String.data_append]
    simp only [stringsSplit, e, splitChars_append ' ' p.data _ hpc,
      splitChars_append ' ' (joinInts xs).data _ hxc,
      splitChars_no_sep ' ' _ hyc, List.map_cons, List.map_nil]
  have t1 : firstToken p = p := by rw [← stringsSplit_head, s1]; rfl
  have t2 : firstToken (p ++ " " ++ joinInts xs) = p := by rw [← stringsSplit_head, s2]; rfl
  have t3 : firstToken (p ++ " " ++ joinInts xs ++ " " ++ joinInts ys) = p := by
    rw [← stringsSplit_head, s3]; rfl
  have px := sliceStringToInt_itoa xs hxr
  have py := sliceStringToInt_itoa ys hyr
  have jx := stringsSplit_joinInts xs hx hxr
  have jy := stringsSplit_joinInts ys hy hyr
  refine ⟨?_, ?_, ?_⟩
  · rw [ParseRepeat_shape, t1, s1]
    simp [hp]
  · rw [ParseRepeat_shape, t2, s2]
    simp [hp, jx, px]
  · rw [ParseRepeat_shape, t3, s3]
    simp [hp, jx, px, jy, py]

/-- C15 at the rule strings `d 999` and `y 1 2`, with a negative value and a
bare period. -/
theorem C15_witness_no_range_check :
    ParseRepeat "d 999" = (⟨"d", [999], []⟩, none) ∧
    ParseRepeat "y 1 2" = (⟨"y", [1], [2]⟩, none) ∧
    ParseRepeat "m -1,31 1,12" = (⟨"m", [-1, 31], [1, 12]⟩, none) ∧
    ParseRepeat "w" = (⟨"w", [], []⟩, none) := by
  have hr : ∀ x : Int, -1000 ≤ x ∧ x ≤ 1000 → inInt64 x := by
    intro x hx
    unfold inInt64
    omega
  have h1 := C15_ParseRepeat_round_trip "d" [999] [999] (by decide) (by decide) (by decide)
    (fun x hx => hr x (by simp at hx; omega)) (fun x hx => hr x (by simp at hx; omega))
  have h2 := C15_ParseRepeat_round_trip "y" [1] [2] (by decide) (by decide) (by decide)
    (fun x hx => hr x (by simp at hx; omega)) (fun x hx => hr x (by simp at hx; omega))
  have h3 := C15_ParseRepeat_round_trip "m" [-1, 31] [1, 12] (by decide) (by decide) (by decide)
    (fun x hx => hr x (by simp at hx; omega)) (fun x hx => hr x (by simp at hx; omega))
  have h4 := C15_ParseRepeat_round_trip "w" [1] [1] (by decide) (by decide) (by decide)
    (fun x hx => hr x (by simp at hx; omega)) (fun x hx => hr x (by simp at hx; omega))
  exact ⟨h1.2.1, h2.2.2, h3.2.2, h4.1⟩

/-! ## The dispatcher as one search -/

theorem dailyValid_headD (r : Repeat) (hv : dailyValid r) :
    r.FirstSlice = [r.FirstSlice.headD 0] ∧ 1 ≤ r.FirstSlice.headD 0 ∧
      r.FirstSlice.headD 0 ≤ 400 := by
  obtain ⟨n, hn, h1, h400⟩ := hv
  rw [hn]
  exact ⟨rfl, h1, h400⟩

theorem dParse_search (fuel : Nat) (now base : Time) (r : Repeat) (hp : r.Period = "d")
    (hv : dailyValid r) :
    dParse fuel now base r =
      (iterUntil (accepts r now) (nextCandidate r) fuel (firstCandidate r base)).map
        fun d => (d.Format, none) := by
  obtain ⟨hn, h1, h400⟩ := dailyValid_headD r hv
  have ea : accepts r now = fun u => !u.Before now := by
    funext u
    simp [accepts, hp]
  have en : nextCandidate r = fun u => u.addDays (r.FirstSlice.headD 0) := by
    funext u
    simp [nextCandidate, hp]
  have ef : firstCandidate r base = base.addDays (r.FirstSlice.headD 0) := by
    simp [firstCandidate, hp]
  have hl : r.FirstSlice.length = 1 := by rw [hn]; rfl
  have hb : ¬ (r.FirstSlice.headD 0 > 400 ∨ r.FirstSlice.headD 0 < 1) := by omega
  rw [ea, en, ef]
  simp only [dParse, hl, ne_eq, not_true_eq_false, if_false, hb, dParseLoop_eq,
    Time.AddDate_days, AddDate_days_fun]

theorem wParse_search (fuel : Nat) (now base : Time) (r : Repeat) (hp : r.Period = "w")
    (hv : weeklyValid r) :
    wParse fuel now base r =
      (iterUntil (accepts r now) (nextCandidate r) fuel (firstCandidate r base)).map
        fun d => (d.Format, none) := by
  have ea : accepts r now = fun u => weekDaysOf r.FirstSlice u.Weekday && u.After now := by
    funext u
    simp [accepts, hp]
  have en : nextCandidate r = fun u => u.addDays 1 := by
    funext u
    simp [nextCandidate, hp]
  have ef : firstCandidate r base = base.addDays 1 := by
    simp [firstCandidate, hp]
  rw [ea, en, ef]
  exact wParse_valid fuel now base r.Period r.FirstSlice r.SecondSlice hv.1 hv.2.1 hv.2.2

theorem mParse_search (fuel : Nat) (now base : Time) (r : Repeat) (hp : r.Period = "m")
    (hv : monthlyValid r) :
    mParse fuel now base r =
      (iterUntil (accepts r now) (nextCandidate r) fuel (firstCandidate r base)).map
        fun d => (d.Format, none) := by
  have ea : accepts r now = fun u =>
      (decide (r.SecondSlice = []) || decide (u.Month ∈ r.SecondSlice)) &&
        (isValidDay u (dayMapOf r.FirstSlice) && u.After now) := by
    funext u
    simp [accepts, hp]
  have en : nextCandidate r = fun u => u.addDays 1 := by
    funext u
    simp [nextCandidate, hp]
  have ef : firstCandidate r base = base.addDays 1 := by
    simp [firstCandidate, hp]
  rw [ea, en, ef]
  exact mParse_valid fuel now base r.Period r.FirstSlice r.SecondSlice hv.1 hv.2.1 hv.2.2

theorem yParse_search (fuel : Nat) (now base : Time) (r : Repeat) (hp : r.Period = "y")
    (hv : r.FirstSlice = []) :
    yParse fuel now base r =
      (iterUntil (accepts r now) (nextCandidate r) fuel (firstCandidate r base)).map
        fun d => (d.Format, none) := by
  have ea : accepts r now = fun u => !u.Before now := by
    funext u
    simp [accepts, hp]
  have en : nextCandidate r = fun u => u.AddDate 1 0 0 := by
    funext u
    simp [nextCandidate, hp]
  have ef : firstCandidate r base = base.AddDate 1 0 0 := by
    simp [firstCandidate, hp]
  rw [ea, en, ef]
  exact yParse_valid fuel now base r hv

/-- On a rule that passes validation `NextDate` is a search over the rule's
candidates. -/
theorem NextDate_search (fuel : Nat) (now base : Time) (ds rs : String) (r : Repeat)
    (hd : timeParse ds = .ok base) (hr : ParseRepeat rs = (r, none)) (hv : ruleValid r) :
    NextDate fuel now ds rs =
      (iterUntil (accepts r now) (nextCandidate r) fuel (firstCandidate r base)).map
        fun d => (d.Format, none) := by
  rw [NextDate_dispatch fuel now base ds rs r hd hr]
  rcases hv with ⟨hp, hv⟩ | ⟨hp, hv⟩ | ⟨hp, hv⟩ | ⟨hp, hv⟩
  · rw [if_pos hp]
    exact dParse_search fuel now base r hp hv
  · rw [if_neg (by rw [hp]; decide), if_pos hp]
    exact wParse_search fuel now base r hp hv
  · rw [if_neg (by rw [hp]; decide), if_neg (by rw [hp]; decide), if_pos hp]
    exact mParse_search fuel now base r hp hv
  · rw [if_neg (by rw [hp]; decide), if_neg (by rw [hp]; decide), if_neg (by rw [hp]; decide),
      if_pos hp]
    exact yParse_search fuel now base r hp hv

/-- On a rule that fails validation `NextDate` returns `ErrNotValidRepeat`. -/
theorem NextDate_invalid_rule (fuel : Nat) (now base : Time) (ds rs : String) (r : Repeat)
    (hd : timeParse ds = .ok base) (hr : ParseRepeat rs = (r, none)) (hv : ¬ ruleValid r) :
    NextDate fuel now ds rs = some ("", some .ErrNotValidRepeat) := by
  rw [NextDate_dispatch fuel now base ds rs r hd hr]
  rcases period_cases r.Period (ParseRepeat_ok rs r hr).2.1 with hp | hp | hp | hp
  · rw [if_pos hp]
    exact dParse_invalid fuel now base r (fun h => hv (Or.inl ⟨hp, h⟩))
  · rw [if_neg (by rw [hp]; decide), if_pos hp]
    exact wParse_invalid fuel now base r (fun h => hv (Or.inr (Or.inl ⟨hp, h⟩)))
  · rw [if_neg (by rw [hp]; decide), if_neg (by rw [hp]; decide), if_pos hp]
    exact mParse_invalid fuel now base r.Period r.FirstSlice r.SecondSlice
      (fun h => hv (Or.inr (Or.inr (Or.inl ⟨hp, h⟩))))
  · rw [if_neg (by rw [hp]; decide), if_neg (by rw [hp]; decide), if_neg (by rw [hp]; decide),
      if_pos hp]
    exact yParse_invalid fuel now base r (fun h => hv (Or.inr (Or.inr (Or.inr ⟨hp, h⟩))))

theorem ParseRepeat_error_kind (rs : String) (r : Repeat) (e : Error)
    (h : ParseRepeat rs = (r, some e)) :
    r = Repeat.zero ∧ (e = .ErrNotValidRepeat ∨ e = .NumErrSyntax ∨ e = .NumErrRange) := by
  have hk : ∀ (l : List String) (xs : List Int) (err : Error),
      sliceStringToInt l = (xs, some err) → err = .NumErrSyntax ∨ err = .NumErrRange := by
    intro l xs err hl
    obtain ⟨-, s, -, hs⟩ := sliceStringToInt_error l xs err hl
    exact strconvAtoi_error_kind s err hs
  rw [ParseRepeat_shape] at h
  split at h
  · simp only [Prod.mk.injEq, Option.some.injEq] at h
    exact ⟨h.1.symm, Or.inl h.2.symm⟩
  · split at h
    · simp at h
    · split at h
      · rename_i xs err hl
        simp only [Prod.mk.injEq, Option.some.injEq] at h
        rw [← h.2]
        exact ⟨h.1.symm, Or.inr (hk _ _ _ hl)⟩
      · split at h
        · simp at h
        · split at h
          · rename_i xs err hl
            simp only [Prod.mk.injEq, Option.some.injEq] at h
            rw [← h.2]
            exact ⟨h.1.symm, Or.inr (hk _ _ _ hl)⟩
          · simp at h

theorem timeParse_error_kind (ds : String) (e : Error) (h : timeParse ds = .error e) :
    e = .ParseError := by
  unfold timeParse at h
  split at h
  · split at h
    · simp only at h
      split at h
      · cases h
        rfl
      · split at h
        · cases h
          rfl
        · cases h
    · cases h
      rfl
  · cases h
    rfl

/-- Every way `NextDate` can return: an error with the empty string, or the
formatted candidate a search over a valid rule stopped at. -/
theorem NextDate_cases (fuel : Nat) (now : Time) (ds rs : String) (s : String)
    (e : Option Error) (h : NextDate fuel now ds rs = some (s, e)) :
    (s = "" ∧ ∃ err, e = some err ∧
      ((rs = "" ∧ err = .ErrRepeatNotSpecified) ∨
        (rs ≠ "" ∧ timeParse ds = .error err) ∨
        (rs ≠ "" ∧ (∃ base, timeParse ds = .ok base) ∧
          (err = .ErrNotValidRepeat ∨ err = .NumErrSyntax ∨ err = .NumErrRange)))) ∨
    (e = none ∧ ∃ (base : Time) (r : Repeat) (t : Time), timeParse ds = .ok base ∧
      ParseRepeat rs = (r, none) ∧ ruleValid r ∧ s = t.Format ∧
      iterUntil (accepts r now) (nextCandidate r) fuel (firstCandidate r base) = some t) := by
  by_cases hrs : rs = ""
  · subst hrs
    have h0 : NextDate fuel now ds "" = some ("", some .ErrRepeatNotSpecified) := by
      simp [NextDate]
    rw [h0] at h
    simp only [Option.some.injEq, Prod.mk.injEq] at h
    exact Or.inl ⟨h.1.symm, _, h.2.symm, Or.inl ⟨rfl, rfl⟩⟩
  · cases hd : timeParse ds with
    | error err =>
      have : NextDate fuel now ds rs = some ("", some err) := by
        simp only [NextDate, hrs, if_false, hd]
      rw [this] at h
      simp only [Option.some.injEq, Prod.mk.injEq] at h
      exact Or.inl ⟨h.1.symm, err, h.2.symm, Or.inr (Or.inl ⟨hrs, rfl⟩)⟩
    | ok base =>
      cases hr : ParseRepeat rs with
      | mk r oe =>
        cases oe with
        | some err =>
          have : NextDate fuel now ds rs = some ("", some err) := by
            simp only [NextDate, hrs, if_false, hd, hr]
          rw [this] at h
          simp only [Option.some.injEq, Prod.mk.injEq] at h
          exact Or.inl ⟨h.1.symm, err, h.2.symm,
            Or.inr (Or.inr ⟨hrs, ⟨base, rfl⟩, (ParseRepeat_error_kind rs r err hr).2⟩)⟩
        | none =>
          by_cases hv : ruleValid r
          · rw [NextDate_search fuel now base ds rs r hd hr hv] at h
            cases hres : iterUntil (accepts r now) (nextCandidate r) fuel
                (firstCandidate r base) with
            | none =>
              rw [hres] at h
              cases h
            | some t =>
              rw [hres] at h
              simp only [Option.map_some', Option.some.injEq, Prod.mk.injEq] at h
              exact Or.inr ⟨h.2.symm, base, r, t, rfl, rfl, hv, h.1.symm, hres⟩
          · rw [NextDate_invalid_rule fuel now base ds rs r hd hr hv] at h
            simp only [Option.some.injEq, Prod.mk.injEq] at h
            exact Or.inl ⟨h.1.symm, _, h.2.symm,
              Or.inr (Or.inr ⟨hrs, ⟨base, rfl⟩, Or.inl rfl⟩)⟩

/-! ## Length of formatted dates -/

theorem Time.Format_eq (t : Time) :
    t.Format = String.mk (appendInt t.Year 4 ++ appendInt t.Month 2 ++ appendInt t.Day 2) :=
  rfl

theorem appendInt_length_ge (x : Int) (w : Nat) : w ≤ (appendInt x w).length := by
  simp only [appendInt, List.length_append, List.length_replicate]
  omega

theorem appendInt_length_eq (x : Int) (w : Nat) (hw : 0 < w) (h0 : 0 ≤ x)
    (hx : x.natAbs < 10 ^ w) : (appendInt x w).length = w := by
  have hl : (Nat.toDigits 10 x.natAbs).length ≤ w :=
    Nat.toDigitsCore_length 10 (by decide) _ _ w hx hw
  have hneg : ¬ x < 0 := by omega
  simp only [appendInt, hneg, if_false, List.nil_append, List.length_append,
    List.length_replicate]
  omega

theorem Time.Format_length_ge (t : Time) : 8 ≤ t.Format.length := by
  rw [Time.Format_eq]
  have h1 := appendInt_length_ge t.Year 4
  have h2 := appendInt_length_ge t.Month 2
  have h3 := appendInt_length_ge t.Day 2
  simp only [String.length, List.length_append]
  omega

theorem Time.Format_length_eq (t : Time) (h0 : 0 ≤ t.Year) (h1 : t.Year ≤ 9999) :
    t.Format.length = 8 := by
  obtain ⟨a1, a2, a3, a4, -⟩ := t.date_valid
  have hb := (gregorianMonthLength_bounds t.Year t.Month).2
  rw [Time.Format_eq]
  have e1 := appendInt_length_eq t.Year 4 (by decide) h0 (by omega)
  have e2 := appendInt_length_eq t.Month 2 (by decide) (by omega) (by omega)
  have e3 := appendInt_length_eq t.Day 2 (by decide) (by omega) (by omega)
  simp only [String.length, List.length_append, e1, e2, e3]

/-- C16 (result shape, as the code has it).  Every `Repeat` that `ParseRepeat`
returns without error has its period among `d`, `w`, `m`, `y`, so the
dispatcher's default branch is not reached: `NextDate` never returns the empty
string with no error.  Whatever `NextDate` returns is either an error with the
empty string or, with no error, a formatted date of at least 8 characters,
exactly 8 when its year lies in 0..9999. -/
theorem C16_NextDate_result_shape :
    (∀ (rs : String) (r : Repeat), ParseRepeat rs = (r, none) → r.Period ∈ period) ∧
    (∀ (fuel : Nat) (now : Time) (ds rs : String), NextDate fuel now ds rs ≠ some ("", none)) ∧
    (∀ (fuel : Nat) (now : Time) (ds rs : String) (s : String) (e : Option Error),
      NextDate fuel now ds rs = some (s, e) →
      (e ≠ none ∧ s = "") ∨
      (e = none ∧ 8 ≤ s.length ∧
        ∃ t : Time, s = t.Format ∧ (0 ≤ t.Year → t.Year ≤ 9999 → s.length = 8))) := by
  have hshape : ∀ (fuel : Nat) (now : Time) (ds rs : String) (s : String) (e : Option Error),
      NextDate fuel now ds rs = some (s, e) →
      (e ≠ none ∧ s = "") ∨
      (e = none ∧ 8 ≤ s.length ∧
        ∃ t : Time, s = t.Format ∧ (0 ≤ t.Year → t.Year ≤ 9999 → s.length = 8)) := by
    intro fuel now ds rs s e h
    rcases NextDate_cases fuel now ds rs s e h with ⟨hs, err, he, -⟩ | ⟨he, -, -, t, -, -, -, hs, -⟩
    · exact Or.inl ⟨by rw [he]; simp, hs⟩
    · refine Or.inr ⟨he, by rw [hs]; exact t.Format_length_ge, t, hs, fun h0 h1 => ?_⟩
      rw [hs]
      exact t.Format_length_eq h0 h1
  refine ⟨fun rs r h => (ParseRepeat_ok rs r h).2.1, ?_, hshape⟩
  intro fuel now ds rs h
  rcases hshape fuel now ds rs "" none h with ⟨hne, -⟩ | ⟨-, hlen, -⟩
  · exact hne rfl
  · simp at hlen

/-- C16, the claim as stated fails: on base date `99991231`, rule `d 1` and
`now` 2024-01-01 `NextDate` returns `100000101` with no error, a string of 9
characters. -/
theorem C16_counterexample_nine_characters :
    NextDate 1 (mkDate 2024 1 1 0) "99991231" "d 1" = some ("100000101", none) ∧
      ("100000101" : String).length = 9 := by
  decide

/-- C16 at base date `20240213`, rule `d 7`, `now` 2024-02-13: the result has 8
characters; and at the empty rule: an error with the empty string. -/
theorem C16_witness_eight_characters :
    (NextDate 1 (mkDate 2024 2 13 0) "20240213" "d 7" = some ("20240220", none) ∧
      ((none : Option Error) ≠ none ∧ "20240220" = "" ∨
        (none : Option Error) = none ∧ 8 ≤ ("20240220" : String).length ∧
          ∃ t : Time, "20240220" = t.Format ∧
            (0 ≤ t.Year → t.Year ≤ 9999 → ("20240220" : String).length = 8))) ∧
    NextDate 1 (mkDate 2024 2 13 0) "20240213" "k 1" ≠ some ("", none) := by
  have hrun : NextDate 1 (mkDate 2024 2 13 0) "20240213" "d 7" = some ("20240220", none) := by
    decide
  exact ⟨⟨hrun, C16_NextDate_result_shape.2.2 1 _ _ _ _ _ hrun⟩,
    C16_NextDate_result_shape.2.1 1 _ _ _⟩

/-! ## Malformed base dates -/

theorem daysIn_eq (m y : Int) (hm : 1 ≤ m) (hm2 : m ≤ 12) :
    daysIn m y = gregorianMonthLength y m := by
  rw [← monthLen_eq y m hm hm2]
  simp only [daysIn, monthLen, Bool.and_eq_true, decide_eq_true_eq]

/-- `timeParse` on an eight-character text. -/
theorem timeParse_eight (ds : String) (y1 y2 y3 y4 m1 m2 d1 d2 : Char)
    (hd : ds.data = [y1, y2, y3, y4, m1, m2, d1, d2]) :
    timeParse ds =
      if [y1, y2, y3, y4, m1, m2, d1, d2].all isDigit then
        if ((digitVal m1 * 10 + digitVal m2 : Nat) : Int) ≤ 0 ∨
            12 < ((digitVal m1 * 10 + digitVal m2 : Nat) : Int) then .error .ParseError
        else if ((digitVal d1 * 10 + digitVal d2 : Nat) : Int) < 1 ∨
            ((digitVal d1 * 10 + digitVal d2 : Nat) : Int) >
              daysIn ((digitVal m1 * 10 + digitVal m2 : Nat) : Int)
                ((digitVal y1 * 1000 + digitVal y2 * 100 + digitVal y3 * 10 + digitVal y4 : Nat) :
                  Int) then .error .ParseError
        else .ok (mkDate
          ((digitVal y1 * 1000 + digitVal y2 * 100 + digitVal y3 * 10 + digitVal y4 : Nat) : Int)
          ((digitVal m1 * 10 + digitVal m2 : Nat) : Int)
          ((digitVal d1 * 10 + digitVal d2 : Nat) : Int) 0)
      else .error .ParseError := by
  unfold timeParse
  rw [hd]

theorem timeParse_not_eight (ds : String)
    (h : ¬ ∃ y1 y2 y3 y4 m1 m2 d1 d2 : Char, ds.data = [y1, y2, y3, y4, m1, m2, d1, d2]) :
    timeParse ds = .error .ParseError := by
  unfold timeParse
  split
  · rename_i y1 y2 y3 y4 m1 m2 d1 d2 hd
    exact absurd ⟨y1, y2, y3, y4, m1, m2, d1, d2, hd⟩ h
  · rfl

/-- `timeParse` accepts exactly the valid date texts. -/
theorem timeParse_ok_iff (ds : String) : (∃ t, timeParse ds = .ok t) ↔ validDateText ds := by
  constructor
  · rintro ⟨t, ht⟩
    by_cases h8 : ∃ y1 y2 y3 y4 m1 m2 d1 d2 : Char, ds.data = [y1, y2, y3, y4, m1, m2, d1, d2]
    · obtain ⟨y1, y2, y3, y4, m1, m2, d1, d2, hd⟩ := h8
      rw [timeParse_eight ds y1 y2 y3 y4 m1 m2 d1 d2 hd] at ht
      split at ht
      · rename_i hdig
        split at ht
        · cases ht
        · rename_i hmon
          split at ht
          · cases ht
          · rename_i hday
            rw [daysIn_eq _ _ (by omega) (by omega)] at hday
            exact ⟨y1, y2, y3, y4, m1, m2, d1, d2, hd, hdig, by omega, by omega, by omega,
              by omega⟩
      · cases ht
    · rw [timeParse_not_eight ds h8] at ht
      cases ht
  · rintro ⟨y1, y2, y3, y4, m1, m2, d1, d2, hd, hdig, hm1, hm12, hd1, hdl⟩
    rw [timeParse_eight ds y1 y2 y3 y4 m1 m2 d1 d2 hd]
    have c1 : ¬ (((digitVal m1 * 10 + digitVal m2 : Nat) : Int) ≤ 0 ∨
        12 < ((digitVal m1 * 10 + digitVal m2 : Nat) : Int)) := by omega
    have c2 : ¬ (((digitVal d1 * 10 + digitVal d2 : Nat) : Int) < 1 ∨
        ((digitVal d1 * 10 + digitVal d2 : Nat) : Int) >
          daysIn ((digitVal m1 * 10 + digitVal m2 : Nat) : Int)
            ((digitVal y1 * 1000 + digitVal y2 * 100 + digitVal y3 * 10 + digitVal y4 : Nat) :
              Int)) := by
      rw [daysIn_eq _ _ (by omega) (by omega)]
      omega
    rw [if_pos hdig, if_neg c1, if_neg c2]
    exact ⟨_, rfl⟩

theorem timeParse_invalid (ds : String) (h : ¬ validDateText ds) :
    timeParse ds = .error .ParseError := by
  cases hp : timeParse ds with
  | error e => rw [timeParse_error_kind ds e hp]
  | ok t => exact absurd ((timeParse_ok_iff ds).mp ⟨t, hp⟩) h

/-- C17 (malformed base date).  For every `now`, every non-empty rule string,
valid or not, and any number of iterations allowed, `NextDate` returns the
empty string and the error of `time.Parse` (the spec's `InvalidDateFormat`)
exactly when the base-date text is not eight ASCII digits `YYYYMMDD` with the
month in 1..12 and the day within the month; on such a text the rule string is
not looked at. -/
theorem C17_NextDate_malformed_date (fuel : Nat) (now : Time) (ds rs : String) (hrs : rs ≠ "") :
    (NextDate fuel now ds rs = some ("", some .ParseError) ↔ ¬ validDateText ds) ∧
    (¬ validDateText ds → timeParse ds = .error .ParseError) := by
  refine ⟨⟨?_, ?_⟩, timeParse_invalid ds⟩
  · intro h hv
    obtain ⟨t, ht⟩ := (timeParse_ok_iff ds).mpr hv
    rcases NextDate_cases fuel now ds rs _ _ h with ⟨-, err, he, hc⟩ | ⟨he, -⟩
    · simp only [Option.some.injEq] at he
      subst he
      rcases hc with ⟨h1, -⟩ | ⟨-, h2⟩ | ⟨-, -, h3⟩
      · exact hrs h1
      · rw [ht] at h2
        cases h2
      · rcases h3 with h3 | h3 | h3 <;> cases h3
    · cases he
  · intro hv
    simp only [NextDate, hrs, if_false, timeParse_invalid ds hv]

/-- C17 at the base-date texts `20240230` (day out of range), `2024021` (too
short), `2024-2-1` (not digits) and `20241301` (month out of range), with a
valid and an invalid rule. -/
theorem C17_witness_bad_dates :
    ("d 1" ≠ "" ∧ ¬ validDateText "20240230" ∧
      NextDate 1 (mkDate 2024 1 1 0) "20240230" "d 1" = some ("", some .ParseError)) ∧
    NextDate 1 (mkDate 2024 1 1 0) "2024021" "k 1" = some ("", some .ParseError) ∧
    NextDate 1 (mkDate 2024 1 1 0) "2024-2-1" "d x" = some ("", some .ParseError) ∧
    NextDate 1 (mkDate 2024 1 1 0) "20241301" "m 40" = some ("", some .ParseError) := by
  have h1 : NextDate 1 (mkDate 2024 1 1 0) "20240230" "d 1" = some ("", some .ParseError) := by
    decide
  exact ⟨⟨by decide,
      (C17_NextDate_malformed_date 1 (mkDate 2024 1 1 0) "20240230" "d 1" (by decide)).1.mp h1,
      h1⟩, by decide, by decide, by decide⟩

/-! ## Anniversaries -/

theorem Time.clock_range (t : Time) : 0 ≤ t.clock ∧ t.clock < nsPerDay :=
  ⟨Int.emod_nonneg _ (ne_of_gt nsPerDay_pos), Int.emod_lt_of_pos _ nsPerDay_pos⟩

theorem mkDate_days (y m d c : Int) (h0 : 0 ≤ c) (h1 : c < nsPerDay) :
    (mkDate y m d c).days = dateToDays y m d := by
  simp only [mkDate, Time.days]
  rw [add_comm, Int.add_mul_ediv_right _ _ (ne_of_gt nsPerDay_pos),
    Int.ediv_eq_zero_of_lt h0 h1, zero_add]

theorem AddDate_year_eq (t : Time) :
    t.AddDate 1 0 0 = mkDate (t.Year + 1) t.Month t.Day t.clock := by
  simp only [Time.AddDate, add_zero, Time.Year, Time.Month, Time.Day]

theorem isLeap_of_feb29 (t : Time) (hm : t.Month = 2) (hd : t.Day = 29) :
    isLeap t.Year = true ∧ isLeap (t.Year + 1) = false := by
  have h4 := t.date_valid.2.2.2.1
  rw [hm, hd] at h4
  have hg : gregorianLeap t.Year := by
    by_contra hc
    simp only [gregorianMonthLength, if_true, hc, if_false] at h4
    omega
  have hl := (isLeap_iff t.Year).mpr hg
  refine ⟨hl, ?_⟩
  simp only [isLeap, Bool.and_eq_true, Bool.or_eq_true, beq_iff_eq, bne_iff_ne, ne_eq] at hl
  simp only [isLeap, Bool.and_eq_false_iff, beq_eq_false_iff_ne, ne_eq]
  left
  omega

/-- One year after a date other than February 29: the same month and day of the
next year. -/
theorem AddDate_year_regular (t : Time) (h : ¬ (t.Month = 2 ∧ t.Day = 29)) :
    (t.AddDate 1 0 0).Date = (t.Year + 1, t.Month, t.Day) := by
  obtain ⟨a1, a2, a3, a4, -⟩ := t.date_valid
  obtain ⟨c0, c1⟩ := t.clock_range
  have hlen : t.Day ≤ monthLen (isLeap (t.Year + 1)) t.Month := by
    rw [monthLen_eq _ _ a1 a2]
    by_cases hm : t.Month = 2
    · have hd : t.Day ≠ 29 := fun hd => h ⟨hm, hd⟩
      have hb := gregorianMonthLength_feb t.Year
      rw [hm] at a4 ⊢
      have : 28 ≤ gregorianMonthLength (t.Year + 1) 2 :=
        (gregorianMonthLength_bounds _ 2).1
      omega
    · have e : gregorianMonthLength (t.Year + 1) t.Month = gregorianMonthLength t.Year t.Month := by
        simp only [gregorianMonthLength, hm, if_false]
      rw [e]
      exact a4
  rw [AddDate_year_eq]
  simp only [Time.Date, mkDate_days _ _ _ _ c0 c1]
  exact absDate_dateToDays _ _ _ a1 a2 a3 hlen

/-- One year after a February 29: March 1 of the next year. -/
theorem AddDate_year_feb29 (t : Time) (hm : t.Month = 2) (hd : t.Day = 29) :
    (t.AddDate 1 0 0).Date = (t.Year + 1, 3, 1) := by
  obtain ⟨c0, c1⟩ := t.clock_range
  obtain ⟨-, hl⟩ := isLeap_of_feb29 t hm hd
  have e : dateToDays (t.Year + 1) 2 29 = dateToDays (t.Year + 1) 3 1 := by
    rw [dateToDays_valid _ 2 29 (by decide) (by decide),
      dateToDays_valid _ 3 1 (by decide) (by decide), hl]
    simp [ydayOf, daysBefore]
  rw [AddDate_year_eq, hm, hd]
  simp only [Time.Date, mkDate_days _ _ _ _ c0 c1, e]
  exact absDate_dateToDays _ 3 1 (by decide) (by decide) le_rfl (by simp [monthLen, daysBefore])

theorem iterate_year_regular (t : Time) (h : ¬ (t.Month = 2 ∧ t.Day = 29)) (j : Nat) :
    ((fun u : Time => u.AddDate 1 0 0)^[j] t).Date = (t.Year + j, t.Month, t.Day) := by
  induction j with
  | zero => simp [Time.Year, Time.Month, Time.Day]
  | succ j ih =>
    rw [Function.iterate_succ_apply']
    have hy : ((fun u : Time => u.AddDate 1 0 0)^[j] t).Year = t.Year + j := by
      simp only [Time.Year, ih]
    have hm : ((fun u : Time => u.AddDate 1 0 0)^[j] t).Month = t.Month := by
      simp only [Time.Month, ih]
    have hd : ((fun u : Time => u.AddDate 1 0 0)^[j] t).Day = t.Day := by
      simp only [Time.Day, ih]
    rw [AddDate_year_regular _ (by rw [hm, hd]; exact h), hy, hm, hd]
    push_cast
    rw [add_assoc]

theorem iterate_year_feb29 (t : Time) (hm : t.Month = 2) (hd : t.Day = 29) (j : Nat)
    (hj : 1 ≤ j) :
    ((fun u : Time => u.AddDate 1 0 0)^[j] t).Date = (t.Year + j, 3, 1) := by
  obtain ⟨i, rfl⟩ : ∃ i, j = i + 1 := ⟨j - 1, by omega⟩
  rw [Function.iterate_succ_apply]
  have h1 := AddDate_year_feb29 t hm hd
  have hreg : ¬ ((t.AddDate 1 0 0).Month = 2 ∧ (t.AddDate 1 0 0).Day = 29) := by
    simp only [Time.Month, Time.Day, h1]
    omega
  rw [iterate_year_regular _ hreg i]
  simp only [Time.Year, Time.Month, Time.Day, h1]
  push_cast
  congr 1
  ring

/-- C19 (yearly anniversaries).  For a year rule with an empty first list,
every base instant `date` and every `now`, `yParse` returns the `k`-th
anniversary candidate, `k ≥ 1` being the least for which the candidate is not
before `now`.  When `date` is not a February 29, the `j`-th candidate is the
same month and day in year `date.Year + j`, so the result has the month and
day of the base and the least later year whose anniversary is not before
`now`.  When `date` is a February 29, every candidate from the first on is
March 1 of year `date.Year + j`, leap year or not. -/
theorem C19_yParse_anniversary (now date : Time) (p : String) (sec : List Int) :
    ∃ k : Nat, 1 ≤ k ∧
      ((fun u : Time => u.AddDate 1 0 0)^[k] date).Before now = false ∧
      (∀ j : Nat, 1 ≤ j → j < k →
        ((fun u : Time => u.AddDate 1 0 0)^[j] date).Before now = true) ∧
      (∀ fuel, k ≤ fuel → yParse fuel now date ⟨p, [], sec⟩ =
        some (((fun u : Time => u.AddDate 1 0 0)^[k] date).Format, none)) ∧
      (¬ (date.Month = 2 ∧ date.Day = 29) → ∀ j : Nat,
        ((fun u : Time => u.AddDate 1 0 0)^[j] date).Date =
          (date.Year + j, date.Month, date.Day)) ∧
      ((date.Month = 2 ∧ date.Day = 29) → ∀ j : Nat, 1 ≤ j →
        ((fun u : Time => u.AddDate 1 0 0)^[j] date).Date = (date.Year + j, 3, 1)) := by
  obtain ⟨k, hk, hnb, hmin, hrun⟩ := yearly_run now date
  refine ⟨k, hk, hnb, hmin, ?_, iterate_year_regular date, ?_⟩
  · intro fuel hf
    rw [yParse_valid fuel now date ⟨p, [], sec⟩ rfl, hrun fuel hf]
    rfl
  · rintro ⟨hm, hd⟩ j hj
    exact iterate_year_feb29 date hm hd j hj

/-- C19 at base 2024-02-29, `now` 2027-06-01: the result is 20280301, March 1
of a leap year; and at base 2024-02-13, `now` 2026-03-01: the result is
20270213. -/
theorem C19_witness_leap_day :
    yParse 4 (mkDate 2027 6 1 0) (mkDate 2024 2 29 0) ⟨"y", [], []⟩ =
        some ("20280301", none) ∧
      ((fun u : Time => u.AddDate 1 0 0)^[4] (mkDate 2024 2 29 0)).Date = (2028, 3, 1) ∧
      yParse 3 (mkDate 2026 3 1 0) (mkDate 2024 2 13 0) ⟨"y", [], []⟩ =
        some ("20270213", none) ∧
      ((fun u : Time => u.AddDate 1 0 0)^[3] (mkDate 2024 2 13 0)).Date = (2027, 2, 13) := by
  obtain ⟨k, hk, hnb, hmin, hrun, -, hleap⟩ :=
    C19_yParse_anniversary (mkDate 2027 6 1 0) (mkDate 2024 2 29 0) "y" []
  obtain ⟨k2, hk2, hnb2, hmin2, hrun2, hreg, -⟩ :=
    C19_yParse_anniversary (mkDate 2026 3 1 0) (mkDate 2024 2 13 0) "y" []
  have e1 := hleap (by decide) 4 (by decide)
  have e2 := hreg (by decide) 3
  have hle : k ≤ 4 := by
    by_contra hgt
    exact absurd (hmin 4 (by decide) (by omega)) (by decide)
  have hk4 : k = 4 := by
    interval_cases k
    · exact absurd hnb (by decide)
    · exact absurd hnb (by decide)
    · exact absurd hnb (by decide)
    · rfl
  have hle2 : k2 ≤ 3 := by
    by_contra hgt
    exact absurd (hmin2 3 (by decide) (by omega)) (by decide)
  have hk3 : k2 = 3 := by
    interval_cases k2
    · exact absurd hnb2 (by decide)
    · exact absurd hnb2 (by decide)
    · rfl
  subst hk4
  subst hk3
  refine ⟨?_, ?_, ?_, ?_⟩
  · rw [hrun 4 le_rfl]
    decide
  · rw [e1]
    decide
  · rw [hrun2 3 le_rfl]
    decide
  · rw [e2]
    decide

/-! ## Results lie after the base date and grow with `now` -/

theorem AddDate_year_addDays (t : Time) :
    ∃ j : Nat, 365 ≤ j ∧ j ≤ 366 ∧ t.AddDate 1 0 0 = t.addDays j := by
  obtain ⟨a1, a2, a3, a4, a5⟩ := t.date_valid
  have h1 := dateToDays_valid (t.Year + 1) t.Month t.Day a1 a2
  have h2 := dateToDays_valid t.Year t.Month t.Day a1 a2
  have h3 := daysSinceEpoch_succ t.Year
  have hdiff : dateToDays t.Year t.Month t.Day + 365 ≤ dateToDays (t.Year + 1) t.Month t.Day ∧
      dateToDays (t.Year + 1) t.Month t.Day ≤ dateToDays t.Year t.Month t.Day + 366 := by
    rw [h1, h2, h3]
    simp only [ydayOf]
    generalize daysBefore (t.Month - 1).toNat = b
    cases isLeap t.Year <;> cases isLeap (t.Year + 1) <;> by_cases hm : 3 ≤ t.Month <;>
      simp [hm] <;> omega
  refine ⟨(dateToDays (t.Year + 1) t.Month t.Day - dateToDays t.Year t.Month t.Day).toNat,
    by omega, by omega, ?_⟩
  have e : (((dateToDays (t.Year + 1) t.Month t.Day - dateToDays t.Year t.Month t.Day).toNat :
      Nat) : Int) = dateToDays (t.Year + 1) t.Month t.Day - dateToDays t.Year t.Month t.Day :=
    Int.toNat_of_nonneg (by omega)
  rw [AddDate_year_eq, e]
  simp only [mkDate, Time.addDays, Time.mk.injEq]
  rw [t.ns_eq, ← a5]
  ring

theorem nextCandidate_step (r : Repeat) (hv : ruleValid r) (t : Time) :
    ∃ i : Nat, 1 ≤ i ∧ nextCandidate r t = t.addDays i := by
  rcases hv with ⟨hp, hv⟩ | ⟨hp, hv⟩ | ⟨hp, hv⟩ | ⟨hp, hv⟩
  · obtain ⟨-, h1, -⟩ := dailyValid_headD r hv
    refine ⟨(r.FirstSlice.headD 0).toNat, by omega, ?_⟩
    rw [Int.toNat_of_nonneg (by omega)]
    simp [nextCandidate, hp]
  · exact ⟨1, le_rfl, by simp [nextCandidate, hp]⟩
  · exact ⟨1, le_rfl, by simp [nextCandidate, hp]⟩
  · obtain ⟨j, hj, -, he⟩ := AddDate_year_addDays t
    exact ⟨j, by omega, by simp [nextCandidate, hp, he]⟩

theorem firstCandidate_eq (r : Repeat) (base : Time) :
    firstCandidate r base = nextCandidate r base := rfl

theorem candidate_addDays (r : Repeat) (hv : ruleValid r) (base : Time) (j : Nat) :
    ∃ k : Nat, j + 1 ≤ k ∧ (nextCandidate r)^[j] (firstCandidate r base) = base.addDays k := by
  induction j with
  | zero =>
    obtain ⟨i, hi, he⟩ := nextCandidate_step r hv base
    exact ⟨i, by omega, by rw [Function.iterate_zero, id_eq, firstCandidate_eq, he]⟩
  | succ j ih =>
    obtain ⟨k, hk, he⟩ := ih
    obtain ⟨i, hi, hs⟩ := nextCandidate_step r hv (base.addDays k)
    refine ⟨k + i, by omega, ?_⟩
    rw [Function.iterate_succ_apply', he, hs, Time.addDays_addDays]
    push_cast
    rfl

/-- C18 (result after the base date).  Whenever `NextDate` returns a date with
no error, for any rule and any `now`, the date is the base date plus `k` days
for some `k ≥ 1`: an instant after the base, on a later day. -/
theorem C18_NextDate_after_base (fuel : Nat) (now : Time) (ds rs s : String)
    (h : NextDate fuel now ds rs = some (s, none)) :
    ∃ (base : Time) (k : Nat), timeParse ds = .ok base ∧ 1 ≤ k ∧
      s = (base.addDays k).Format ∧ base.Before (base.addDays k) = true ∧
      (base.addDays k).days = base.days + k := by
  rcases NextDate_cases fuel now ds rs s none h with ⟨-, err, he, -⟩ | ⟨-, base, r, t, hd, -, hv, hs, hres⟩
  · cases he
  · obtain ⟨j, -, ht, -, -⟩ := iterUntil_some _ _ _ _ _ hres
    obtain ⟨k, hk, hc⟩ := candidate_addDays r hv base j
    rw [hc] at ht
    refine ⟨base, k, hd, by omega, by rw [hs, ht], ?_, Time.days_addDays base k⟩
    simp only [Time.Before, Time.addDays, decide_eq_true_eq]
    have hpos : (0 : Int) < (k : Int) * nsPerDay :=
      Int.mul_pos (by exact_mod_cast (by omega : 0 < k)) nsPerDay_pos
    omega

/-- C18 at base `20240213`, rule `d 7` and a `now` ten years before the base:
the result is 20240220, seven days after the base. -/
theorem C18_witness_now_long_before :
    NextDate 1 (mkDate 2014 1 1 0) "20240213" "d 7" = some ("20240220", none) ∧
      ∃ (base : Time) (k : Nat), timeParse "20240213" = .ok base ∧ 1 ≤ k ∧
        "20240220" = (base.addDays k).Format ∧ base.Before (base.addDays k) = true ∧
        (base.addDays k).days = base.days + k := by
  have hrun : NextDate 1 (mkDate 2014 1 1 0) "20240213" "d 7" = some ("20240220", none) := by
    decide
  exact ⟨hrun, C18_NextDate_after_base 1 _ _ _ _ hrun⟩

theorem iterUntil_mono (stop1 stop2 : Time → Bool) (step : Time → Time) (start r1 r2 : Time)
    (f1 f2 : Nat) (himp : ∀ t, stop2 t = true → stop1 t = true)
    (h1 : iterUntil stop1 step f1 start = some r1)
    (h2 : iterUntil stop2 step f2 start = some r2) :
    ∃ k1 k2 : Nat, k1 ≤ k2 ∧ r1 = step^[k1] start ∧ r2 = step^[k2] start ∧
      (stop2 r1 = true → r1 = r2) := by
  obtain ⟨k1, -, e1, s1, m1⟩ := iterUntil_some _ _ _ _ _ h1
  obtain ⟨k2, -, e2, s2, m2⟩ := iterUntil_some _ _ _ _ _ h2
  have hle : k1 ≤ k2 := by
    by_contra hgt
    have := m1 k2 (by omega)
    rw [← e2, himp r2 s2] at this
    cases this
  refine ⟨k1, k2, hle, e1, e2, fun hs => ?_⟩
  have hge : k2 ≤ k1 := by
    by_contra hgt
    have := m2 k1 (by omega)
    rw [← e1, hs] at this
    cases this
  have : k1 = k2 := by omega
  rw [e1, e2, this]

theorem accepts_mono (r : Repeat) (now1 now2 t : Time) (hle : now1.ns ≤ now2.ns)
    (h : accepts r now2 t = true) : accepts r now1 t = true := by
  simp only [accepts, Time.Before, Time.After] at h ⊢
  split at h
  · rename_i hp
    rw [if_pos hp]
    simp only [Bool.not_eq_true', decide_eq_false_iff_not, not_lt] at h ⊢
    omega
  · rename_i hp
    rw [if_neg hp]
    split at h
    · rename_i hw
      rw [if_pos hw]
      simp only [Bool.and_eq_true, decide_eq_true_eq] at h ⊢
      exact ⟨h.1, by omega⟩
    · rename_i hw
      rw [if_neg hw]
      simp only [Bool.and_eq_true, decide_eq_true_eq] at h ⊢
      exact ⟨h.1, h.2.1, by omega⟩

theorem accepts_not_before (r : Repeat) (now t : Time) (hp : r.Period = "d" ∨ r.Period = "y") :
    accepts r now t = !t.Before now := by
  simp only [accepts, hp, if_true]

theorem accepts_after (r : Repeat) (now1 now2 t : Time) (hp : r.Period = "w" ∨ r.Period = "m")
    (h1 : accepts r now1 t = true) (h2 : t.After now2 = true) : accepts r now2 t = true := by
  have hnd : ¬ (r.Period = "d" ∨ r.Period = "y") := by
    rcases hp with hp | hp <;> rw [hp] <;> decide
  simp only [accepts, hnd, if_false] at h1 ⊢
  split at h1
  · rename_i hw
    rw [if_pos hw]
    simp only [Bool.and_eq_true] at h1 ⊢
    exact ⟨h1.1, h2⟩
  · rename_i hw
    rw [if_neg hw]
    simp only [Bool.and_eq_true] at h1 ⊢
    exact ⟨h1.1, h1.2.1, h2⟩

theorem candidate_ns_mono (r : Repeat) (hv : ruleValid r) (start : Time) (k1 k2 : Nat)
    (hle : k1 ≤ k2) :
    ((nextCandidate r)^[k1] start).ns ≤ ((nextCandidate r)^[k2] start).ns := by
  have hstep : ∀ t : Time, t.ns + 1 ≤ (nextCandidate r t).ns := by
    intro t
    obtain ⟨i, hi, he⟩ := nextCandidate_step r hv t
    rw [he]
    simp only [Time.addDays]
    have hpos : (1 : Int) * 1 ≤ (i : Int) * nsPerDay :=
      Int.mul_le_mul (by exact_mod_cast hi) (by decide) (by decide) (by omega)
    omega
  obtain ⟨c, rfl⟩ : ∃ c, k2 = k1 + c := ⟨k2 - k1, by omega⟩
  rw [add_comm, Function.iterate_add_apply]
  have := iterate_progress _ hstep ((nextCandidate r)^[k1] start) c
  omega

/-- C20 (monotone in `now`).  For one base date and rule and `now1 ≤ now2`, when
`NextDate` returns a date for both, the two results are candidates number
`k1 ≤ k2` of the rule's candidate sequence, so the result for `now1` is not
later than the result for `now2`; and when the result for `now1` is acceptable
for `now2` (not before `now2` for a daily or yearly rule, strictly after `now2`
for a weekly or monthly rule) the two results are equal. -/
theorem C20_NextDate_monotone_in_now (fuel1 fuel2 : Nat) (now1 now2 : Time) (ds rs s1 s2 : String)
    (hle : now1.ns ≤ now2.ns)
    (h1 : NextDate fuel1 now1 ds rs = some (s1, none))
    (h2 : NextDate fuel2 now2 ds rs = some (s2, none)) :
    ∃ (base : Time) (r : Repeat) (k1 k2 : Nat), timeParse ds = .ok base ∧
      ParseRepeat rs = (r, none) ∧ k1 ≤ k2 ∧
      s1 = ((nextCandidate r)^[k1] (firstCandidate r base)).Format ∧
      s2 = ((nextCandidate r)^[k2] (firstCandidate r base)).Format ∧
      ((nextCandidate r)^[k1] (firstCandidate r base)).ns ≤
        ((nextCandidate r)^[k2] (firstCandidate r base)).ns ∧
      ((r.Period = "d" ∨ r.Period = "y") →
        ((nextCandidate r)^[k1] (firstCandidate r base)).Before now2 = false → s1 = s2) ∧
      ((r.Period = "w" ∨ r.Period = "m") →
        ((nextCandidate r)^[k1] (firstCandidate r base)).After now2 = true → s1 = s2) := by
  rcases NextDate_cases fuel1 now1 ds rs s1 none h1 with
    ⟨-, err, he, -⟩ | ⟨-, base, r, t1, hd, hr, hv, hs1, hres1⟩
  · cases he
  rcases NextDate_cases fuel2 now2 ds rs s2 none h2 with
    ⟨-, err, he, -⟩ | ⟨-, base2, r2, t2, hd2, hr2, -, hs2, hres2⟩
  · cases he
  have eb : base2 = base := by
    rw [hd] at hd2
    cases hd2
    rfl
  have er : r2 = r := by
    rw [hr] at hr2
    cases hr2
    rfl
  subst eb
  subst er
  obtain ⟨k1, k2, hk, e1, e2, heq⟩ := iterUntil_mono (accepts r2 now1) (accepts r2 now2)
    (nextCandidate r2) (firstCandidate r2 base2) t1 t2 fuel1 fuel2
    (fun t ht => accepts_mono r2 now1 now2 t hle ht) hres1 hres2
  have hacc1 : accepts r2 now1 t1 = true := (iterUntil_some _ _ _ _ _ hres1).choose_spec.2.2.1
  refine ⟨base2, r2, k1, k2, hd, hr, hk, by rw [hs1, e1], by rw [hs2, e2],
    candidate_ns_mono r2 hv _ k1 k2 hk, ?_, ?_⟩
  · intro hp hnb
    rw [← e1] at hnb
    rw [hs1, hs2, heq (by rw [accepts_not_before r2 now2 t1 hp, hnb]; rfl)]
  · intro hp haft
    rw [← e1] at haft
    rw [hs1, hs2, heq (accepts_after r2 now1 now2 t1 hp hacc1 haft)]

/-! ## Further instances at concrete inputs -/

/-- C11 at an eight-element list of valid weekdays, at the values 0 and 8 and
at the empty list, which fail, and at `[7]`, which succeeds. -/
theorem C11_witness_week_lists :
    (∀ fuel, wParse fuel (mkDate 2024 1 3 0) (mkDate 2024 1 1 0)
      ⟨"w", [1, 1, 1, 1, 1, 1, 1, 1], []⟩ = some ("", some .ErrNotValidRepeat)) ∧
    (∀ fuel, wParse fuel (mkDate 2024 1 3 0) (mkDate 2024 1 1 0) ⟨"w", [0], []⟩ =
      some ("", some .ErrNotValidRepeat)) ∧
    (∀ fuel, wParse fuel (mkDate 2024 1 3 0) (mkDate 2024 1 1 0) ⟨"w", [1, 8], []⟩ =
      some ("", some .ErrNotValidRepeat)) ∧
    (∀ fuel, wParse fuel (mkDate 2024 1 3 0) (mkDate 2024 1 1 0) ⟨"w", [], []⟩ =
      some ("", some .ErrNotValidRepeat)) ∧
    (∃ (fuel : Nat) (s : String),
      wParse fuel (mkDate 2024 1 3 0) (mkDate 2024 1 1 0) ⟨"w", [7], []⟩ = some (s, none)) := by
  refine ⟨(C11_wParse_validation _ _ _).1.mpr ?_, (C11_wParse_validation _ _ _).1.mpr ?_,
    (C11_wParse_validation _ _ _).1.mpr ?_, (C11_wParse_validation _ _ _).1.mpr ?_,
    (C11_wParse_validation _ _ _).2.1.mpr ?_⟩
  · rintro ⟨-, h7, -⟩
    exact absurd h7 (by decide)
  · rintro ⟨-, -, hv⟩
    exact absurd (hv 0 (by decide)) (by decide)
  · rintro ⟨-, -, hv⟩
    exact absurd (hv 8 (by decide)) (by decide)
  · rintro ⟨h1, -, -⟩
    exact absurd h1 (by decide)
  · exact ⟨by decide, by decide, by decide⟩

/-- C12 at the day values 0, 32 and -3, at the empty day list and at the month
value 13, which all fail. -/
theorem C12_witness_month_lists :
    (∀ fuel, mParse fuel (mkDate 2024 2 1 0) (mkDate 2024 1 31 0) ⟨"m", [1, 0], []⟩ =
      some ("", some .ErrNotValidRepeat)) ∧
    (∀ fuel, mParse fuel (mkDate 2024 2 1 0) (mkDate 2024 1 31 0) ⟨"m", [32], []⟩ =
      some ("", some .ErrNotValidRepeat)) ∧
    (∀ fuel, mParse fuel (mkDate 2024 2 1 0) (mkDate 2024 1 31 0) ⟨"m", [-3], []⟩ =
      some ("", some .ErrNotValidRepeat)) ∧
    (∀ fuel, mParse fuel (mkDate 2024 2 1 0) (mkDate 2024 1 31 0) ⟨"m", [], [1]⟩ =
      some ("", some .ErrNotValidRepeat)) ∧
    (∀ fuel, mParse fuel (mkDate 2024 2 1 0) (mkDate 2024 1 31 0) ⟨"m", [1], [12, 13]⟩ =
      some ("", some .ErrNotValidRepeat)) := by
  refine ⟨(C12_mParse_validation _ _ _).1.mpr ?_, (C12_mParse_validation _ _ _).1.mpr ?_,
    (C12_mParse_validation _ _ _).1.mpr ?_, (C12_mParse_validation _ _ _).1.mpr ?_,
    (C12_mParse_validation _ _ _).1.mpr ?_⟩
  · rintro ⟨-, hv, -⟩
    exact absurd (hv 0 (by decide)) (by decide)
  · rintro ⟨-, hv, -⟩
    exact absurd (hv 32 (by decide)) (by decide)
  · rintro ⟨-, hv, -⟩
    exact absurd (hv (-3) (by decide)) (by decide)
  · rintro ⟨hne, -, -⟩
    exact hne rfl
  · rintro ⟨-, -, hm⟩
    exact absurd (hm 13 (by decide)) (by decide)

/-- C20 at base `20240101`, rule `w 1,3`: for `now` 2024-01-01 and 2024-01-03
the results are 20240103 and 20240108, candidates in this order. -/
theorem C20_witness_week_rule :
    (mkDate 2024 1 1 0).ns ≤ (mkDate 2024 1 3 0).ns ∧
    NextDate 7 (mkDate 2024 1 1 0) "20240101" "w 1,3" = some ("20240103", none) ∧
    NextDate 7 (mkDate 2024 1 3 0) "20240101" "w 1,3" = some ("20240108", none) ∧
    ∃ (base : Time) (r : Repeat) (k1 k2 : Nat), timeParse "20240101" = .ok base ∧
      ParseRepeat "w 1,3" = (r, none) ∧ k1 ≤ k2 ∧
      "20240103" = ((nextCandidate r)^[k1] (firstCandidate r base)).Format ∧
      "20240108" = ((nextCandidate r)^[k2] (firstCandidate r base)).Format ∧
      ((nextCandidate r)^[k1] (firstCandidate r base)).ns ≤
        ((nextCandidate r)^[k2] (firstCandidate r base)).ns ∧
      ((r.Period = "d" ∨ r.Period = "y") →
        ((nextCandidate r)^[k1] (firstCandidate r base)).Before (mkDate 2024 1 3 0) = false →
        "20240103" = "20240108") ∧
      ((r.Period = "w" ∨ r.Period = "m") →
        ((nextCandidate r)^[k1] (firstCandidate r base)).After (mkDate 2024 1 3 0) = true →
        "20240103" = "20240108") := by
  have hle : (mkDate 2024 1 1 0).ns ≤ (mkDate 2024 1 3 0).ns := by decide
  have h1 : NextDate 7 (mkDate 2024 1 1 0) "20240101" "w 1,3" = some ("20240103", none) := by
    decide
  have h2 : NextDate 7 (mkDate 2024 1 3 0) "20240101" "w 1,3" = some ("20240108", none) := by
    decide
  exact ⟨hle, h1, h2, C20_NextDate_monotone_in_now 7 7 _ _ _ _ _ _ hle h1 h2⟩

end TaskScheduler
